import Mathlib

/-!
# LearnCxxPrimer: the hand-written `StrVec` container and other chapter programs

The first and largest part is a shallow embedding of `class StrVec` (src/src/chpt13.cpp,
repeated in chpt14.cpp and chpt16.cpp) over an explicit model of
`std::allocator<std::string>`.  Further parts embed `StrBlob` / `Blob<T>` and `StrBlobPtr`
(chpt12.cpp, chpt14.cpp, chpt16.cpp) over a store of reference-counted vectors, the functions
`fact`, `myFact` and `countCalls` of chpt06.cpp, and `main` of chpt05.cpp.

* Allocator memory is a list of blocks.  A block is either released (`none`) or
  live (`some slots`); every slot of a live block is either raw storage (`none`)
  or holds a constructed string (`some s`).
* Every allocator call that C++ leaves undefined (constructing outside a live
  block, destroying or reading raw storage, releasing a block twice, ...) makes
  the model return `none`.  A result `some _` therefore says that the call
  sequence was well defined.
* The heap records every allocator call in `log`, in program order.
* A reference parameter of `push_back` or `emplace_back` is what it is bound to (`Ref`): a
  string outside allocator storage, or a slot of allocator storage such as `*v.begin()`.
  The string is read when the code reads it, after `chk_n_alloc()`.
* `std::allocator::allocate` is taken to succeed (the spec treats allocation
  failure as a fatal error), and `size_t` arithmetic is done in `Nat`:
  `2 * size()` cannot wrap, a buffer of `2^63` strings cannot be allocated.
-/

namespace LearnCxx

/-- A `std::string *`: the null pointer, or slot `off` of allocator block `block`. -/
inductive Ptr where
  | null : Ptr
  | addr (block off : Nat) : Ptr
  deriving DecidableEq, Repr

/-- Pointer plus integer, `p + k`. -/
def Ptr.add : Ptr → Nat → Ptr
  | .null, _ => .null
  | .addr b i, k => .addr b (i + k)

/-- Pointer difference `p - q`, as `StrVec::size` and `StrVec::capacity` use it:
`nullptr - nullptr` is `0`, pointers into one block differ by their offsets.
(The three pointers of a `StrVec` always lie in one block with
`elements ≤ first_free ≤ cap`, see `StrVec.Rep`.) -/
def Ptr.diff : Ptr → Ptr → Nat
  | .addr _ i, .addr _ j => i - j
  | _, _ => 0

/-- One call into `std::allocator<std::string>`. -/
inductive Event where
  | allocate (b n : Nat)
  | construct (b i : Nat) (s : String)
  | moveConstruct (b i : Nat) (sb si : Nat) (s : String)
  | destroy (b i : Nat) (s : String)
  | deallocate (b n : Nat)
  deriving DecidableEq, Repr

/-- Allocator memory together with the log of allocator calls. -/
structure Heap where
  blocks : List (Option (List (Option String)))
  log : List Event
  deriving DecidableEq, Repr

namespace Heap

/-- The heap before any allocation. -/
def empty : Heap := ⟨[], []⟩

/-- The slots of block `b` when it is live. -/
def slots (h : Heap) (b : Nat) : Option (List (Option String)) :=
  match h.blocks[b]? with
  | some (some sl) => some sl
  | _ => none

/-- Overwrite the slots of block `b`. -/
def put (h : Heap) (b : Nat) (sl : List (Option String)) : Heap :=
  { blocks := h.blocks.set b (some sl), log := h.log }

/-- Mark block `b` as released. -/
def release (h : Heap) (b : Nat) : Heap :=
  { blocks := h.blocks.set b none, log := h.log }

/-- Append one allocator call to the log. -/
def emit (h : Heap) (e : Event) : Heap :=
  { blocks := h.blocks, log := h.log ++ [e] }

/-- Reading `*p`: defined only on a constructed slot of a live block. -/
def read (h : Heap) : Ptr → Option String
  | .null => none
  | .addr b i =>
    match h.slots b with
    | some sl =>
      match sl[i]? with
      | some (some s) => some s
      | _ => none
    | none => none

/-- `alloc.allocate(n)`: a fresh block of `n` raw slots; the result points to its start. -/
def allocate (h : Heap) (n : Nat) : Heap × Ptr :=
  ({ blocks := h.blocks ++ [some (List.replicate n none)],
     log := h.log ++ [Event.allocate h.blocks.length n] },
   Ptr.addr h.blocks.length 0)

/-- `alloc.construct(p, s)`: placement-construct a copy of `s` in the raw slot `p`. -/
def construct (h : Heap) (p : Ptr) (s : String) : Option Heap :=
  match p with
  | .null => none
  | .addr b i =>
    match h.slots b with
    | some sl =>
      if sl[i]? = some none then
        some ((h.put b (sl.set i (some s))).emit (Event.construct b i s))
      else none
    | none => none

/-- `alloc.construct(p, std::move(*q))`: the string held by `q` is moved into the raw
slot `p`; `q` stays constructed, holding the moved-from (empty) string. -/
def moveConstruct (h : Heap) (p q : Ptr) : Option Heap :=
  match p, q with
  | .addr b i, .addr sb si =>
    match h.read q, h.slots sb with
    | some s, some ssl =>
      let h1 := h.put sb (ssl.set si (some ""))
      match h1.slots b with
      | some sl =>
        if sl[i]? = some none then
          some ((h1.put b (sl.set i (some s))).emit (Event.moveConstruct b i sb si s))
        else none
      | none => none
    | _, _ => none
  | _, _ => none

/-- `alloc.destroy(p)`: run the destructor of the string in slot `p`, leaving raw storage. -/
def destroy (h : Heap) (p : Ptr) : Option Heap :=
  match p with
  | .null => none
  | .addr b i =>
    match h.slots b with
    | some sl =>
      match sl[i]? with
      | some (some s) => some ((h.put b (sl.set i none)).emit (Event.destroy b i s))
      | _ => none
    | none => none

/-- `alloc.deallocate(p, n)`: `p` must be the start of a live block of exactly `n` slots. -/
def deallocate (h : Heap) (p : Ptr) (n : Nat) : Option Heap :=
  match p with
  | .addr b 0 =>
    match h.slots b with
    | some sl =>
      if sl.length = n then some ((h.release b).emit (Event.deallocate b n))
      else none
    | none => none
  | _ => none

end Heap

/-- What a reference parameter (`const std::string &`, `std::string &&`, a forwarded
`Args &&`) is bound to: a string object outside allocator storage (a local variable, a
temporary), or the string in a slot of allocator storage, such as `*v.begin()`. -/
inductive Ref where
  | obj (s : String) : Ref
  | slot (p : Ptr) : Ref
  deriving DecidableEq, Repr

/-- Reading the string a reference is bound to.  A slot must be a constructed slot of a live
block: reading through a reference into released or raw storage is undefined. -/
def Ref.read (h : Heap) : Ref → Option String
  | .obj s => some s
  | .slot p => h.read p

/-- Moving from the string a reference is bound to (`std::move(s)` handed to the move
constructor of `std::string`): the value taken, and the heap afterwards, in which a slot
that was moved from holds the moved-from (empty) string, as in `Heap.moveConstruct`.  An
object outside allocator storage is moved from as well; the model does not keep such
objects. -/
def Ref.take (h : Heap) : Ref → Option (String × Heap)
  | .obj s => some (s, h)
  | .slot .null => none
  | .slot (.addr b i) =>
    match h.slots b with
    | some sl =>
      match sl[i]? with
      | some (some s) => some (s, h.put b (sl.set i (some "")))
      | _ => none
    | none => none

/-- An input range handed to `std::uninitialized_copy`: either `[b, e)` in allocator
memory, or the backing array of a `std::initializer_list<std::string>`. -/
inductive Range where
  | mem (b e : Ptr) : Range
  | il (xs : List String) : Range
  deriving DecidableEq, Repr

/-- Number of elements `e - b` of a range. -/
def Range.len : Range → Nat
  | .mem b e => e.diff b
  | .il xs => xs.length

/-- Dereferencing the iterator `b + i` of a range. -/
def Range.deref (h : Heap) : Range → Nat → Option String
  | .mem b _, i => h.read (b.add i)
  | .il xs, i => xs[i]?

/-- Loop of `std::uninitialized_copy`: `k` more elements, the next one has index `i`. -/
def copyLoop (r : Range) (d : Ptr) : Nat → Nat → Heap → Option Heap
  | _, 0, h => some h
  | i, k + 1, h =>
    match r.deref h i with
    | some s =>
      match h.construct (d.add i) s with
      | some h1 => copyLoop r d (i + 1) k h1
      | none => none
    | none => none

/-- `std::uninitialized_copy(b, e, d)`: copy-construct the range into raw storage at `d`,
first to last; returns the pointer one past the last constructed element. -/
def uninitialized_copy (h : Heap) (r : Range) (d : Ptr) : Option (Heap × Ptr) :=
  match copyLoop r d 0 r.len h with
  | some h1 => some (h1, d.add r.len)
  | none => none

/-- Loop of `std::uninitialized_copy` over move iterators. -/
def moveLoop (b d : Ptr) : Nat → Nat → Heap → Option Heap
  | _, 0, h => some h
  | i, k + 1, h =>
    match h.moveConstruct (d.add i) (b.add i) with
    | some h1 => moveLoop b d (i + 1) k h1
    | none => none

/-- `std::uninitialized_copy(std::make_move_iterator(b), std::make_move_iterator(e), d)`. -/
def uninitialized_move (h : Heap) (b e d : Ptr) : Option (Heap × Ptr) :=
  match moveLoop b d 0 (e.diff b) h with
  | some h1 => some (h1, d.add (e.diff b))
  | none => none

/-- Log of copy-constructing `xs` into slots `i, i + 1, ...` of block `b`. -/
def constructEvents (b : Nat) : Nat → List String → List Event
  | _, [] => []
  | i, s :: ss => Event.construct b i s :: constructEvents b (i + 1) ss

/-- Log of move-constructing `xs` from slots `i, i + 1, ...` of block `sb` into the same
slots of block `b`. -/
def moveEvents (b sb : Nat) : Nat → List String → List Event
  | _, [] => []
  | i, s :: ss => Event.moveConstruct b i sb i s :: moveEvents b sb (i + 1) ss

/-- Log of destroying the strings `xs` held in slots `i, i + 1, ...` of block `b`,
the last one first. -/
def destroyEvents (b : Nat) : Nat → List String → List Event
  | _, [] => []
  | i, s :: ss => destroyEvents b (i + 1) ss ++ [Event.destroy b i s]

/-- Whether an allocator call is an `allocate`. -/
def Event.isAllocate : Event → Bool
  | .allocate _ _ => true
  | _ => false

/-- Number of `allocate` calls made so far. -/
def Heap.allocations (h : Heap) : Nat := h.log.countP Event.isAllocate

/-- The `destroy` calls for the strings `xs` held in slots `i, i + 1, ...` of block `b`,
listed in index order. -/
def destroyCalls (b : Nat) : Nat → List String → List Event
  | _, [] => []
  | i, s :: ss => Event.destroy b i s :: destroyCalls b (i + 1) ss

/-- The data members of `class StrVec`. -/
structure StrVec where
  elements : Ptr
  first_free : Ptr
  cap : Ptr
  deriving DecidableEq, Repr

namespace StrVec

/-- `StrVec() : elements(nullptr), first_free(nullptr), cap(nullptr) {}` -/
def default : StrVec := ⟨Ptr.null, Ptr.null, Ptr.null⟩

/-- `size_t size() const { return first_free - elements; }` -/
def size (v : StrVec) : Nat := v.first_free.diff v.elements

/-- `size_t capacity() const { return cap - elements; }` -/
def capacity (v : StrVec) : Nat := v.cap.diff v.elements

/-- `std::string *begin() const { return elements; }` -/
def begin (v : StrVec) : Ptr := v.elements

/-- `std::string *end() const { return first_free; }` -/
def «end» (v : StrVec) : Ptr := v.first_free

/-- `StrVec::alloc_n_copy(b, e)`: allocate exactly `e - b` slots and copy the range there. -/
def alloc_n_copy (h : Heap) (r : Range) : Option (Heap × Ptr × Ptr) :=
  let a := h.allocate r.len
  match uninitialized_copy a.1 r a.2 with
  | some (h1, last) => some (h1, a.2, last)
  | none => none

/-- The loop of `StrVec::free`: `for (auto p = first_free; p != elements;) alloc.destroy(--p);`
with `p` at offset `hi` and `elements` at offset `lo` of block `b`. -/
def destroyLoop (b lo : Nat) : Nat → Heap → Option Heap
  | 0, h => if lo = 0 then some h else none
  | k + 1, h =>
    if k + 1 = lo then some h
    else
      match h.destroy (Ptr.addr b k) with
      | some h1 => destroyLoop b lo k h1
      | none => none

/-- `StrVec::free()`. -/
def free (h : Heap) (v : StrVec) : Option Heap :=
  match v.elements with
  | .null => some h
  | .addr b lo =>
    match v.first_free with
    | .addr b1 hi =>
      if b1 = b then
        match destroyLoop b lo hi h with
        | some h1 => h1.deallocate v.elements (v.cap.diff v.elements)
        | none => none
      else none
    | .null => none

/-- `StrVec::~StrVec() { free(); }` -/
def destructor (h : Heap) (v : StrVec) : Option Heap := free h v

/-- `StrVec::reallocate()`. -/
def reallocate (h : Heap) (v : StrVec) : Option (Heap × StrVec) :=
  let newcapacity := if v.size ≠ 0 then 2 * v.size else 1
  let a := h.allocate newcapacity
  match uninitialized_move a.1 v.begin v.end a.2 with
  | some (h1, last) =>
    match free h1 v with
    | some h2 => some (h2, { elements := a.2, first_free := last, cap := a.2.add newcapacity })
    | none => none
  | none => none

/-- `void chk_n_alloc() { if (size() == capacity()) reallocate(); }` -/
def chk_n_alloc (h : Heap) (v : StrVec) : Option (Heap × StrVec) :=
  if v.size = v.capacity then reallocate h v else some (h, v)

/-- `void StrVec::push_back(const std::string &s) { chk_n_alloc();
alloc.construct(first_free++, s); }`: the reference `s` is read after `chk_n_alloc()`. -/
def push_back (h : Heap) (v : StrVec) (s : Ref) : Option (Heap × StrVec) :=
  match chk_n_alloc h v with
  | some (h1, v1) =>
    match s.read h1 with
    | some x =>
      match h1.construct v1.first_free x with
      | some h2 => some (h2, { v1 with first_free := v1.first_free.add 1 })
      | none => none
    | none => none
  | none => none

/-- `void StrVec::push_back(std::string &&s) { chk_n_alloc();
alloc.construct(first_free++, std::move(s)); }`: the new element is move-constructed from
`s` after `chk_n_alloc()`. -/
def push_back_rv (h : Heap) (v : StrVec) (s : Ref) : Option (Heap × StrVec) :=
  match chk_n_alloc h v with
  | some (h1, v1) =>
    match s.take h1 with
    | some (x, h2) =>
      match h2.construct v1.first_free x with
      | some h3 => some (h3, { v1 with first_free := v1.first_free.add 1 })
      | none => none
    | none => none
  | none => none

/-- Constructor arguments forwarded by `emplace_back` to `std::string`: none, a string
passed as an lvalue (copied), a string passed as an rvalue (moved from), or a count and a
character. -/
inductive Args where
  | none : Args
  | copy (s : Ref) : Args
  | move (s : Ref) : Args
  | fill (n : Nat) (c : Char) : Args
  deriving DecidableEq, Repr

/-- The string that `std::string(std::forward<Args>(args)...)` builds, and the heap after
the arguments were used. -/
def Args.build (h : Heap) : Args → Option (String × Heap)
  | .none => some ("", h)
  | .copy s =>
    match s.read h with
    | Option.some x => Option.some (x, h)
    | Option.none => Option.none
  | .move s => s.take h
  | .fill n c => some (String.mk (List.replicate n c), h)

/-- `template <class... Args> void StrVec::emplace_back(Args &&... args) { chk_n_alloc();
alloc.construct(first_free++, std::forward<Args>(args)...); }` (chpt16.cpp). -/
def emplace_back (h : Heap) (v : StrVec) (args : Args) : Option (Heap × StrVec) :=
  match chk_n_alloc h v with
  | some (h1, v1) =>
    match args.build h1 with
    | some (x, h2) =>
      match h2.construct v1.first_free x with
      | some h3 => some (h3, { v1 with first_free := v1.first_free.add 1 })
      | none => none
    | none => none
  | none => none

/-- `StrVec::StrVec(const StrVec &s)`. -/
def copy_ctor (h : Heap) (s : StrVec) : Option (Heap × StrVec) :=
  match alloc_n_copy h (Range.mem s.begin s.end) with
  | some (h1, first, last) => some (h1, { elements := first, first_free := last, cap := last })
  | none => none

/-- `StrVec::StrVec(std::initializer_list<std::string> il)`. -/
def il_ctor (h : Heap) (il : List String) : Option (Heap × StrVec) :=
  match alloc_n_copy h (Range.il il) with
  | some (h1, first, last) => some (h1, { elements := first, first_free := last, cap := last })
  | none => none

/-- `StrVec &StrVec::operator=(const StrVec &rhs)`; for `v = v` pass the same value twice. -/
def copy_assign (h : Heap) (this rhs : StrVec) : Option (Heap × StrVec) :=
  match alloc_n_copy h (Range.mem rhs.begin rhs.end) with
  | some (h1, first, last) =>
    match free h1 this with
    | some h2 => some (h2, { elements := first, first_free := last, cap := last })
    | none => none
  | none => none

/-- `StrVec &StrVec::operator=(std::initializer_list<std::string> il)`. -/
def il_assign (h : Heap) (this : StrVec) (il : List String) : Option (Heap × StrVec) :=
  match alloc_n_copy h (Range.il il) with
  | some (h1, first, last) =>
    match free h1 this with
    | some h2 => some (h2, { elements := first, first_free := last, cap := last })
    | none => none
  | none => none

/-- `StrVec::StrVec(StrVec &&s) noexcept`: returns the new object and the moved-from `s`. -/
def move_ctor (s : StrVec) : StrVec × StrVec :=
  ({ elements := s.elements, first_free := s.first_free, cap := s.cap }, StrVec.default)

/-- `StrVec &StrVec::operator=(StrVec &&rhs) noexcept`; `same` is the outcome of the
address test `this == &rhs`.  Returns the heap, `*this` and `rhs` after the call. -/
def move_assign (h : Heap) (this rhs : StrVec) (same : Bool) :
    Option (Heap × StrVec × StrVec) :=
  if same = false then
    match free h this with
    | some h1 =>
      some (h1, { elements := rhs.elements, first_free := rhs.first_free, cap := rhs.cap },
        StrVec.default)
    | none => none
  else some (h, this, rhs)

/-- The strings in `[begin(), end())`, read from memory in order. -/
def readLoop (h : Heap) (b : Ptr) : Nat → Nat → Option (List String)
  | _, 0 => some []
  | i, k + 1 =>
    match h.read (b.add i), readLoop h b (i + 1) k with
    | some s, some rest => some (s :: rest)
    | _, _ => none

/-- The element sequence of `v`: `*begin()`, ..., `*(end() - 1)`. -/
def toList (h : Heap) (v : StrVec) : Option (List String) :=
  readLoop h v.begin 0 v.size

/-- Representation invariant of `StrVec`, together with the element sequence it stands for:
either all three pointers are null and the vector is empty, or `elements` is the start of a
live block `b` of `c` slots, `first_free = elements + xs.length`, `cap = elements + c`
with `xs.length ≤ c`, the first `xs.length` slots hold the strings `xs` and the remaining
slots are raw storage. -/
def Rep (h : Heap) (v : StrVec) (xs : List String) : Prop :=
  (v = StrVec.default ∧ xs = []) ∨
  ∃ b c, v = ⟨Ptr.addr b 0, Ptr.addr b xs.length, Ptr.addr b c⟩ ∧ xs.length ≤ c ∧
    h.slots b = some (xs.map some ++ List.replicate (c - xs.length) none)

/-- Every block of `h` that `v` does not own is unchanged in `h1`, and no block vanished. -/
def Frame (h h1 : Heap) (v : StrVec) : Prop :=
  h.blocks.length ≤ h1.blocks.length ∧
  ∀ b, b < h.blocks.length → v.elements ≠ Ptr.addr b 0 → h1.slots b = h.slots b

/-- Allocator calls of `free()` on a vector holding `xs`: the elements are destroyed last
to first, then the block is released with the full capacity. -/
def freeEvents (v : StrVec) (xs : List String) : List Event :=
  match v.elements with
  | .null => []
  | .addr b _ => destroyEvents b 0 xs ++ [Event.deallocate b v.capacity]

/-- Allocator calls of `reallocate()` on a vector holding `xs`, the new block being `nb`. -/
def reallocEvents (nb : Nat) (v : StrVec) (xs : List String) : List Event :=
  Event.allocate nb (max 1 (2 * xs.length)) ::
    ((match v.elements with
      | .null => []
      | .addr b _ => moveEvents nb b 0 xs) ++ freeEvents v (List.replicate xs.length ""))

/-- One `push_back` call of a program: the overload chosen and the string the argument
refers to. -/
inductive PushCall where
  | lvalue (s : Ref) : PushCall
  | rvalue (s : Ref) : PushCall
  deriving DecidableEq, Repr

/-- The argument of a call. -/
def PushCall.arg : PushCall → Ref
  | .lvalue s => s
  | .rvalue s => s

/-- The `push_back` call that does what `emplace_back(args...)` does. -/
def Args.asCall : Args → PushCall
  | .none => PushCall.lvalue (Ref.obj "")
  | .copy s => PushCall.lvalue s
  | .move s => PushCall.rvalue s
  | .fill n c => PushCall.lvalue (Ref.obj (String.mk (List.replicate n c)))

/-- Perform one `push_back` call. -/
def PushCall.call (h : Heap) (v : StrVec) : PushCall → Option (Heap × StrVec)
  | .lvalue s => push_back h v s
  | .rvalue s => push_back_rv h v s

/-- Perform the calls in order; the result lists the state after each call. -/
def pushTrace (h : Heap) (v : StrVec) : List PushCall → Option (List (Heap × StrVec))
  | [] => some []
  | c :: cs =>
    match c.call h v with
    | some (h1, v1) =>
      match pushTrace h1 v1 cs with
      | some tr => some ((h1, v1) :: tr)
      | none => none
    | none => none

/-- Perform the calls in order; the result is the state after the last call. -/
def pushAll (h : Heap) (v : StrVec) : List PushCall → Option (Heap × StrVec)
  | [] => some (h, v)
  | c :: cs =>
    match c.call h v with
    | some (h1, v1) => pushAll h1 v1 cs
    | none => none

end StrVec

/-- The reference is bound to a string outside allocator storage. -/
def Ref.isObj : Ref → Bool
  | .obj _ => true
  | .slot _ => false

/-- The reference is not bound to a slot of the buffer of `v`. -/
def Ref.Outside (v : StrVec) : Ref → Prop
  | .obj _ => True
  | .slot .null => True
  | .slot (.addr b _) => v.elements ≠ Ptr.addr b 0

/-- The reference can be used as the argument of `push_back` on `v`: it is bound to a
string, and not to an element of `v` while `v` is full. -/
def Ref.Usable (h : Heap) (v : StrVec) (r : Ref) : Prop :=
  (∃ x, r.read h = some x) ∧ (r.Outside v ∨ v.size ≠ v.capacity)

/-- Heap `h1` is `h` after at most one constructed string was moved from: the same blocks,
the same raw and constructed slots, the same log. -/
def Heap.MovedFrom (h h1 : Heap) : Prop :=
  h1 = h ∨ ∃ b sl i s, h.slots b = some sl ∧ sl[i]? = some (some s) ∧
    h1 = h.put b (sl.set i (some ""))

/-- Every call of the sequence is handed a reference that can be used when the call is made. -/
def StrVec.UsableAll (h : Heap) (v : StrVec) : List StrVec.PushCall → Prop
  | [] => True
  | c :: cs => c.arg.Usable h v ∧ ∀ h1 v1, c.call h v = some (h1, v1) → UsableAll h1 v1 cs

/-- The range `r` yields the strings `xs`, whatever happens to blocks allocated later. -/
def Range.Holds (h : Heap) (r : Range) (xs : List String) : Prop :=
  r.len = xs.length ∧
  ∀ h1 : Heap, (∀ b, b < h.blocks.length → h1.slots b = h.slots b) →
    ∀ j s, xs[j]? = some s → r.deref h1 j = some s

/-- Heap `h1` arises from `h` by the allocator calls `evs`, which touch block `b` only and
leave it with contents `sl` (`none` when it was released). -/
structure Touch (h h1 : Heap) (b : Nat) (sl : Option (List (Option String)))
    (evs : List Event) : Prop where
  here : h1.slots b = sl
  frame : ∀ b1, b1 ≠ b → h1.slots b1 = h.slots b1
  len : h1.blocks.length = h.blocks.length
  log : h1.log = h.log ++ evs

/-! ## Programs over several `StrVec` objects -/

/-- A program state: allocator memory and the `StrVec` objects created so far, indexed by
their address; `none` marks an object whose lifetime has ended. -/
structure World where
  heap : Heap
  objs : List (Option StrVec)
  deriving DecidableEq, Repr

/-- What a statement leads to. -/
inductive Outcome where
  | ok (w : World) : Outcome
  | dead : Outcome
  | undefined : Outcome
  deriving DecidableEq, Repr

/-- The statements of a client of `StrVec`; objects are named by address. -/
inductive Stmt where
  | default_ctor : Stmt
  | il_ctor (il : List String) : Stmt
  | copy_ctor (src : Nat) : Stmt
  | move_ctor (src : Nat) : Stmt
  | push_back (this : Nat) (s : Ref) : Stmt
  | push_back_rv (this : Nat) (s : Ref) : Stmt
  | emplace_back (this : Nat) (args : StrVec.Args) : Stmt
  | copy_assign (this rhs : Nat) : Stmt
  | move_assign (this rhs : Nat) : Stmt
  | il_assign (this : Nat) (il : List String) : Stmt
  | destructor (this : Nat) : Stmt
  deriving DecidableEq, Repr

/-- The object and the call of a statement that appends an element. -/
def Stmt.pushCall : Stmt → Option (Nat × StrVec.PushCall)
  | .push_back this s => some (this, StrVec.PushCall.lvalue s)
  | .push_back_rv this s => some (this, StrVec.PushCall.rvalue s)
  | .emplace_back this args => some (this, args.asCall)
  | _ => none

namespace World

/-- The state before the first statement. -/
def empty : World := ⟨Heap.empty, []⟩

/-- The object at address `i`, when it is alive. -/
def get (w : World) (i : Nat) : Option StrVec :=
  match w.objs[i]? with
  | some (some v) => some v
  | _ => none

/-- A newly constructed object gets the next address. -/
def create (w : World) (h : Heap) (v : StrVec) : World :=
  { heap := h, objs := w.objs ++ [some v] }

/-- New heap and new members for the object at address `i`. -/
def update (w : World) (h : Heap) (i : Nat) (v : StrVec) : World :=
  { heap := h, objs := w.objs.set i (some v) }

/-- Run a member function of the object at `this` that changes the heap and `*this`. -/
def method (w : World) (this : Nat) (f : Heap → StrVec → Option (Heap × StrVec)) : Outcome :=
  match w.get this with
  | some v =>
    match f w.heap v with
    | some (h1, v1) => Outcome.ok (w.update h1 this v1)
    | none => Outcome.undefined
  | none => Outcome.dead

/-- Execute one statement.  `Outcome.dead`: the statement names an object outside its
lifetime.  `Outcome.undefined`: an allocator call was undefined. -/
def exec (w : World) : Stmt → Outcome
  | .default_ctor => Outcome.ok (w.create w.heap StrVec.default)
  | .il_ctor il =>
    match StrVec.il_ctor w.heap il with
    | some (h1, v) => Outcome.ok (w.create h1 v)
    | none => Outcome.undefined
  | .copy_ctor src =>
    match w.get src with
    | some s =>
      match StrVec.copy_ctor w.heap s with
      | some (h1, v) => Outcome.ok (w.create h1 v)
      | none => Outcome.undefined
    | none => Outcome.dead
  | .move_ctor src =>
    match w.get src with
    | some s =>
      Outcome.ok ((w.update w.heap src (StrVec.move_ctor s).2).create w.heap
        (StrVec.move_ctor s).1)
    | none => Outcome.dead
  | .push_back this s => w.method this (fun h v => StrVec.push_back h v s)
  | .push_back_rv this s => w.method this (fun h v => StrVec.push_back_rv h v s)
  | .emplace_back this args => w.method this (fun h v => StrVec.emplace_back h v args)
  | .copy_assign this rhs =>
    match w.get rhs with
    | some r => w.method this (fun h v => StrVec.copy_assign h v r)
    | none => Outcome.dead
  | .move_assign this rhs =>
    match w.get this, w.get rhs with
    | some v, some r =>
      match StrVec.move_assign w.heap v r (decide (this = rhs)) with
      | some (h1, v1, r1) => Outcome.ok ((w.update h1 rhs r1).update h1 this v1)
      | none => Outcome.undefined
    | _, _ => Outcome.dead
  | .il_assign this il => w.method this (fun h v => StrVec.il_assign h v il)
  | .destructor this =>
    match w.get this with
    | some v =>
      match StrVec.destructor w.heap v with
      | some h1 => Outcome.ok { heap := h1, objs := w.objs.set this none }
      | none => Outcome.undefined
    | none => Outcome.dead

/-- Execute statements in order, stopping at the first one that does not succeed. -/
def run (w : World) : List Stmt → Outcome
  | [] => Outcome.ok w
  | st :: rest =>
    match exec w st with
    | Outcome.ok w1 => run w1 rest
    | o => o

/-- Invariant of a program state: every live object satisfies the representation invariant
of `StrVec` in the current heap, and no two live objects own the same block. -/
def Inv (w : World) : Prop :=
  (∀ i v, w.get i = some v → ∃ xs, StrVec.Rep w.heap v xs) ∧
  (∀ i j v u b, i ≠ j → w.get i = some v → w.get j = some u →
    v.elements = Ptr.addr b 0 → u.elements ≠ Ptr.addr b 0)

/-- The arguments of the statement can be used in state `w`: a statement that appends an
element passes a reference that is bound to a string, and not to an element of the vector
it appends to while that vector is full. -/
def Defined (w : World) (st : Stmt) : Prop :=
  ∀ this c v, st.pushCall = some (this, c) → w.get this = some v → c.arg.Usable w.heap v

end World

/-- A run is safe when it ends in a state satisfying the invariant or stops at a statement
naming an object outside its lifetime; it never performs an undefined allocator call. -/
def Outcome.Safe : Outcome → Prop
  | .ok w => w.Inv
  | .dead => True
  | .undefined => False

namespace World

/-- In state `w` the objects at addresses `i` and `j`, with members `s` and `c`, both hold
the elements `xs`; and when the reference `t` is not bound to an element of the vector it is
appended to, or that vector has spare capacity, `push_back(t)` on either one succeeds,
appends the string `x` that `t` is bound to, and leaves the members and the elements of the
other one as they were. -/
def Independent (w : World) (i j : Nat) (s c : StrVec) (xs : List String) (t : Ref)
    (x : String) : Prop :=
  StrVec.toList w.heap s = some xs ∧ StrVec.toList w.heap c = some xs ∧
  ((t.Outside c ∨ c.size < c.capacity) →
    ∃ w2 c2, w.exec (Stmt.push_back j t) = Outcome.ok w2 ∧
      w2.get i = some s ∧ StrVec.toList w2.heap s = some xs ∧
      w2.get j = some c2 ∧ StrVec.toList w2.heap c2 = some (xs ++ [x])) ∧
  ((t.Outside s ∨ s.size < s.capacity) →
    ∃ w2 s2, w.exec (Stmt.push_back i t) = Outcome.ok w2 ∧
      w2.get j = some c ∧ StrVec.toList w2.heap c = some xs ∧
      w2.get i = some s2 ∧ StrVec.toList w2.heap s2 = some (xs ++ [x]))

end World

/-! ## Example states -/

/-- Example state: the vector left by `push_back` of "a", "b", "c" on a default-constructed
`StrVec` in the empty heap (size 3, capacity 4, block 2). -/
def exampleState : Heap × StrVec :=
  (StrVec.pushAll Heap.empty StrVec.default
    [StrVec.PushCall.lvalue (Ref.obj "a"), StrVec.PushCall.lvalue (Ref.obj "b"),
      StrVec.PushCall.rvalue (Ref.obj "c")]).getD
    (Heap.empty, StrVec.default)

/-- Example program: a vector built from `{"a", "b"}` and a default-constructed one. -/
def exampleProgram : List Stmt := [Stmt.il_ctor ["a", "b"], Stmt.default_ctor]

/-- Example program state: the state after `exampleProgram`. -/
def exampleWorld : World :=
  match World.run World.empty exampleProgram with
  | Outcome.ok w => w
  | _ => World.empty

/-! ## Counting the elements that `reallocate` moves -/

/-- The exceptions the chapter programs throw, with their `what()` text. -/
inductive Exn where
  | out_of_range (what : String) : Exn
  | runtime_error (what : String) : Exn
  deriving DecidableEq, Repr

/-- Result of a call that may throw: a value, an exception, or undefined behaviour
(`back()` of an empty `std::vector`, a `shared_ptr` without a live object, ...). -/
inductive Result (α : Type) where
  | ok (a : α) : Result α
  | throw (e : Exn) : Result α
  | undefined : Result α
  deriving DecidableEq, Repr

/-- The object made by `make_shared<vector<T>>`: the vector, and `use_count()`, the number
of `shared_ptr`s that own it.  When `uses` drops to `0` the vector is destroyed. -/
structure SharedVec (α : Type) where
  value : List α
  uses : Nat
  deriving DecidableEq, Repr

/-- The shared vectors made so far, by identity. -/
abbrev Store (α : Type) := List (SharedVec α)

/-- The vector with identity `id`, when it is still alive. -/
def Store.live {α : Type} (st : Store α) (id : Nat) : Option (List α) :=
  match st[id]? with
  | some c => if c.uses = 0 then none else some c.value
  | none => none

/-- Replace the value of the vector with identity `id`. -/
def Store.assign {α : Type} (st : Store α) (id : Nat) (xs : List α) : Store α :=
  match st[id]? with
  | some c => st.set id { c with value := xs }
  | none => st

/-- `make_shared<vector<T>>(il)`: a new vector owned by one `shared_ptr`. -/
def Store.make_shared {α : Type} (st : Store α) (il : List α) : Store α × Nat :=
  (st ++ [{ value := il, uses := 1 }], st.length)

/-- Copying a `shared_ptr`: one more owner. -/
def Store.acquire {α : Type} (st : Store α) (id : Nat) : Store α :=
  match st[id]? with
  | some c => st.set id { c with uses := c.uses + 1 }
  | none => st

/-- Destroying a `shared_ptr`: one owner less; the last one destroys the vector. -/
def Store.drop {α : Type} (st : Store α) (id : Nat) : Store α :=
  match st[id]? with
  | some c => st.set id { c with uses := c.uses - 1 }
  | none => st

/-- `wptr.lock()`: the vector when the `weak_ptr` is bound to one that is still alive. -/
def Store.lock {α : Type} (st : Store α) : Option Nat → Option (List α)
  | some id => st.live id
  | none => none

/-- `class Blob<T>` (chpt16.cpp): the member `data`, a `shared_ptr<vector<T>>`, given by the
identity of the vector it owns. -/
structure Blob where
  data : Nat
  deriving DecidableEq, Repr

/-- `class StrBlob` (chpt12.cpp, chpt14.cpp) is `Blob<string>` with its own messages. -/
abbrev StrBlob := Blob

namespace Blob

/-- `Blob(initializer_list<T> il) : data(make_shared<vector<T>>(il))`; `Blob()` is the case
of the empty list. -/
def create {α : Type} (st : Store α) (il : List α) : Store α × Blob :=
  ((st.make_shared il).1, ⟨(st.make_shared il).2⟩)

/-- The implicit copy constructor: the copy shares `data`. -/
def copy {α : Type} (st : Store α) (b : Blob) : Store α × Blob := (st.acquire b.data, b)

/-- The implicit destructor. -/
def destroy {α : Type} (st : Store α) (b : Blob) : Store α := st.drop b.data

/-- `size_type size() const { return data->size(); }` -/
def size {α : Type} (st : Store α) (b : Blob) : Result Nat :=
  match st.live b.data with
  | some xs => Result.ok xs.length
  | none => Result.undefined

/-- `bool empty() const { return data->empty(); }` -/
def empty {α : Type} (st : Store α) (b : Blob) : Result Bool :=
  match st.live b.data with
  | some xs => Result.ok xs.isEmpty
  | none => Result.undefined

/-- `void push_back(const T &t) { data->push_back(t); }` -/
def push_back {α : Type} (st : Store α) (b : Blob) (t : α) : Result (Store α) :=
  match st.live b.data with
  | some xs => Result.ok (st.assign b.data (xs ++ [t]))
  | none => Result.undefined

/-- `void check(size_type i, const string &msg) const`:
`if (i >= data->size()) throw out_of_range(msg);` -/
def check {α : Type} (st : Store α) (b : Blob) (i : Nat) (msg : String) : Result Unit :=
  match st.live b.data with
  | some xs => if i ≥ xs.length then Result.throw (Exn.out_of_range msg) else Result.ok ()
  | none => Result.undefined

/-- `std::vector::front()`; undefined on an empty vector. -/
def vfront {α : Type} : List α → Result α
  | [] => Result.undefined
  | x :: _ => Result.ok x

/-- `std::vector::back()`; undefined on an empty vector. -/
def vback {α : Type} (xs : List α) : Result α :=
  match xs.getLast? with
  | some x => Result.ok x
  | none => Result.undefined

/-- `check(0, msg); return data->front();` with the message of the class. -/
def frontWith {α : Type} (msg : String) (st : Store α) (b : Blob) : Result α :=
  match check st b 0 msg with
  | Result.ok _ =>
    match st.live b.data with
    | some xs => vfront xs
    | none => Result.undefined
  | Result.throw e => Result.throw e
  | Result.undefined => Result.undefined

/-- `check(0, msg); return data->back();` with the message of the class. -/
def backWith {α : Type} (msg : String) (st : Store α) (b : Blob) : Result α :=
  match check st b 0 msg with
  | Result.ok _ =>
    match st.live b.data with
    | some xs => vback xs
    | none => Result.undefined
  | Result.throw e => Result.throw e
  | Result.undefined => Result.undefined

/-- `check(0, msg); data->pop_back();` with the message of the class; `std::vector::pop_back`
is undefined on an empty vector. -/
def pop_backWith {α : Type} (msg : String) (st : Store α) (b : Blob) : Result (Store α) :=
  match check st b 0 msg with
  | Result.ok _ =>
    match st.live b.data with
    | some [] => Result.undefined
    | some (x :: xs) => Result.ok (st.assign b.data (x :: xs).dropLast)
    | none => Result.undefined
  | Result.throw e => Result.throw e
  | Result.undefined => Result.undefined

/-- `T &Blob<T>::front()` and its `const` overload (chpt16.cpp). -/
def front {α : Type} (st : Store α) (b : Blob) : Result α := frontWith "front on empty Blob" st b

/-- `T &Blob<T>::back()` and its `const` overload (chpt16.cpp). -/
def back {α : Type} (st : Store α) (b : Blob) : Result α := backWith "back on empty Blob" st b

/-- `void Blob<T>::pop_back()` (chpt16.cpp). -/
def pop_back {α : Type} (st : Store α) (b : Blob) : Result (Store α) :=
  pop_backWith "pop_back on empty Blob" st b

/-- `T &Blob<T>::operator[](size_type i)` and its `const` overload (chpt16.cpp):
`check(i, "subscript out of range"); return (*data)[i];` -/
def subscript {α : Type} (st : Store α) (b : Blob) (i : Nat) : Result α :=
  match check st b i "subscript out of range" with
  | Result.ok _ =>
    match st.live b.data with
    | some xs =>
      match xs[i]? with
      | some x => Result.ok x
      | none => Result.undefined
    | none => Result.undefined
  | Result.throw e => Result.throw e
  | Result.undefined => Result.undefined

end Blob

namespace StrBlob

/-- `string &StrBlob::front()` and its `const` overload (chpt12.cpp). -/
def front (st : Store String) (b : StrBlob) : Result String :=
  Blob.frontWith "front on empty StrBlob" st b

/-- `string &StrBlob::back()` and its `const` overload (chpt12.cpp). -/
def back (st : Store String) (b : StrBlob) : Result String :=
  Blob.backWith "back on empty StrBlob" st b

/-- `void StrBlob::pop_back()` (chpt12.cpp). -/
def pop_back (st : Store String) (b : StrBlob) : Result (Store String) :=
  Blob.pop_backWith "pop_back on empty StrBlob" st b

end StrBlob

/-- `class StrBlobPtr` / `BlobPtr<T>`: `wptr` is `none` for an empty `weak_ptr`, else the
identity of the vector it observes; `curr` is the position. -/
structure StrBlobPtr where
  wptr : Option Nat
  curr : Nat
  deriving DecidableEq, Repr

namespace StrBlobPtr

/-- `StrBlobPtr() : curr(0) {}` -/
def default : StrBlobPtr := ⟨none, 0⟩

/-- `StrBlobPtr(StrBlob &a, size_t sz = 0) : wptr(a.data), curr(sz) {}` -/
def bind (a : StrBlob) (sz : Nat) : StrBlobPtr := ⟨some a.data, sz⟩

/-- `check(i, msg)`, with the text of the `runtime_error` of the class. -/
def checkWith {α : Type} (unbound : String) (st : Store α) (p : StrBlobPtr) (i : Nat)
    (msg : String) : Result (List α) :=
  match st.lock p.wptr with
  | none => Result.throw (Exn.runtime_error unbound)
  | some v =>
    if i ≥ v.length then Result.throw (Exn.out_of_range msg) else Result.ok v

/-- `StrBlobPtr::check` (chpt12.cpp, chpt14.cpp). -/
def check (st : Store String) (p : StrBlobPtr) (i : Nat) (msg : String) :
    Result (List String) :=
  checkWith "unbound StrBlobPtr" st p i msg

/-- `string &StrBlobPtr::deref() const`, also `operator*` of chpt14.cpp. -/
def deref (st : Store String) (p : StrBlobPtr) : Result String :=
  match check st p p.curr "dereference past end" with
  | Result.ok v =>
    match v[p.curr]? with
    | some s => Result.ok s
    | none => Result.undefined
  | Result.throw e => Result.throw e
  | Result.undefined => Result.undefined

/-- `StrBlobPtr &StrBlobPtr::incr()`, also the prefix `operator++` of chpt14.cpp. -/
def incr (st : Store String) (p : StrBlobPtr) : Result StrBlobPtr :=
  match check st p p.curr "increment past end of StrBlobPtr" with
  | Result.ok _ => Result.ok { p with curr := p.curr + 1 }
  | Result.throw e => Result.throw e
  | Result.undefined => Result.undefined

/-- `k` calls of `incr()` in a row, stopping at the first that throws. -/
def incrN (st : Store String) : Nat → StrBlobPtr → Result StrBlobPtr
  | 0, p => Result.ok p
  | k + 1, p =>
    match incr st p with
    | Result.ok p1 => incrN st k p1
    | Result.throw e => Result.throw e
    | Result.undefined => Result.undefined

end StrBlobPtr

namespace BlobPtr

/-- `BlobPtr<T>::check` (chpt16.cpp). -/
def check {α : Type} (st : Store α) (p : StrBlobPtr) (i : Nat) (msg : String) :
    Result (List α) :=
  StrBlobPtr.checkWith "unbound BlobPtr" st p i msg

end BlobPtr

/-- `use_count()` of the vector with identity `id` (`0` when there is none). -/
def Store.uses {α : Type} (st : Store α) (id : Nat) : Nat :=
  match st[id]? with
  | some c => c.uses
  | none => 0

/-- A program state of a client of `StrBlob`: the shared vectors, and the `StrBlob` objects
created so far by address (`none`: the object has been destroyed). -/
structure BlobWorld where
  store : Store String
  blobs : List (Option StrBlob)
  deriving DecidableEq, Repr

/-- The statements of a client of `StrBlob`; objects are named by address. -/
inductive BlobStmt where
  | create (il : List String) : BlobStmt
  | copy (src : Nat) : BlobStmt
  | assign (this rhs : Nat) : BlobStmt
  | destroy (this : Nat) : BlobStmt
  | push_back (this : Nat) (t : String) : BlobStmt
  | pop_back (this : Nat) : BlobStmt
  deriving DecidableEq, Repr

/-- What a statement leads to: a new state, an exception that leaves the block, a statement
that names a destroyed object, or undefined behaviour. -/
inductive BlobOutcome where
  | ok (w : BlobWorld) : BlobOutcome
  | thrown (e : Exn) : BlobOutcome
  | dead : BlobOutcome
  | undefined : BlobOutcome
  deriving DecidableEq, Repr

namespace BlobWorld

/-- The state before the first statement. -/
def empty : BlobWorld := ⟨[], []⟩

/-- The `StrBlob` at address `i`, when it is alive. -/
def get (w : BlobWorld) (i : Nat) : Option StrBlob :=
  match w.blobs[i]? with
  | some (some b) => some b
  | _ => none

/-- Number of `StrBlob` objects in the list whose `data` owns the vector `id`. -/
def owners : List (Option StrBlob) → Nat → Nat
  | [], _ => 0
  | some b :: l, id => (if b.data = id then 1 else 0) + owners l id
  | none :: l, id => owners l id

/-- Number of live `StrBlob` objects whose `data` owns the vector `id`. -/
def refs (w : BlobWorld) (id : Nat) : Nat := owners w.blobs id

/-- Execute one statement. -/
def exec (w : BlobWorld) : BlobStmt → BlobOutcome
  | .create il =>
    BlobOutcome.ok { store := (Blob.create w.store il).1,
                     blobs := w.blobs ++ [some (Blob.create w.store il).2] }
  | .copy src =>
    match w.get src with
    | some s =>
      BlobOutcome.ok { store := (Blob.copy w.store s).1,
                       blobs := w.blobs ++ [some (Blob.copy w.store s).2] }
    | none => BlobOutcome.dead
  | .assign this rhs =>
    match w.get this, w.get rhs with
    | some v, some r =>
      BlobOutcome.ok { store := (w.store.acquire r.data).drop v.data,
                       blobs := w.blobs.set this (some r) }
    | _, _ => BlobOutcome.dead
  | .destroy this =>
    match w.get this with
    | some v =>
      BlobOutcome.ok { store := Blob.destroy w.store v, blobs := w.blobs.set this none }
    | none => BlobOutcome.dead
  | .push_back this t =>
    match w.get this with
    | some v =>
      match Blob.push_back w.store v t with
      | Result.ok st => BlobOutcome.ok { store := st, blobs := w.blobs }
      | Result.throw e => BlobOutcome.thrown e
      | Result.undefined => BlobOutcome.undefined
    | none => BlobOutcome.dead
  | .pop_back this =>
    match w.get this with
    | some v =>
      match StrBlob.pop_back w.store v with
      | Result.ok st => BlobOutcome.ok { store := st, blobs := w.blobs }
      | Result.throw e => BlobOutcome.thrown e
      | Result.undefined => BlobOutcome.undefined
    | none => BlobOutcome.dead

/-- Execute statements in order, stopping at the first one that does not succeed. -/
def run (w : BlobWorld) : List BlobStmt → BlobOutcome
  | [] => BlobOutcome.ok w
  | s :: rest =>
    match exec w s with
    | BlobOutcome.ok w1 => run w1 rest
    | o => o

/-- Reference-count invariant: `use_count()` of every vector is the number of live `StrBlob`
objects that own it. -/
def Counted (w : BlobWorld) : Prop := ∀ id, w.store.uses id = w.refs id

end BlobWorld

namespace BlobWorld

end BlobWorld

/-- `p.incr()` `k` times and then `.deref()`, as in `p.incr().deref()`. -/
def StrBlobPtr.derefAfter (st : Store String) (k : Nat) (p : StrBlobPtr) : Result String :=
  match StrBlobPtr.incrN st k p with
  | Result.ok p1 => StrBlobPtr.deref st p1
  | Result.throw e => Result.throw e
  | Result.undefined => Result.undefined

/-- The demonstration of chpt12.cpp: `StrBlob b = StrBlob({"Hello", "World"});`. -/
def helloWorld : Store String × StrBlob := Blob.create [] ["Hello", "World"]

/-! ## Chapter 6: `fact`, `myFact`, `countCalls` (chpt06.cpp) -/

namespace Chpt06

/-- Largest `int` (32 bits). -/
def INT_MAX : Int := 2147483647

/-- Smallest `int` (32 bits). -/
def INT_MIN : Int := -2147483648

/-- `a * b` on `int`: signed overflow is undefined behaviour (`none`). -/
def mulInt (a b : Int) : Option Int :=
  if INT_MIN ≤ a * b ∧ a * b ≤ INT_MAX then some (a * b) else none

/-- The loop of `fact`, `while (val > 1) { ret *= val--; }`, with the current `val` given as
a natural number (`0` stands for every `val <= 0`). -/
def factLoop : Nat → Int → Option Int
  | 0, ret => some ret
  | 1, ret => some ret
  | v + 2, ret =>
    match mulInt ret ((v + 2 : Nat) : Int) with
    | some r => factLoop (v + 1) r
    | none => none

/-- `int fact(int val)`. -/
def fact (val : Int) : Option Int := factLoop val.toNat 1

/-- The recursion of `myFact` on `i >= 0`: `i == 0` gives `1`, else `i * myFact(i - 1)`. -/
def myFactNat : Nat → Option Int
  | 0 => some 1
  | n + 1 =>
    match myFactNat n with
    | some r => mulInt ((n + 1 : Nat) : Int) r
    | none => none

/-- `int myFact(int i)`. -/
def myFact (i : Int) : Option Int :=
  if i = 0 then some 1
  else if i < 0 then some 0
  else myFactNat i.toNat

/-- `size_t countCalls() { static size_t ctr = 0; return ++ctr; }` with the static `ctr`
passed explicitly; `size_t` is `w` bits wide (64 on LP64 platforms) and `++` wraps.
Returns the value returned and the new `ctr`. -/
def countCalls (w : Nat) (ctr : Nat) : Nat × Nat :=
  ((ctr + 1) % 2 ^ w, (ctr + 1) % 2 ^ w)

/-- The initial value of the static `ctr`, set once at the first call. -/
def ctrInit : Nat := 0

/-- The values returned by `k` calls of `countCalls` in a row, starting with `ctr`. -/
def callsFrom (w : Nat) : Nat → Nat → List Nat
  | 0, _ => []
  | k + 1, ctr => (countCalls w ctr).1 :: callsFrom w k (countCalls w ctr).2

/-- The values returned by the first `k` calls of `countCalls` in a program run. -/
def calls (w k : Nat) : List Nat := callsFrom w k ctrInit

end Chpt06

/-! ## Chapter 5: `main` (chpt05.cpp) -/

namespace Chpt05

/-- What `main` writes to `cout`. -/
inductive Tok where
  | int (i : Int) : Tok
  | str (s : String) : Tok
  | endl : Tok
  deriving DecidableEq, Repr

/-- How control leaves a block of `main`. -/
inductive Flow where
  | next (out : List Tok) : Flow
  | ret (out : List Tok) (code : Int) : Flow
  | raise (out : List Tok) (e : Exn) : Flow
  | stuck : Flow
  deriving DecidableEq, Repr

/-- Sequencing of blocks: the next block runs only when control falls through. -/
def Flow.andThen (f : Flow) (g : List Tok → Flow) : Flow :=
  match f with
  | Flow.next out => g out
  | o => o

/-- `print(vector<T> v)`: every element followed by a blank, then `endl`. -/
def print (v : List Int) : List Tok :=
  (v.map fun e => [Tok.int e, Tok.str " "]).flatten ++ [Tok.endl]

/-- `{ int ival = 0; cout << ival << endl; }` -/
def block1 (out : List Tok) : Flow := Flow.next (out ++ [Tok.int 0, Tok.endl])

/-- `{ ; }` -/
def block2 (out : List Tok) : Flow := Flow.next out

/-- `{ int ival = 0, v1 = 1, v2 = 2; ival = v1 + v2; ; cout << ival << endl; }` -/
def block3 (out : List Tok) : Flow := Flow.next (out ++ [Tok.int (1 + 2), Tok.endl])

/-- `while (--i != 0) {}`: the value of `i` after the loop; `none` when the fuel runs out. -/
def countdown : Nat → Int → Option Int
  | 0, _ => none
  | fuel + 1, i => if i - 1 ≠ 0 then countdown fuel (i - 1) else some (i - 1)

/-- `{ int i = 10; while (--i != 0) {} cout << i << endl; }` -/
def block4 (fuel : Nat) (out : List Tok) : Flow :=
  match countdown fuel 10 with
  | some i => Flow.next (out ++ [Tok.int i, Tok.endl])
  | none => Flow.stuck

/-- The grade block: `scores[(grade - 50) / 10]` for `grade = 100`; indexing a `vector`
out of range is undefined. -/
def block5 (out : List Tok) : Flow :=
  let scores := ["F", "D", "C", "B", "A", "A++"]
  let grade : Int := 100
  let idx : Int := if grade < 60 then 0 else (grade - 50) / 10
  match scores[idx.toNat]? with
  | some letterGrade =>
    Flow.next (out ++ [Tok.int grade, Tok.str " : ", Tok.str letterGrade, Tok.endl])
  | none => Flow.stuck

/-- `for (i = 0, sz = v.size(); i != sz; ++i) v.push_back(v[i]);` -/
def appendFirst (v : List Int) : Nat → Nat → Option (List Int)
  | _, 0 => some v
  | i, k + 1 =>
    match v[i]? with
    | some x => appendFirst (v ++ [x]) (i + 1) k
    | none => none

/-- `{ vector<int> v = {1, 2, 3}; for (...) v.push_back(v[i]); print(v); }` -/
def block6 (out : List Tok) : Flow :=
  match appendFirst [1, 2, 3] 0 [1, 2, 3].length with
  | some v => Flow.next (out ++ print v)
  | none => Flow.stuck

/-- `{ vector<int> v = {0, ..., 9}; for (auto &r : v) r *= r; print(v); }` -/
def block7 (out : List Tok) : Flow :=
  Flow.next (out ++ print ([0, 1, 2, 3, 4, 5, 6, 7, 8, 9].map fun r => r * r))

/-- The body of the `try`: `throw runtime_error("An Error Has Occurred! (not really)");` -/
def tryBody (out : List Tok) : Flow :=
  Flow.raise out (Exn.runtime_error "An Error Has Occurred! (not really)")

/-- `try { ... } catch (runtime_error err) { cout << err.what() << endl; return -1; }`:
the handler takes a `runtime_error`; any other exception leaves the block. -/
def block8 (out : List Tok) : Flow :=
  match tryBody out with
  | Flow.raise out1 (Exn.runtime_error what) => Flow.ret (out1 ++ [Tok.str what, Tok.endl]) (-1)
  | o => o

/-- `int main()`: the eight blocks in order. -/
def main (fuel : Nat) : Flow :=
  ((((((((block1 []).andThen block2).andThen block3).andThen (block4 fuel)).andThen
    block5).andThen block6).andThen block7).andThen block8)

/-- The value `main` returns: the operand of `return`, or `0` when control reaches the end
of `main`; none when `main` does not return. -/
def returnValue : Flow → Option Int
  | Flow.next _ => some 0
  | Flow.ret _ code => some code
  | Flow.raise _ _ => none
  | Flow.stuck => none

end Chpt05

/-! ## Chapter 14: `SmallInt` (chpt14.cpp) -/

/-- `class SmallInt`: the member `std::size_t val`. -/
structure SmallInt where
  val : Nat
  deriving DecidableEq, Repr

namespace SmallInt

/-- `SmallInt(int i = 0) : val(i) { if (i < 0 || i > 255) throw out_of_range(...); }`;
`val(i)` converts the `int` to a 64-bit `size_t`. -/
def ofInt (i : Int) : Result SmallInt :=
  if i < 0 ∨ i > 255 then Result.throw (Exn.out_of_range "Bad SamllInt value")
  else Result.ok ⟨(i % 2 ^ 64).toNat⟩

/-- `SmallInt operator+(const SmallInt &lhs, const SmallInt &rhs)`:
`SmallInt ret; ret.val = lhs.val + rhs.val; return ret;` (the default argument `0` of the
constructor never throws; `size_t` addition wraps). -/
def add (lhs rhs : SmallInt) : Result SmallInt :=
  match ofInt 0 with
  | Result.ok ret => Result.ok { ret with val := (lhs.val + rhs.val) % 2 ^ 64 }
  | Result.throw e => Result.throw e
  | Result.undefined => Result.undefined

/-- The range every `SmallInt` is meant to stay in. -/
def InRange (s : SmallInt) : Prop := s.val ≤ 255

end SmallInt

/-! ## Chapter 16: `compare` and `flexibleCompare` (chpt16.cpp) -/

/-- `template <typename T, typename F = less<T>> int compare(const T &v1, const T &v2, F f)`. -/
def compare {α : Type} (f : α → α → Bool) (v1 v2 : α) : Int :=
  if f v1 v2 then -1
  else if f v2 v1 then 1
  else 0

/-- `std::less<T>` on a type ordered by `<`. -/
def less {α : Type} [LT α] [DecidableRel (fun a b : α => a < b)] (a b : α) : Bool :=
  decide (a < b)

/-- `template <typename A, typename B> int flexibleCompare(const A &v1, const B &v2)`, for
operands compared by one `<`. -/
def flexibleCompare {α : Type} [LT α] [DecidableRel (fun a b : α => a < b)] (v1 v2 : α) : Int :=
  if v1 < v2 then -1
  else if v2 < v1 then 1
  else 0

/-! ## Chapter 10: `elimDups` (chpt10.cpp) -/

/-- `operator<` of `std::string`: lexicographic comparison of the characters. -/
def strLess (a b : String) : Bool := decide (a.toList < b.toList)

/-- `std::sort(first, last)` for a comparison `lt`: the elements in non-descending order
(the standard fixes the result up to the order of equivalent elements; here the elements are
put in place one by one). -/
def sort {α : Type} (lt : α → α → Bool) (words : List α) : List α :=
  List.insertionSort (fun a b => lt b a = false) words

/-- The scan of `std::unique` after an element `prev` that has been kept: elements equal to
`prev` are dropped, the next different element is kept. -/
def uniqueAfter {α : Type} [DecidableEq α] (prev : α) : List α → List α
  | [] => []
  | y :: rest => if prev = y then uniqueAfter prev rest else y :: uniqueAfter y rest

/-- `std::unique(first, last)`: from every run of consecutive equal elements only the first
one stays; the result is the range before the returned iterator. -/
def unique {α : Type} [DecidableEq α] : List α → List α
  | [] => []
  | x :: rest => x :: uniqueAfter x rest

/-- `void elimDups(vector<string> &words)`: `sort`, `unique`, `erase` of the tail. -/
def elimDups (words : List String) : List String := unique (sort strLess words)

/-! ## Chapter 13: `Message` and `Folder` (chpt13.cpp)

Objects are named by their addresses: a `Message *` is an index into the table of messages, a
`Folder *` an index into the table of folders.  A `std::set` of pointers is the list of its
elements in ascending order. -/

namespace PtrSet

/-- `std::set<T *>::insert`: nothing happens when the pointer is already in the set. -/
def insert (x : Nat) (s : List Nat) : List Nat :=
  if x ∈ s then s else List.orderedInsert (fun a b => a ≤ b) x s

/-- `std::set<T *>::erase(key)`. -/
def erase (x : Nat) (s : List Nat) : List Nat :=
  s.filter (fun y => decide (y ≠ x))

end PtrSet

/-- `class Message`: `std::string contents; std::set<Folder *> folders;`. -/
structure Message where
  contents : String
  folders : List Nat
  deriving DecidableEq, Repr

/-- `class Folder`: `std::set<Message *> messages;`. -/
structure Folder where
  messages : List Nat
  deriving DecidableEq, Repr

namespace Folder

/-- `void addMsg(Message *m) { messages.insert(m); }`. -/
def addMsg (m : Nat) (fd : Folder) : Folder := ⟨PtrSet.insert m fd.messages⟩

/-- `void remMsg(Message *m) { messages.erase(m); }`. -/
def remMsg (m : Nat) (fd : Folder) : Folder := ⟨PtrSet.erase m fd.messages⟩

end Folder

/-- The messages and folders of a program: `msgs[a]` is the `Message` at address `a`, `none`
once it has been destroyed; `flds[a]` is the `Folder` at address `a`. -/
structure MsgWorld where
  msgs : List (Option Message)
  flds : List Folder
  deriving DecidableEq, Repr

namespace MsgWorld

/-- No object has been created yet. -/
def empty : MsgWorld := ⟨[], []⟩

/-- The live message at address `m`. -/
def get (w : MsgWorld) (m : Nat) : Option Message :=
  match w.msgs[m]? with
  | some (some msg) => some msg
  | _ => none

/-- Store into the message at address `m`. -/
def put (w : MsgWorld) (m : Nat) (msg : Message) : MsgWorld :=
  { w with msgs := w.msgs.set m (some msg) }

/-- `f->g(...)`: a member function of the folder at address `f`. -/
def onFolder (w : MsgWorld) (f : Nat) (g : Folder → Folder) : MsgWorld :=
  match w.flds[f]? with
  | some fd => { w with flds := w.flds.set f (g fd) }
  | none => w

/-- The set `messages` of the folder at address `f`. -/
def members (w : MsgWorld) (f : Nat) : List Nat :=
  match w.flds[f]? with
  | some fd => fd.messages
  | none => []

/-- `for (auto f : fs) { f->g(...); }`. -/
def forEach (fs : List Nat) (g : Folder → Folder) (w : MsgWorld) : MsgWorld :=
  fs.foldl (fun w f => w.onFolder f g) w

/-- `Folder f;`: a new folder, at the next address, with no message. -/
def newFolder (w : MsgWorld) : MsgWorld :=
  { w with flds := w.flds ++ [⟨[]⟩] }

/-- `explicit Message(const std::string &str = "") : contents(str) {}`: a new message, at the
next address, in no folder. -/
def newMessage (w : MsgWorld) (str : String) : MsgWorld :=
  { w with msgs := w.msgs ++ [some ⟨str, []⟩] }

/-- `void Message::save(Folder &f) { folders.insert(&f); f.addMsg(this); }`. -/
def save (w : MsgWorld) (m f : Nat) : Option MsgWorld :=
  match w.get m with
  | some msg =>
    if f < w.flds.length then
      some ((w.put m ⟨msg.contents, PtrSet.insert f msg.folders⟩).onFolder f (Folder.addMsg m))
    else none
  | none => none

/-- `void Message::remove(Folder &f) { folders.erase(&f); f.remMsg(this); }`. -/
def remove (w : MsgWorld) (m f : Nat) : Option MsgWorld :=
  match w.get m with
  | some msg =>
    if f < w.flds.length then
      some ((w.put m ⟨msg.contents, PtrSet.erase f msg.folders⟩).onFolder f (Folder.remMsg m))
    else none
  | none => none

/-- `void Message::add_to_Folders(const Message &m)`:
`for (auto f : m.folders) { f->addMsg(this); }`. -/
def add_to_Folders (w : MsgWorld) (this m : Nat) : Option MsgWorld :=
  match w.get m with
  | some msg => some (forEach msg.folders (Folder.addMsg this) w)
  | none => none

/-- `void Message::remove_from_Folders()`: `for (auto f : folders) { f->remMsg(this); }`. -/
def remove_from_Folders (w : MsgWorld) (this : Nat) : Option MsgWorld :=
  match w.get this with
  | some msg => some (forEach msg.folders (Folder.remMsg this) w)
  | none => none

/-- `Message::Message(const Message &m) : contents(m.contents), folders(m.folders)
{ add_to_Folders(m); }`; the new message is at the next address. -/
def copy_ctor (w : MsgWorld) (m : Nat) : Option MsgWorld :=
  match w.get m with
  | some msg =>
    add_to_Folders { w with msgs := w.msgs ++ [some ⟨msg.contents, msg.folders⟩] }
      w.msgs.length m
  | none => none

/-- `Message::~Message() { remove_from_Folders(); }`, after which the object is gone. -/
def destructor (w : MsgWorld) (this : Nat) : Option MsgWorld :=
  match remove_from_Folders w this with
  | some w1 => some { w1 with msgs := w1.msgs.set this none }
  | none => none

/-- `Message &Message::operator=(const Message &rhs)`:
`remove_from_Folders(); contents = rhs.contents; folders = rhs.folders; add_to_Folders(rhs);`. -/
def copy_assign (w : MsgWorld) (this rhs : Nat) : Option MsgWorld :=
  match remove_from_Folders w this with
  | some w1 =>
    match w1.get rhs with
    | some r => add_to_Folders (w1.put this ⟨r.contents, r.folders⟩) this rhs
    | none => none
  | none => none

/-- `void swap(Message &lhs, Message &rhs)`: both messages leave their folders, the members are
swapped, both messages enter their new folders. -/
def swap (w : MsgWorld) (lhs rhs : Nat) : Option MsgWorld :=
  match w.get lhs, w.get rhs with
  | some l, some r =>
    let w1 := forEach l.folders (Folder.remMsg lhs) w
    let w2 := forEach r.folders (Folder.remMsg rhs) w1
    let w3 := (w2.put lhs ⟨r.contents, r.folders⟩).put rhs ⟨l.contents, l.folders⟩
    match w3.get lhs, w3.get rhs with
    | some l3, some r3 =>
      let w4 := forEach l3.folders (Folder.addMsg lhs) w3
      some (forEach r3.folders (Folder.addMsg rhs) w4)
    | _, _ => none
  | _, _ => none

/-- `void Message::move_Folders(Message *msg)`:
`folders = std::move(msg->folders); for (auto f : folders) { f->remMsg(msg); f->addMsg(this); }
msg->folders.clear();`. -/
def move_Folders (w : MsgWorld) (this msg : Nat) : Option MsgWorld :=
  match w.get this, w.get msg with
  | some t, some s =>
    let w1 := w.put this ⟨t.contents, s.folders⟩
    let w2 := forEach s.folders (fun fd => Folder.addMsg this (Folder.remMsg msg fd)) w1
    match w2.get msg with
    | some s2 => some (w2.put msg ⟨s2.contents, []⟩)
    | none => none
  | _, _ => none

/-- `Message::Message(Message &&msg) : contents(std::move(msg.contents))
{ move_Folders(&msg); }`; the new message is at the next address.  `residue` is the value the
library leaves in the moved-from string. -/
def move_ctor (w : MsgWorld) (residue : String) (msg : Nat) : Option MsgWorld :=
  match w.get msg with
  | some s =>
    move_Folders
      (MsgWorld.mk
        ((w.msgs ++ [some (Message.mk s.contents [])]).set msg
          (some (Message.mk residue s.folders)))
        w.flds)
      w.msgs.length msg
  | none => none

/-- The statement `contents = std::move(rhs.contents);` of the move assignment. -/
def move_contents (w : MsgWorld) (residue : String) (this rhs : Nat) : Option MsgWorld :=
  match w.get this, w.get rhs with
  | some t, some r => some ((w.put this ⟨r.contents, t.folders⟩).put rhs ⟨residue, r.folders⟩)
  | _, _ => none

/-- `Message &Message::operator=(Message &&rhs)`: `if (this != &rhs) { remove_from_Folders();
contents = std::move(rhs.contents); move_Folders(&rhs); }`. -/
def move_assign (w : MsgWorld) (residue : String) (this rhs : Nat) : Option MsgWorld :=
  if this ≠ rhs then
    match remove_from_Folders w this with
    | some w1 =>
      match move_contents w1 residue this rhs with
      | some w2 => move_Folders w2 this rhs
      | none => none
    | none => none
  else
    match w.get this with
    | some _ => some w
    | none => none

end MsgWorld

/-- The statements of a program that works with messages and folders. -/
inductive MsgStmt where
  | folder
  | message (str : String)
  | copy (m : Nat)
  | move (residue : String) (m : Nat)
  | copy_assign (lhs rhs : Nat)
  | move_assign (residue : String) (lhs rhs : Nat)
  | swap (lhs rhs : Nat)
  | save (m f : Nat)
  | remove (m f : Nat)
  | destroy (m : Nat)
  deriving DecidableEq, Repr

namespace MsgWorld

/-- One statement; `none` when it uses a message that is not alive or a folder that does not
exist. -/
def exec (w : MsgWorld) : MsgStmt → Option MsgWorld
  | MsgStmt.folder => some w.newFolder
  | MsgStmt.message str => some (w.newMessage str)
  | MsgStmt.copy m => w.copy_ctor m
  | MsgStmt.move residue m => w.move_ctor residue m
  | MsgStmt.copy_assign lhs rhs => w.copy_assign lhs rhs
  | MsgStmt.move_assign residue lhs rhs => w.move_assign residue lhs rhs
  | MsgStmt.swap lhs rhs => w.swap lhs rhs
  | MsgStmt.save m f => w.save m f
  | MsgStmt.remove m f => w.remove m f
  | MsgStmt.destroy m => w.destructor m

/-- A sequence of statements. -/
def run (w : MsgWorld) : List MsgStmt → Option MsgWorld
  | [] => some w
  | s :: rest =>
    match w.exec s with
    | some w1 => w1.run rest
    | none => none

/-- The statement uses only live messages and existing folders. -/
def Ready (w : MsgWorld) : MsgStmt → Prop
  | MsgStmt.folder => True
  | MsgStmt.message _ => True
  | MsgStmt.copy m => (w.get m).isSome
  | MsgStmt.move _ m => (w.get m).isSome
  | MsgStmt.copy_assign lhs rhs => (w.get lhs).isSome ∧ (w.get rhs).isSome
  | MsgStmt.move_assign _ lhs rhs => (w.get lhs).isSome ∧ (w.get rhs).isSome
  | MsgStmt.swap lhs rhs => (w.get lhs).isSome ∧ (w.get rhs).isSome
  | MsgStmt.save m f => (w.get m).isSome ∧ f < w.flds.length
  | MsgStmt.remove m f => (w.get m).isSome ∧ f < w.flds.length
  | MsgStmt.destroy m => (w.get m).isSome

/-- Bidirectional consistency: folder `f` is in the set `folders` of a live message `m`
exactly when `m` is in the set `messages` of `f`; no folder holds a message that is gone. -/
def Consistent (w : MsgWorld) : Prop :=
  ∀ m f, (∃ msg, w.get m = some msg ∧ f ∈ msg.folders) ↔ m ∈ w.members f

end MsgWorld

/-- The demonstration of `main`: `Folder f1, f2; Message msg1("Hello World!"); msg1.save(f1);
Message msg2 = msg1; msg2.save(f2); msg1.remove(f1);` with `f1`, `f2` at the folder addresses
`0`, `1` and `msg1`, `msg2` at the message addresses `0`, `1`. -/
def messageDemo : List MsgStmt :=
  [MsgStmt.folder, MsgStmt.folder, MsgStmt.message "Hello World!", MsgStmt.save 0 0,
   MsgStmt.copy 0, MsgStmt.save 1 1, MsgStmt.remove 0 0]

namespace MsgWorld

/-- Consistency with the messages in `S` taken out of their folders: every folder pointer of a
live message is the address of a folder, and `m` is in the set `messages` of `f` exactly when
`m` is a live message outside `S` with `f` in its set `folders`. -/
def Attached (w : MsgWorld) (S : Nat → Prop) : Prop :=
  (∀ m msg, w.get m = some msg → ∀ f ∈ msg.folders, f < w.flds.length) ∧
  (∀ m f, m ∈ w.members f ↔ ¬ S m ∧ ∃ msg, w.get m = some msg ∧ f ∈ msg.folders)

end MsgWorld

/-- The state at the end of the demonstration: `msg1` in no folder, `msg2` in `f1` and `f2`,
and each of `f1`, `f2` holding `msg2` alone. -/
def messageDemoEnd : MsgWorld :=
  ⟨[some ⟨"Hello World!", []⟩, some ⟨"Hello World!", [0, 1]⟩], [⟨[1]⟩, ⟨[1]⟩]⟩

/-! ## Chapter 13: the pointer-like `HasPtr` (chpt13.cpp)

The free store holds the strings made by `new std::string(s)` and the counters made by
`new std::size_t(1)`; a slot is `none` after `delete`.  A pointer is the index of its slot. -/

/-- `class HasPtr`: `std::string *ps; int i; std::size_t *use;`. -/
structure HasPtr where
  ps : Nat
  i : Int
  use : Nat
  deriving DecidableEq, Repr

/-- The free store and the `HasPtr` objects of a program; an object is `none` after its
destructor has run. -/
structure PtrWorld where
  strs : List (Option String)
  ctrs : List (Option Nat)
  objs : List (Option HasPtr)
  deriving DecidableEq, Repr

namespace PtrWorld

/-- Nothing has been allocated and no object exists. -/
def empty : PtrWorld := ⟨[], [], []⟩

/-- The live object at address `a`. -/
def get (w : PtrWorld) (a : Nat) : Option HasPtr :=
  match w.objs[a]? with
  | some (some p) => some p
  | _ => none

/-- The value of the counter `*use`; `none` when the counter has been deleted. -/
def counter (w : PtrWorld) (use : Nat) : Option Nat :=
  match w.ctrs[use]? with
  | some (some n) => some n
  | _ => none

/-- The string `*ps`; `none` when the string has been deleted. -/
def string (w : PtrWorld) (ps : Nat) : Option String :=
  match w.strs[ps]? with
  | some (some s) => some s
  | _ => none

/-- `++*use` on a `std::size_t`. -/
def increment (w : PtrWorld) (use : Nat) : Option PtrWorld :=
  match w.counter use with
  | some n => some { w with ctrs := w.ctrs.set use (some ((n + 1) % 2 ^ 64)) }
  | none => none

/-- `if (--*use == 0) { delete ps; delete use; }`, for the members `ps` and `use` of `p`;
`none` when the counter is gone or the string has already been deleted. -/
def release (w : PtrWorld) (p : HasPtr) : Option PtrWorld :=
  match w.counter p.use with
  | some n =>
    if (n + 2 ^ 64 - 1) % 2 ^ 64 = 0 then
      match w.string p.ps with
      | some _ => some { w with strs := w.strs.set p.ps none, ctrs := w.ctrs.set p.use none }
      | none => none
    else some { w with ctrs := w.ctrs.set p.use (some ((n + 2 ^ 64 - 1) % 2 ^ 64)) }
  | none => none

/-- `HasPtr(const std::string &s = std::string())
: ps(new std::string(s)), i(0), use(new std::size_t(1)) {}`; the object is at the next
address. -/
def ctor (w : PtrWorld) (s : String) : PtrWorld :=
  { strs := w.strs ++ [some s],
    ctrs := w.ctrs ++ [some 1],
    objs := w.objs ++ [some ⟨w.strs.length, 0, w.ctrs.length⟩] }

/-- `HasPtr(const HasPtr &p) : ps(p.ps), i(p.i), use(p.use) { ++*use; }`; the object is at
the next address. -/
def copy_ctor (w : PtrWorld) (p : Nat) : Option PtrWorld :=
  match w.get p with
  | some src => increment { w with objs := w.objs ++ [some ⟨src.ps, src.i, src.use⟩] } src.use
  | none => none

/-- `HasPtr::~HasPtr() { if (--*use == 0) { delete ps; delete use; } }`. -/
def destructor (w : PtrWorld) (this : Nat) : Option PtrWorld :=
  match w.get this with
  | some p =>
    match release w p with
    | some w1 => some { w1 with objs := w1.objs.set this none }
    | none => none
  | none => none

/-- `HasPtr &HasPtr::operator=(const HasPtr &rhs)`: `++*rhs.use;
if (--*use == 0) { delete ps; delete use; } ps = rhs.ps; i = rhs.i; use = rhs.use;`. -/
def copy_assign (w : PtrWorld) (this rhs : Nat) : Option PtrWorld :=
  match w.get this, w.get rhs with
  | some l, some r =>
    match increment w r.use with
    | some w1 =>
      match release w1 l with
      | some w2 => some { w2 with objs := w2.objs.set this (some ⟨r.ps, r.i, r.use⟩) }
      | none => none
    | none => none
  | _, _ => none

/-- `inline void swap(HasPtr &lhs, HasPtr &rhs)`:
`swap(lhs.ps, rhs.ps); swap(lhs.i, rhs.i);`. -/
def swap (w : PtrWorld) (lhs rhs : Nat) : Option PtrWorld :=
  match w.get lhs, w.get rhs with
  | some l, some r =>
    some { w with
      objs := (w.objs.set lhs (some ⟨r.ps, r.i, l.use⟩)).set rhs (some ⟨l.ps, l.i, r.use⟩) }
  | _, _ => none

/-- `HasPtr &HasPtr::operator=(HasPtr rhs) { swap(*this, rhs); return *this; }`: the
parameter is a copy of the argument, made at the next address and destroyed on return. -/
def swap_assign (w : PtrWorld) (this arg : Nat) : Option PtrWorld :=
  match copy_ctor w arg with
  | some w1 =>
    match swap w1 this w.objs.length with
    | some w2 => destructor w2 w.objs.length
    | none => none
  | none => none

/-- The addresses of the live objects that point to the string `ps`. -/
def pointers (w : PtrWorld) (ps : Nat) : List Nat :=
  (List.range w.objs.length).filter (fun a =>
    match w.get a with
    | some p => decide (p.ps = ps)
    | none => false)

/-- The reference-count invariant, checked on a state: a live object points to a live string
and a live counter, the counter is the number of live objects that point to the string,
objects with the same counter point to the same string, and every live string has an object
that points to it. -/
def counted (w : PtrWorld) : Bool :=
  (List.range w.objs.length).all (fun a =>
    match w.get a with
    | some p =>
      (w.string p.ps).isSome && decide (w.counter p.use = some (w.pointers p.ps).length) &&
      (List.range w.objs.length).all (fun b =>
        match w.get b with
        | some q => decide (q.use = p.use → q.ps = p.ps)
        | none => true)
    | none => true) &&
  (List.range w.strs.length).all (fun ps =>
    match w.string ps with
    | some _ => decide (w.pointers ps ≠ [])
    | none => true)

end PtrWorld

/-- The statements of a program that works with `HasPtr` objects. -/
inductive PtrStmt where
  | ctor (s : String)
  | copy (p : Nat)
  | copy_assign (lhs rhs : Nat)
  | swap (lhs rhs : Nat)
  | swap_assign (lhs rhs : Nat)
  | destroy (p : Nat)
  deriving DecidableEq, Repr

namespace PtrWorld

/-- One statement; `none` is undefined behaviour. -/
def exec (w : PtrWorld) : PtrStmt → Option PtrWorld
  | PtrStmt.ctor s => some (w.ctor s)
  | PtrStmt.copy p => w.copy_ctor p
  | PtrStmt.copy_assign lhs rhs => w.copy_assign lhs rhs
  | PtrStmt.swap lhs rhs => w.swap lhs rhs
  | PtrStmt.swap_assign lhs rhs => w.swap_assign lhs rhs
  | PtrStmt.destroy p => w.destructor p

/-- A sequence of statements. -/
def run (w : PtrWorld) : List PtrStmt → Option PtrWorld
  | [] => some w
  | s :: rest =>
    match w.exec s with
    | some w1 => w1.run rest
    | none => none

end PtrWorld

/-- `HasPtr a("A"), a2(a), b("B");` with `a`, `a2`, `b` at the addresses `0`, `1`, `2`. -/
def hasPtrSetup : List PtrStmt :=
  [PtrStmt.ctor "A", PtrStmt.copy 0, PtrStmt.ctor "B"]

/-! ## Chapter 15: `Quote`, `Bulk_quote` and `Basket` (chpt15.cpp)

The pricing code is written over a type `α` of numbers with the operations it uses on `double`
(`0.0`, `1`, the conversion of a `std::size_t`, `+`, `-`, `*`); nothing is assumed about them.
`Double` below is one such type: the finite binary64 numbers, every result rounded to the
nearest one. -/

/-- The classes `Quote` and `Bulk_quote` (through `Disc_quote`): `bookNo`, `price`, and for a
bulk quote `quantity` and `discount`. -/
inductive Quote (α : Type) where
  | quote (bookNo : String) (price : α)
  | bulk (bookNo : String) (price : α) (quantity : Nat) (discount : α)
  deriving DecidableEq, Repr

namespace Quote

/-- `std::string isbn() const { return bookNo; }`. -/
def isbn {α : Type} : Quote α → String
  | quote bookNo _ => bookNo
  | bulk bookNo _ _ _ => bookNo

/-- The virtual function `net_price`: `n * price` for a `Quote`; for a `Bulk_quote`
`(1 - discount) * cnt * price` when `cnt >= quantity` and `cnt * price` otherwise. -/
def net_price {α : Type} [Mul α] [Sub α] [One α] [NatCast α] : Quote α → Nat → α
  | quote _ price, n => (n : α) * price
  | bulk _ price quantity discount, cnt =>
    if cnt ≥ quantity then (1 - discount) * (cnt : α) * price else (cnt : α) * price

/-- `double print_total(std::ostream &os, const Quote &item, std::size_t n)`: the value
returned, `item.net_price(n)`. -/
def print_total {α : Type} [Mul α] [Sub α] [One α] [NatCast α] (item : Quote α) (n : Nat) : α :=
  item.net_price n

end Quote

/-- `class Basket`: the multiset `items`, as the sequence in which an iterator visits it. -/
structure Basket (α : Type) where
  items : List (Quote α)

namespace Basket

/-- `static bool compare(lhs, rhs) { return lhs->isbn() < rhs->isbn(); }`. -/
def compare {α : Type} (lhs rhs : Quote α) : Bool := strLess lhs.isbn rhs.isbn

/-- `std::multiset::insert`: the new element goes to the upper bound of the elements
equivalent to it, that is before the first element that is greater. -/
def insert {α : Type} (sale : Quote α) : List (Quote α) → List (Quote α)
  | [] => [sale]
  | x :: rest => if compare sale x then sale :: x :: rest else x :: insert sale rest

/-- `Basket basket;`. -/
def empty {α : Type} : Basket α := ⟨[]⟩

/-- `void add_item(const Quote &sale)` and `void add_item(Quote &&sale)`: a copy of `sale`
is inserted. -/
def add_item {α : Type} (b : Basket α) (sale : Quote α) : Basket α := ⟨insert sale b.items⟩

/-- `items.upper_bound(x)`: the position of the first element greater than `x`, the end when
there is none. -/
def upper_bound {α : Type} (items : List (Quote α)) (x : Quote α) : Nat :=
  items.findIdx (fun e => compare x e)

/-- `items.count(x)`: the number of elements equivalent to `x`. -/
def count {α : Type} (items : List (Quote α)) (x : Quote α) : Nat :=
  items.countP (fun e => !compare e x && !compare x e)

/-- The loop of `total_receipt` from the iterator `iter` with the running `sum`:
`for (; iter != items.cend(); iter = items.upper_bound(*iter))
sum += print_total(os, **iter, items.count(*iter));`.  `none` when the fuel runs out. -/
def receiptLoop {α : Type} [Add α] [Mul α] [Sub α] [One α] [NatCast α] (items : List (Quote α)) :
    Nat → Nat → α → Option α
  | 0, _, _ => none
  | fuel + 1, iter, sum =>
    match items[iter]? with
    | none => some sum
    | some x => receiptLoop items fuel (upper_bound items x) (sum + x.print_total (count items x))

/-- `double Basket::total_receipt(std::ostream &os) const`: `double sum = 0.0;`, the loop from
`items.cbegin()`, `return sum;`. -/
def total_receipt {α : Type} [Add α] [Mul α] [Sub α] [One α] [Zero α] [NatCast α] (b : Basket α)
    (fuel : Nat) : Option α :=
  receiptLoop b.items fuel 0 0

/-- The basket after `add_item` has been called with each of `sales` in turn. -/
def ofSales {α : Type} (sales : List (Quote α)) : Basket α := sales.foldl add_item empty

/-- The items with ISBN `k` among `sales`, in the order in which they were added. -/
def withIsbn {α : Type} (sales : List (Quote α)) (k : String) : List (Quote α) :=
  sales.filter (fun q => decide (q.isbn = k))

/-- The receipt in the words of the specification: over the distinct ISBNs of the items
added, in ascending order, the sum of `net_price(c)` of the first-added item with that ISBN,
where `c` is the number of items with that ISBN. -/
def receiptSpec {α : Type} [Add α] [Mul α] [Sub α] [One α] [Zero α] [NatCast α]
    (sales : List (Quote α)) : α :=
  (elimDups (sales.map Quote.isbn)).foldl (fun sum k =>
    match withIsbn sales k with
    | q :: rest => sum + q.net_price (rest.length + 1)
    | [] => sum) 0

/-- The items in the order of iteration, cut into the runs of equal ISBN. -/
def groups {α : Type} : List (Quote α) → List (List (Quote α))
  | [] => []
  | x :: rest =>
    match groups rest with
    | [] => [[x]]
    | [] :: gs => [x] :: gs
    | (y :: g) :: gs => if x.isbn = y.isbn then (x :: y :: g) :: gs else [x] :: (y :: g) :: gs

end Basket

/-! ### `double`

A finite binary64 number is `m * 2 ^ e` for integers `m`, `e` with `|m| < 2 ^ 53` and
`-1074 ≤ e ≤ 971`.  IEEE 754 returns for `+`, `-`, `*` and for a decimal literal the binary64
number nearest to the exact result, the one with the even significand when two are equally
near, and an infinity when the rounded result is `2 ^ 1024` or more in magnitude.  Modelled
are the finite numbers, with one zero.  Every operation is rounded on its own (no wider
intermediate format), as on the targets where `double` expressions are evaluated in `double`;
a decimal literal is converted to the nearest binary64 number, as GCC and Clang do. -/

/-- The number `m * 2 ^ e`. -/
structure Dyadic where
  m : Int
  e : Int
  deriving DecidableEq, Repr

namespace Dyadic

/-- The same number with an odd `m` (or `0 * 2 ^ 0`): factors of two go from `m` to the
exponent, at most `fuel` of them. -/
def reduce : Nat → Int → Int → Dyadic
  | 0, m, e => ⟨m, e⟩
  | fuel + 1, m, e =>
    if m = 0 then ⟨0, 0⟩
    else if m % 2 = 0 then reduce fuel (m / 2) (e + 1)
    else ⟨m, e⟩

/-- The number `m * 2 ^ e` in reduced form; zero is `0 * 2 ^ 0`. -/
def make (m e : Int) : Dyadic := reduce (m.natAbs + 1) m e

/-- A reduced number is a finite binary64 number: the significand has at most 53 bits, the
exponent is at least that of the smallest subnormal, and the number is below `2 ^ 1024`. -/
def binary64 (d : Dyadic) : Bool :=
  decide (d.m.natAbs < 2 ^ 53) && decide (-1074 ≤ d.e) &&
    (decide (d.e ≤ 971) || (decide (d.e < 1024) && decide (d.m.natAbs < 2 ^ (1024 - d.e).toNat)))

/-- Exact sum. -/
def add (a b : Dyadic) : Dyadic :=
  make (a.m * 2 ^ (a.e - min a.e b.e).toNat + b.m * 2 ^ (b.e - min a.e b.e).toNat) (min a.e b.e)

/-- Exact difference. -/
def sub (a b : Dyadic) : Dyadic :=
  make (a.m * 2 ^ (a.e - min a.e b.e).toNat - b.m * 2 ^ (b.e - min a.e b.e).toNat) (min a.e b.e)

/-- Exact product. -/
def mul (a b : Dyadic) : Dyadic := make (a.m * b.m) (a.e + b.e)

end Dyadic

/-- The number of binary digits of `n`, counted in at most `fuel` halvings. -/
def bitLength : Nat → Nat → Nat
  | 0, _ => 0
  | fuel + 1, n => if n = 0 then 0 else bitLength fuel (n / 2) + 1

/-- A value of type `double`: `some d` is the finite binary64 number `d`; `none` is the
result of an operation that overflowed, or of an operation on such a result. -/
structure Double where
  val : Option Dyadic
  deriving DecidableEq, Repr

namespace Double

/-- The fraction `n / d` in units of `2 ^ q`: the integer part, the remainder, and the
divisor that the remainder refers to. -/
def split (n d : Nat) (q : Int) : Nat × Nat × Nat :=
  (n * 2 ^ (-q).toNat / (d * 2 ^ q.toNat), n * 2 ^ (-q).toNat % (d * 2 ^ q.toNat),
    d * 2 ^ q.toNat)

/-- Round to nearest, ties to even: the binary64 number nearest to the fraction `n / d`
(with `d > 0`), negated when `neg`.  The unit `2 ^ q` is the one in which the integer part of
`n / d` has 53 binary digits, and at least `2 ^ -1074`; the integer part goes up by one when
the remainder is more than half the divisor, or exactly half and the integer part is odd. -/
def nearest (neg : Bool) (n d : Nat) : Double :=
  if n = 0 then ⟨some ⟨0, 0⟩⟩
  else
    let q1 : Int := (bitLength n n : Int) - (bitLength d d : Int) - 53
    let q2 : Int := if 2 ^ 53 ≤ (split n d q1).1 then q1 + 1 else q1
    let q : Int := max q2 (-1074)
    let s := split n d q
    let r : Nat :=
      if s.2.2 < 2 * s.2.1 ∨ (2 * s.2.1 = s.2.2 ∧ s.1 % 2 = 1) then s.1 + 1 else s.1
    if 1024 < (bitLength r r : Int) + q then ⟨none⟩
    else ⟨some (Dyadic.make (if neg then -(r : Int) else (r : Int)) q)⟩

/-- The result of an operation with the exact result `d`: `d` itself when it is a binary64
number, the nearest binary64 number otherwise. -/
def round (d : Dyadic) : Double :=
  if d.binary64 then ⟨some d⟩
  else if 0 ≤ d.e then nearest (decide (d.m < 0)) (d.m.natAbs * 2 ^ d.e.toNat) 1
  else nearest (decide (d.m < 0)) d.m.natAbs (2 ^ (-d.e).toNat)

/-- An operation on two operands. -/
def lift (op : Dyadic → Dyadic → Dyadic) (a b : Double) : Double :=
  match a.val, b.val with
  | some x, some y => round (op x y)
  | _, _ => ⟨none⟩

/-- The conversion of an integer, and the literals `50` and `300`. -/
def ofInt (n : Int) : Double := round (Dyadic.make n 0)

/-- The literal `0.25`, which is `2 ^ -2`. -/
def quarter : Double := round (Dyadic.make 1 (-2))

/-- A decimal literal with the value `n / d`, such as `0.19` with `n = 19`, `d = 100`. -/
def literal (n d : Nat) : Double := nearest false n d

instance : Add Double := ⟨lift Dyadic.add⟩
instance : Sub Double := ⟨lift Dyadic.sub⟩
instance : Mul Double := ⟨lift Dyadic.mul⟩
instance : Zero Double := ⟨ofInt 0⟩
instance : One Double := ⟨ofInt 1⟩
instance : NatCast Double := ⟨fun n => ofInt n⟩

end Double

/-- The basket of the demonstration in `main`: `Quote("0-201-82470-1", 50)` three times and
`Bulk_quote("0-201-54848-8", 50, 3, 0.25)` four times, in the order of the calls. -/
def basketDemo : List (Quote Double) :=
  [Quote.quote "0-201-82470-1" (Double.ofInt 50),
   Quote.quote "0-201-82470-1" (Double.ofInt 50),
   Quote.bulk "0-201-54848-8" (Double.ofInt 50) 3 Double.quarter,
   Quote.quote "0-201-82470-1" (Double.ofInt 50),
   Quote.bulk "0-201-54848-8" (Double.ofInt 50) 3 Double.quarter,
   Quote.bulk "0-201-54848-8" (Double.ofInt 50) 3 Double.quarter,
   Quote.bulk "0-201-54848-8" (Double.ofInt 50) 3 Double.quarter]

namespace Basket

/-- The ISBN of a run of items. -/
def groupKey {α : Type} : List (Quote α) → String
  | q :: _ => q.isbn
  | [] => ""

/-- Runs of items of one ISBN each, in strictly ascending order of ISBN. -/
def Grouped {α : Type} (gs : List (List (Quote α))) : Prop :=
  (∀ g ∈ gs, g ≠ [] ∧ ∀ q ∈ g, ∀ r ∈ g, q.isbn = r.isbn) ∧
  gs.Pairwise (fun g1 g2 => ∀ q ∈ g1, ∀ r ∈ g2, q.isbn < r.isbn)

/-- One step of the sum of `total_receipt` for a run of items: `net_price` of its first item
for the number of its items. -/
def addGroup {α : Type} [Add α] [Mul α] [Sub α] [One α] [NatCast α] (sum : α) : List (Quote α) → α
  | q :: rest => sum + q.net_price (rest.length + 1)
  | [] => sum

end Basket

end LearnCxx

open LearnCxx LearnCxx.StrVec

/-! # Allocator and loop lemmas -/

namespace LearnCxx

theorem Heap.slots_lt {h : Heap} {b : Nat} {sl : List (Option String)}
    (hs : h.slots b = some sl) : b < h.blocks.length := by
  unfold Heap.slots at hs
  by_contra hlt
  have : h.blocks[b]? = none := List.getElem?_eq_none (Nat.le_of_not_lt hlt)
  rw [this] at hs
  cases hs

theorem Heap.slots_put (h : Heap) (b : Nat) (sl : List (Option String))
    (hb : b < h.blocks.length) (b1 : Nat) :
    (h.put b sl).slots b1 = if b1 = b then some sl else h.slots b1 := by
  unfold Heap.slots Heap.put
  by_cases hbb : b1 = b
  · subst hbb
    simp [hb]
  · have hne : b ≠ b1 := fun e => hbb e.symm
    simp [hbb, List.getElem?_set_ne hne]

theorem Heap.slots_release (h : Heap) (b b1 : Nat) :
    (h.release b).slots b1 = if b1 = b then none else h.slots b1 := by
  unfold Heap.slots Heap.release
  by_cases hbb : b1 = b
  · subst hbb
    by_cases hb : b1 < h.blocks.length
    · simp [hb]
    · have : (h.blocks.set b1 none)[b1]? = none := by
        apply List.getElem?_eq_none
        simp
        omega
      simp [this]
  · have hne : b ≠ b1 := fun e => hbb e.symm
    simp [hbb, List.getElem?_set_ne hne]

theorem Heap.slots_emit (h : Heap) (e : Event) (b : Nat) : (h.emit e).slots b = h.slots b := rfl

theorem Heap.slots_allocate (h : Heap) (n b1 : Nat) :
    (h.allocate n).1.slots b1
      = if b1 = h.blocks.length then some (List.replicate n none) else h.slots b1 := by
  unfold Heap.slots Heap.allocate
  by_cases hbb : b1 = h.blocks.length
  · subst hbb
    simp
  · simp only [hbb, if_false]
    by_cases hlt : b1 < h.blocks.length
    · rw [List.getElem?_append_left hlt]
    · have h1 : (h.blocks ++ [some (List.replicate n none)])[b1]? = none := by
        apply List.getElem?_eq_none
        simp
        omega
      have h2 : h.blocks[b1]? = none := List.getElem?_eq_none (Nat.le_of_not_lt hlt)
      rw [h1, h2]

theorem Touch.trans {h h1 h2 : Heap} {b : Nat} {sl sl2 : Option (List (Option String))}
    {e1 e2 : List Event} (t1 : Touch h h1 b sl e1) (t2 : Touch h1 h2 b sl2 e2) :
    Touch h h2 b sl2 (e1 ++ e2) where
  here := t2.here
  frame := fun b1 hb => (t2.frame b1 hb).trans (t1.frame b1 hb)
  len := t2.len.trans t1.len
  log := by rw [t2.log, t1.log, List.append_assoc]

theorem Touch.refl (h : Heap) (b : Nat) : Touch h h b (h.slots b) [] where
  here := rfl
  frame := fun _ _ => rfl
  len := rfl
  log := by simp

theorem Heap.put_emit_touch (h : Heap) (b : Nat) (sl : List (Option String)) (e : Event)
    (hb : b < h.blocks.length) : Touch h ((h.put b sl).emit e) b (some sl) [e] where
  here := by
    rw [Heap.slots_emit, Heap.slots_put h b sl hb]
    simp
  frame := by
    intro b1 hne
    rw [Heap.slots_emit, Heap.slots_put h b sl hb]
    simp [hne]
  len := by simp [Heap.put, Heap.emit]
  log := rfl

theorem Heap.construct_spec {h : Heap} {b i : Nat} {sl : List (Option String)} (s : String)
    (hs : h.slots b = some sl) (hi : sl[i]? = some none) :
    ∃ h1, h.construct (Ptr.addr b i) s = some h1 ∧
      Touch h h1 b (some (sl.set i (some s))) [Event.construct b i s] := by
  refine ⟨_, ?_, Heap.put_emit_touch h b _ _ (Heap.slots_lt hs)⟩
  simp [Heap.construct, hs, hi]

theorem Heap.destroy_spec {h : Heap} {b i : Nat} {sl : List (Option String)} {s : String}
    (hs : h.slots b = some sl) (hi : sl[i]? = some (some s)) :
    ∃ h1, h.destroy (Ptr.addr b i) = some h1 ∧
      Touch h h1 b (some (sl.set i none)) [Event.destroy b i s] := by
  refine ⟨_, ?_, Heap.put_emit_touch h b _ _ (Heap.slots_lt hs)⟩
  simp [Heap.destroy, hs, hi]

theorem Heap.deallocate_spec {h : Heap} {b : Nat} {sl : List (Option String)}
    (hs : h.slots b = some sl) :
    ∃ h1, h.deallocate (Ptr.addr b 0) sl.length = some h1 ∧
      Touch h h1 b none [Event.deallocate b sl.length] := by
  refine ⟨(h.release b).emit (Event.deallocate b sl.length), ?_, ?_⟩
  · simp [Heap.deallocate, hs]
  · constructor
    · rw [Heap.slots_emit, Heap.slots_release]; simp
    · intro b1 hne
      rw [Heap.slots_emit, Heap.slots_release]; simp [hne]
    · simp [Heap.release, Heap.emit]
    · rfl

theorem Heap.read_spec {h : Heap} {b i : Nat} {sl : List (Option String)} {s : String}
    (hs : h.slots b = some sl) (hi : sl[i]? = some (some s)) :
    h.read (Ptr.addr b i) = some s := by
  simp [Heap.read, hs, hi]

/-- Moving from slot `si` of block `sb` into the raw slot `i` of another block `b`. -/
theorem Heap.moveConstruct_spec {h : Heap} {b i sb si : Nat} {sl ssl : List (Option String)}
    {s : String} (hne : sb ≠ b) (hs : h.slots b = some sl) (hi : sl[i]? = some none)
    (hss : h.slots sb = some ssl) (hsi : ssl[si]? = some (some s)) :
    ∃ h1, h.moveConstruct (Ptr.addr b i) (Ptr.addr sb si) = some h1 ∧
      h1.slots b = some (sl.set i (some s)) ∧
      h1.slots sb = some (ssl.set si (some "")) ∧
      (∀ b1, b1 ≠ b → b1 ≠ sb → h1.slots b1 = h.slots b1) ∧
      h1.blocks.length = h.blocks.length ∧
      h1.log = h.log ++ [Event.moveConstruct b i sb si s] := by
  have hsb := Heap.slots_lt hss
  have hb := Heap.slots_lt hs
  have key := Heap.slots_put h sb (ssl.set si (some "")) hsb
  have hb1 : (h.put sb (ssl.set si (some ""))).slots b = some sl := by
    rw [key]; simp [Ne.symm hne, hs]
  have t := Heap.put_emit_touch (h.put sb (ssl.set si (some ""))) b (sl.set i (some s))
      (Event.moveConstruct b i sb si s) (by simpa [Heap.put] using hb)
  refine ⟨_, ?_, t.here, ?_, ?_, ?_, t.log⟩
  · simp only [Heap.moveConstruct, Heap.read_spec hss hsi, hss, hb1, hi, if_true]
  · rw [t.frame sb hne, key]; simp
  · intro b1 h1 h2
    rw [t.frame b1 h1, key]; simp [h2]
  · rw [t.len]; simp [Heap.put]

theorem set_append_replicate {α : Type} (pre : List α) (n : Nat) (x y : α) (rest : List α) :
    (pre ++ (List.replicate (n + 1) x ++ rest)).set pre.length y
      = (pre ++ [y]) ++ (List.replicate n x ++ rest) := by
  induction pre with
  | nil => simp [List.replicate_succ]
  | cons a pre ih => simpa using ih

theorem getElem?_append_replicate {α : Type} (pre : List α) (n : Nat) (x : α) (rest : List α) :
    (pre ++ (List.replicate (n + 1) x ++ rest))[pre.length]? = some x := by
  induction pre with
  | nil => simp [List.replicate_succ]
  | cons a pre ih => simpa using ih

theorem copyLoop_spec (r : Range) (db : Nat) (ys : List String) :
    ∀ (i : Nat) (h : Heap) (pre : List (Option String)) (m : Nat),
      pre.length = i →
      (∀ h1 : Heap, (∀ b, b ≠ db → h1.slots b = h.slots b) →
        ∀ j s, ys[j]? = some s → r.deref h1 (i + j) = some s) →
      h.slots db = some (pre ++ (List.replicate ys.length none ++ List.replicate m none)) →
      ∃ h1, copyLoop r (Ptr.addr db 0) i ys.length h = some h1 ∧
        Touch h h1 db (some (pre ++ (ys.map some ++ List.replicate m none)))
          (constructEvents db i ys) := by
  induction ys with
  | nil =>
    intro i h pre m _ _ hs
    refine ⟨h, rfl, ?_⟩
    have t := Touch.refl h db
    rw [hs] at t
    simpa [constructEvents] using t
  | cons y ys ih =>
    intro i h pre m hpre hsrc hs
    rw [List.length_cons] at hs
    have hd : r.deref h i = some y := by
      have := hsrc h (fun _ _ => rfl) 0 y (by simp)
      simpa using this
    have hraw : (pre ++ (List.replicate (ys.length + 1) none
        ++ List.replicate m none))[i]? = some (none : Option String) := by
      rw [← hpre]; exact getElem?_append_replicate pre _ none _
    obtain ⟨h1, hc, t1⟩ := Heap.construct_spec y hs hraw
    have hset : (pre ++ (List.replicate (ys.length + 1) none
        ++ List.replicate m none)).set i (some y)
        = (pre ++ [some y]) ++ (List.replicate ys.length none ++ List.replicate m none) := by
      rw [← hpre]; exact set_append_replicate pre _ none (some y) _
    rw [hset] at t1
    obtain ⟨h2, hl, t2⟩ := ih (i + 1) h1 (pre ++ [some y]) m (by simp [hpre])
      (by
        intro h3 hfr j s hj
        have := hsrc h3 (fun b hb => (hfr b hb).trans (t1.frame b hb)) (j + 1) s (by simpa using hj)
        rw [← this]; congr 1; omega)
      t1.here
    refine ⟨h2, ?_, ?_⟩
    · simp only [List.length_cons, copyLoop, hd, Ptr.add, Nat.zero_add, hc, hl]
    · have t := t1.trans t2
      simpa [constructEvents] using t

theorem set_append_cons {α : Type} (pre : List α) (a y : α) (rest : List α) :
    (pre ++ a :: rest).set pre.length y = pre ++ y :: rest := by
  simp

theorem getElem?_append_cons {α : Type} (pre : List α) (a : α) (rest : List α) :
    (pre ++ a :: rest)[pre.length]? = some a := by
  induction pre with
  | nil => simp
  | cons a pre ih => simpa using ih

theorem moveLoop_spec (sb db : Nat) (hne : sb ≠ db) (ys : List String) :
    ∀ (i : Nat) (h : Heap) (spre srest pre : List (Option String)) (m : Nat),
      spre.length = i → pre.length = i →
      h.slots sb = some (spre ++ (ys.map some ++ srest)) →
      h.slots db = some (pre ++ (List.replicate ys.length none ++ List.replicate m none)) →
      ∃ h1, moveLoop (Ptr.addr sb 0) (Ptr.addr db 0) i ys.length h = some h1 ∧
        h1.slots sb = some (spre ++ (List.replicate ys.length (some "") ++ srest)) ∧
        h1.slots db = some (pre ++ (ys.map some ++ List.replicate m none)) ∧
        (∀ b, b ≠ db → b ≠ sb → h1.slots b = h.slots b) ∧
        h1.blocks.length = h.blocks.length ∧
        h1.log = h.log ++ moveEvents db sb i ys := by
  induction ys with
  | nil =>
    intro i h spre srest pre m _ _ hss hs
    exact ⟨h, rfl, by simpa using hss, by simp [hs], fun _ _ _ => rfl, rfl,
      by simp [moveEvents]⟩
  | cons y ys ih =>
    intro i h spre srest pre m hspre hpre hss hs
    rw [List.length_cons, List.replicate_succ, List.cons_append] at hs
    rw [List.map_cons, List.cons_append] at hss
    have hraw := getElem?_append_cons pre (none : Option String)
      (List.replicate ys.length none ++ List.replicate m none)
    have hsrc := getElem?_append_cons spre (some y) (ys.map some ++ srest)
    rw [hpre] at hraw
    rw [hspre] at hsrc
    obtain ⟨h1, hm, hdst1, hsrc1, hfr1, hlen1, hlog1⟩ :=
      Heap.moveConstruct_spec hne hs hraw hss hsrc
    have e1 := set_append_cons pre (none : Option String) (some y)
      (List.replicate ys.length none ++ List.replicate m none)
    have e2 := set_append_cons spre (some y) (some "") (ys.map some ++ srest)
    rw [hpre] at e1
    rw [hspre] at e2
    rw [e1] at hdst1
    rw [e2] at hsrc1
    obtain ⟨h2, hl, hsrc2, hdst2, hfr2, hlen2, hlog2⟩ :=
      ih (i + 1) h1 (spre ++ [some ""]) srest (pre ++ [some y]) m (by simp [hspre])
        (by simp [hpre]) (by simpa using hsrc1) (by simpa using hdst1)
    refine ⟨h2, ?_, ?_, ?_, ?_, ?_, ?_⟩
    · simp only [List.length_cons, moveLoop, Ptr.add, Nat.zero_add, hm, hl]
    · simpa [List.replicate_succ] using hsrc2
    · simpa using hdst2
    · intro b hb1 hb2
      rw [hfr2 b hb1 hb2, hfr1 b hb1 hb2]
    · rw [hlen2, hlen1]
    · rw [hlog2, hlog1]; simp [moveEvents]

theorem destroyEvents_append (b : Nat) (xs : List String) :
    ∀ (i : Nat) (ys : List String),
      destroyEvents b i (xs ++ ys) = destroyEvents b (i + xs.length) ys ++ destroyEvents b i xs := by
  induction xs with
  | nil => intro i ys; simp [destroyEvents]
  | cons x xs ih =>
    intro i ys
    have e : i + (xs.length + 1) = i + 1 + xs.length := by omega
    rw [List.cons_append, destroyEvents, destroyEvents, ih, List.length_cons, List.append_assoc, e]

theorem destroyLoop_spec (b : Nat) (xs : List String) :
    ∀ (h : Heap) (rest : List (Option String)),
      h.slots b = some (xs.map some ++ rest) →
      ∃ h1, destroyLoop b 0 xs.length h = some h1 ∧
        Touch h h1 b (some (List.replicate xs.length none ++ rest)) (destroyEvents b 0 xs) := by
  induction xs using List.reverseRecOn with
  | nil =>
    intro h rest hs
    refine ⟨h, rfl, ?_⟩
    have t := Touch.refl h b
    rw [hs] at t
    simpa [destroyEvents] using t
  | append_singleton xs x ih =>
    intro h rest hs
    have hs1 : h.slots b = some (xs.map some ++ some x :: rest) := by simpa using hs
    have hx : (xs.map some ++ some x :: rest)[xs.length]? = some (some x) := by
      have := getElem?_append_cons (xs.map some) (some x) rest
      simpa using this
    obtain ⟨h1, hd, t1⟩ := Heap.destroy_spec hs1 hx
    have e1 : (xs.map some ++ some x :: rest).set xs.length none
        = xs.map some ++ none :: rest := by
      simp
    rw [e1] at t1
    obtain ⟨h2, hl, t2⟩ := ih h1 (none :: rest) t1.here
    refine ⟨h2, ?_, ?_⟩
    · simp [destroyLoop, hd, hl]
    · have t := t1.trans t2
      have e2 : List.replicate (xs ++ [x]).length (none : Option String) ++ rest
          = List.replicate xs.length none ++ none :: rest := by
        simp [List.replicate_succ']
      rw [e2, destroyEvents_append]
      simpa [destroyEvents] using t

namespace StrVec

theorem Rep.size_eq {h : Heap} {v : StrVec} {xs : List String} (r : Rep h v xs) :
    v.size = xs.length := by
  rcases r with ⟨rfl, rfl⟩ | ⟨b, c, rfl, _, _⟩
  · rfl
  · simp [size, Ptr.diff]

theorem Rep.size_le {h : Heap} {v : StrVec} {xs : List String} (r : Rep h v xs) :
    v.size ≤ v.capacity := by
  rcases r with ⟨rfl, rfl⟩ | ⟨b, c, rfl, hle, _⟩
  · simp [size, capacity, StrVec.default, Ptr.diff]
  · simpa [size, capacity, Ptr.diff] using hle

theorem Rep.block_lt {h : Heap} {v : StrVec} {xs : List String} (r : Rep h v xs) {b o : Nat}
    (hb : v.elements = Ptr.addr b o) : b < h.blocks.length := by
  rcases r with ⟨rfl, rfl⟩ | ⟨b1, c, rfl, _, hs⟩
  · cases hb
  · cases hb
    exact Heap.slots_lt hs

/-- The representation relation only looks at the block the vector owns. -/
theorem Rep.mono {h h1 : Heap} {v : StrVec} {xs : List String} (r : Rep h v xs)
    (hfr : ∀ b, v.elements = Ptr.addr b 0 → h1.slots b = h.slots b) : Rep h1 v xs := by
  rcases r with ⟨rfl, rfl⟩ | ⟨b, c, rfl, hle, hs⟩
  · exact Or.inl ⟨rfl, rfl⟩
  · exact Or.inr ⟨b, c, rfl, hle, by rw [hfr b rfl, hs]⟩

theorem free_spec {h : Heap} {v : StrVec} {xs : List String} (r : Rep h v xs) :
    ∃ h1, free h v = some h1 ∧ h1.blocks.length = h.blocks.length ∧
      (∀ b, v.elements ≠ Ptr.addr b 0 → h1.slots b = h.slots b) ∧
      (∀ b, v.elements = Ptr.addr b 0 → h1.slots b = none) ∧
      h1.log = h.log ++ freeEvents v xs := by
  rcases r with ⟨rfl, rfl⟩ | ⟨b, c, rfl, hle, hs⟩
  · refine ⟨h, rfl, rfl, fun _ _ => rfl, ?_, by simp [freeEvents, StrVec.default]⟩
    intro b hb
    cases hb
  · obtain ⟨h1, hd, t1⟩ := destroyLoop_spec b xs h _ hs
    have hlen : (List.replicate xs.length (none : Option String)
        ++ List.replicate (c - xs.length) none).length = c := by
      simp; omega
    obtain ⟨h2, hde, t2⟩ := Heap.deallocate_spec t1.here
    rw [hlen] at hde t2
    have t := t1.trans t2
    refine ⟨h2, ?_, t.len, ?_, ?_, ?_⟩
    · simp [free, hd, Ptr.diff, hde]
    · intro b1 hb1
      apply t.frame
      intro e
      apply hb1
      rw [e]
    · intro b1 hb1
      cases hb1
      exact t.here
    · rw [t.log]
      simp [freeEvents, capacity, Ptr.diff]

theorem Range.holds_il (h : Heap) (xs : List String) : Range.Holds h (Range.il xs) xs :=
  ⟨rfl, fun _ _ _ _ hj => hj⟩

theorem Range.holds_mem {h : Heap} {v : StrVec} {xs : List String} (r : Rep h v xs) :
    Range.Holds h (Range.mem v.begin v.end) xs := by
  rcases r with ⟨rfl, rfl⟩ | ⟨b, c, rfl, hle, hs⟩
  · refine ⟨rfl, ?_⟩
    intro _ _ j s hj
    simp at hj
  · refine ⟨by simp [Range.len, StrVec.begin, StrVec.end, Ptr.diff], ?_⟩
    intro h1 hfr j s hj
    have hs1 : h1.slots b = some (xs.map some ++ List.replicate (c - xs.length) none) := by
      rw [hfr b (Heap.slots_lt hs), hs]
    have hj1 : (xs.map some ++ List.replicate (c - xs.length) none)[j]? = some (some s) := by
      have hlt : j < xs.length := by
        by_contra hn
        rw [List.getElem?_eq_none (Nat.le_of_not_lt hn)] at hj
        cases hj
      rw [List.getElem?_append_left (by simpa using hlt)]
      simp [hj]
    simpa [Range.deref, StrVec.begin, Ptr.add] using Heap.read_spec hs1 hj1

theorem alloc_n_copy_spec {h : Heap} {r : Range} {xs : List String} (hr : Range.Holds h r xs) :
    ∃ h1, alloc_n_copy h r
        = some (h1, Ptr.addr h.blocks.length 0, Ptr.addr h.blocks.length xs.length) ∧
      h1.slots h.blocks.length = some (xs.map some) ∧
      (∀ b, b ≠ h.blocks.length → h1.slots b = h.slots b) ∧
      h1.blocks.length = h.blocks.length + 1 ∧
      h1.log = h.log ++ Event.allocate h.blocks.length xs.length
        :: constructEvents h.blocks.length 0 xs := by
  obtain ⟨hlen, hder⟩ := hr
  have hal := Heap.slots_allocate h xs.length
  have hs0 : (h.allocate xs.length).1.slots h.blocks.length
      = some ([] ++ (List.replicate xs.length none ++ List.replicate 0 none)) := by
    rw [hal]; simp
  obtain ⟨h1, hc, t⟩ := copyLoop_spec r h.blocks.length xs 0 (h.allocate xs.length).1 [] 0 rfl
    (by
      intro h2 hfr j s hj
      rw [Nat.zero_add]
      apply hder h2 _ j s hj
      intro b hb
      rw [hfr b (Nat.ne_of_lt hb), hal]
      simp [Nat.ne_of_lt hb]) hs0
  refine ⟨h1, ?_, ?_, ?_, ?_, ?_⟩
  · simp [alloc_n_copy, uninitialized_copy, hlen, Heap.allocate, Ptr.add] at hc ⊢
    simp [hc]
  · simpa using t.here
  · intro b hb
    rw [t.frame b hb, hal]
    simp [hb]
  · rw [t.len]; simp [Heap.allocate]
  · rw [t.log]; simp [Heap.allocate]

theorem newcap_eq (n : Nat) : (if n ≠ 0 then 2 * n else 1) = max 1 (2 * n) := by
  split <;> omega

theorem reallocate_spec {h : Heap} {v : StrVec} {xs : List String} (r : Rep h v xs) :
    ∃ h1, reallocate h v = some (h1, ⟨Ptr.addr h.blocks.length 0,
        Ptr.addr h.blocks.length xs.length,
        Ptr.addr h.blocks.length (max 1 (2 * xs.length))⟩) ∧
      h1.slots h.blocks.length
        = some (xs.map some ++ List.replicate (max 1 (2 * xs.length) - xs.length) none) ∧
      h1.blocks.length = h.blocks.length + 1 ∧
      (∀ b, b < h.blocks.length → v.elements ≠ Ptr.addr b 0 → h1.slots b = h.slots b) ∧
      (∀ b, v.elements = Ptr.addr b 0 → h1.slots b = none) ∧
      h1.log = h.log ++ reallocEvents h.blocks.length v xs := by
  have hsz := r.size_eq
  have hal := Heap.slots_allocate h (max 1 (2 * xs.length))
  rcases r with ⟨rfl, rfl⟩ | ⟨b, c, rfl, hle, hs⟩
  · refine ⟨(h.allocate 1).1, ?_, ?_, ?_, ?_, ?_, ?_⟩
    · simp [reallocate, size, StrVec.default, Ptr.diff, uninitialized_move, StrVec.begin,
        StrVec.end, moveLoop, free, Heap.allocate, Ptr.add]
    · have := hal h.blocks.length
      simpa using this
    · simp [Heap.allocate]
    · intro b hb _
      have := hal b
      simpa [Nat.ne_of_lt hb] using this
    · intro b hb
      cases hb
    · simp [reallocEvents, freeEvents, StrVec.default, Heap.allocate]
  · have hb := Heap.slots_lt hs
    have hne : b ≠ h.blocks.length := Nat.ne_of_lt hb
    have hm : max 1 (2 * xs.length) = xs.length + (max 1 (2 * xs.length) - xs.length) := by
      omega
    have hd0 : (h.allocate (max 1 (2 * xs.length))).1.slots h.blocks.length
        = some ([] ++ (List.replicate xs.length none
          ++ List.replicate (max 1 (2 * xs.length) - xs.length) none)) := by
      rw [hal, List.nil_append, ← List.replicate_add, ← hm]; simp
    have hs0 : (h.allocate (max 1 (2 * xs.length))).1.slots b
        = some ([] ++ (xs.map some ++ List.replicate (c - xs.length) none)) := by
      rw [hal]; simp [hne, hs]
    obtain ⟨h1, hml, hsrc1, hdst1, hfr1, hlen1, hlog1⟩ :=
      moveLoop_spec b h.blocks.length hne xs 0 _ [] _ [] _ rfl rfl hs0 hd0
    have rep1 : Rep h1 ⟨Ptr.addr b 0, Ptr.addr b xs.length, Ptr.addr b c⟩
        (List.replicate xs.length "") :=
      Or.inr ⟨b, c, by simp, by simpa using hle, by simpa using hsrc1⟩
    obtain ⟨h2, hfree, hlen2, hfr2, hgone, hlog2⟩ := free_spec rep1
    refine ⟨h2, ?_, ?_, ?_, ?_, ?_, ?_⟩
    · simp only [reallocate, hsz, newcap_eq, uninitialized_move, StrVec.begin, StrVec.end,
        Ptr.diff, Nat.sub_zero, Heap.allocate, Ptr.add, Nat.zero_add] at hml ⊢
      simp only [hml, hfree]
    · rw [hfr2 _ (by simpa using hne)]
      simpa using hdst1
    · rw [hlen2, hlen1]; simp [Heap.allocate]
    · intro b1 hb1 hn1
      have hn2 : b1 ≠ b := by
        intro e; apply hn1; rw [e]
      rw [hfr2 b1 hn1, hfr1 b1 (Nat.ne_of_lt hb1) hn2, hal]
      simp [Nat.ne_of_lt hb1]
    · intro b1 hb1
      exact hgone b1 hb1
    · rw [hlog2, hlog1]
      simp [reallocEvents, Heap.allocate]

theorem push_back_rv_eq (h : Heap) (v : StrVec) (s : String) :
    push_back_rv h v (Ref.obj s) = push_back h v (Ref.obj s) := rfl

theorem emplace_back_eq (h : Heap) (v : StrVec) (a : Args) :
    emplace_back h v a = a.asCall.call h v := by
  cases a with
  | none => rfl
  | copy s =>
    simp only [emplace_back, Args.asCall, PushCall.call, push_back, Args.build]
    cases chk_n_alloc h v with
    | none => rfl
    | some p =>
      cases hr : s.read p.1 with
      | none => simp [hr]
      | some x => simp [hr]
  | move s => rfl
  | fill n c => rfl

/-- `push_back` on a full vector: reallocation into the fresh block, then construction. -/
theorem push_back_full {h : Heap} {v : StrVec} {xs : List String} (s : String)
    (r : Rep h v xs) (hfull : v.size = v.capacity) :
    ∃ h1, push_back h v (Ref.obj s) = some (h1, ⟨Ptr.addr h.blocks.length 0,
        Ptr.addr h.blocks.length (xs.length + 1),
        Ptr.addr h.blocks.length (max 1 (2 * xs.length))⟩) ∧
      h1.slots h.blocks.length = some ((xs ++ [s]).map some
        ++ List.replicate (max 1 (2 * xs.length) - (xs.length + 1)) none) ∧
      h1.blocks.length = h.blocks.length + 1 ∧
      (∀ b, b < h.blocks.length → v.elements ≠ Ptr.addr b 0 → h1.slots b = h.slots b) ∧
      (∀ b, v.elements = Ptr.addr b 0 → h1.slots b = none) ∧
      h1.log = h.log ++ (reallocEvents h.blocks.length v xs
        ++ [Event.construct h.blocks.length xs.length s]) := by
  obtain ⟨h1, hre, hs1, hlen1, hfr1, hgone1, hlog1⟩ := reallocate_spec r
  have hk : max 1 (2 * xs.length) - xs.length
      = (max 1 (2 * xs.length) - (xs.length + 1)) + 1 := by omega
  rw [hk, List.replicate_succ] at hs1
  have hraw := getElem?_append_cons (xs.map some) (none : Option String)
    (List.replicate (max 1 (2 * xs.length) - (xs.length + 1)) none)
  rw [List.length_map] at hraw
  obtain ⟨h2, hc, t⟩ := Heap.construct_spec s hs1 hraw
  have hset := set_append_cons (xs.map some) (none : Option String) (some s)
    (List.replicate (max 1 (2 * xs.length) - (xs.length + 1)) none)
  rw [List.length_map] at hset
  rw [hset] at t
  refine ⟨h2, ?_, ?_, ?_, ?_, ?_, ?_⟩
  · simp [push_back, chk_n_alloc, hfull, hre, hc, Ptr.add, Ref.read]
  · rw [t.here]; simp
  · rw [t.len, hlen1]
  · intro b hb hn
    rw [t.frame b (Nat.ne_of_lt hb), hfr1 b hb hn]
  · intro b hb
    rw [t.frame b (Nat.ne_of_lt (r.block_lt hb)), hgone1 b hb]
  · rw [t.log, hlog1, List.append_assoc]

/-- `push_back` on a vector with spare capacity: one construction at `first_free`. -/
theorem push_back_room {h : Heap} {v : StrVec} {xs : List String} (s : String)
    (r : Rep h v xs) (hroom : v.size ≠ v.capacity) :
    ∃ h1 b c, v = ⟨Ptr.addr b 0, Ptr.addr b xs.length, Ptr.addr b c⟩ ∧ xs.length + 1 ≤ c ∧
      push_back h v (Ref.obj s)
        = some (h1, ⟨Ptr.addr b 0, Ptr.addr b (xs.length + 1), Ptr.addr b c⟩) ∧
      Touch h h1 b (some ((xs ++ [s]).map some ++ List.replicate (c - (xs.length + 1)) none))
        [Event.construct b xs.length s] := by
  rcases r with ⟨rfl, rfl⟩ | ⟨b, c, rfl, hle, hs⟩
  · exact absurd rfl hroom
  · have hlt : xs.length < c := by
      simp [size, capacity, Ptr.diff] at hroom
      omega
    have hk : c - xs.length = (c - (xs.length + 1)) + 1 := by omega
    rw [hk, List.replicate_succ] at hs
    have hraw := getElem?_append_cons (xs.map some) (none : Option String)
      (List.replicate (c - (xs.length + 1)) none)
    rw [List.length_map] at hraw
    obtain ⟨h2, hc, t⟩ := Heap.construct_spec s hs hraw
    have hset := set_append_cons (xs.map some) (none : Option String) (some s)
      (List.replicate (c - (xs.length + 1)) none)
    rw [List.length_map] at hset
    rw [hset] at t
    refine ⟨h2, b, c, rfl, hlt, ?_, ?_⟩
    · have hne : ¬ (size ⟨Ptr.addr b 0, Ptr.addr b xs.length, Ptr.addr b c⟩
          = capacity ⟨Ptr.addr b 0, Ptr.addr b xs.length, Ptr.addr b c⟩) := hroom
      simp only [push_back, chk_n_alloc, hne, if_false, hc, Ptr.add, Ref.read]
    · simpa using t

/-- Hoare-style summary of `push_back`: it succeeds, appends `s`, and leaves every block
the vector does not own alone. -/
theorem push_back_spec {h : Heap} {v : StrVec} {xs : List String} (s : String)
    (r : Rep h v xs) :
    ∃ h1 v1, push_back h v (Ref.obj s) = some (h1, v1) ∧ Rep h1 v1 (xs ++ [s]) ∧
      Frame h h1 v ∧
      (∀ b, v1.elements = Ptr.addr b 0 → v.elements = Ptr.addr b 0 ∨ h.blocks.length ≤ b) := by
  by_cases hfull : v.size = v.capacity
  · obtain ⟨h1, hp, hs, hlen, hfr, _, _⟩ := push_back_full s r hfull
    refine ⟨h1, _, hp, Or.inr ⟨h.blocks.length, max 1 (2 * xs.length), by simp, ?_, ?_⟩,
      ⟨by omega, hfr⟩, ?_⟩
    · rw [List.length_append, List.length_singleton]; omega
    · simpa using hs
    · intro b hb
      cases hb
      exact Or.inr (Nat.le_refl _)
  · obtain ⟨h1, b, c, rfl, hle, hp, t⟩ := push_back_room s r hfull
    refine ⟨h1, _, hp, Or.inr ⟨b, c, by simp, by simpa using hle, by simpa using t.here⟩,
      ⟨by rw [t.len], ?_⟩, ?_⟩
    · intro b1 _ hn
      apply t.frame
      intro e
      apply hn
      rw [e]
    · intro b1 hb
      exact Or.inl hb

end StrVec

/-! ## Reference arguments -/

theorem Heap.MovedFrom.same {h h1 : Heap} (hm : h.MovedFrom h1) :
    h1.blocks.length = h.blocks.length ∧ h1.log = h.log := by
  rcases hm with rfl | ⟨b, sl, i, s, _, _, rfl⟩
  · exact ⟨rfl, rfl⟩
  · simp [Heap.put]

theorem Heap.MovedFrom.slots_cases {h h1 : Heap} (hm : h.MovedFrom h1) (b : Nat) :
    h1.slots b = h.slots b ∨ ∃ sl i s, h.slots b = some sl ∧ sl[i]? = some (some s) ∧
      h1.slots b = some (sl.set i (some "")) := by
  rcases hm with rfl | ⟨b0, sl, i, s, hs, hi, rfl⟩
  · exact Or.inl rfl
  · rw [Heap.slots_put h b0 _ (Heap.slots_lt hs)]
    by_cases e : b = b0
    · subst e
      exact Or.inr ⟨sl, i, s, hs, hi, by simp⟩
    · exact Or.inl (by simp [e])

theorem Ref.take_cases {h h1 : Heap} {r : Ref} {x : String} (ht : r.take h = some (x, h1)) :
    r.read h = some x ∧
    (h1 = h ∨ ∃ b i sl, r = Ref.slot (Ptr.addr b i) ∧ h.slots b = some sl ∧
      sl[i]? = some (some x) ∧ h1 = h.put b (sl.set i (some ""))) := by
  cases r with
  | obj s =>
    simp only [Ref.take, Option.some.injEq, Prod.mk.injEq] at ht
    obtain ⟨rfl, rfl⟩ := ht
    exact ⟨rfl, Or.inl rfl⟩
  | slot p =>
    cases p with
    | null => simp [Ref.take] at ht
    | addr b i =>
      unfold Ref.take at ht
      cases hs : h.slots b with
      | none => simp [hs] at ht
      | some sl =>
        cases hi : sl[i]? with
        | none => simp [hs, hi] at ht
        | some o =>
          cases o with
          | none => simp [hs, hi] at ht
          | some s =>
            simp only [hs, hi, Option.some.injEq, Prod.mk.injEq] at ht
            obtain ⟨rfl, rfl⟩ := ht
            refine ⟨?_, Or.inr ⟨b, i, sl, rfl, hs, hi, rfl⟩⟩
            simp [Ref.read, Heap.read, hs, hi]

theorem Ref.take_movedFrom {h h1 : Heap} {r : Ref} {x : String}
    (ht : r.take h = some (x, h1)) : h.MovedFrom h1 := by
  rcases (Ref.take_cases ht).2 with e | ⟨b, i, sl, _, hs, hi, e⟩
  · exact Or.inl e
  · exact Or.inr ⟨b, sl, i, x, hs, hi, e⟩

theorem Ref.take_of_read {h : Heap} {r : Ref} {x : String} (hr : r.read h = some x) :
    ∃ h1, r.take h = some (x, h1) := by
  cases r with
  | obj s =>
    simp only [Ref.read, Option.some.injEq] at hr
    subst hr
    exact ⟨h, rfl⟩
  | slot p =>
    cases p with
    | null => simp [Ref.read, Heap.read] at hr
    | addr b i =>
      simp only [Ref.read, Heap.read] at hr
      cases hs : h.slots b with
      | none => simp [hs] at hr
      | some sl =>
        cases hi : sl[i]? with
        | none => simp [hs, hi] at hr
        | some o =>
          cases o with
          | none => simp [hs, hi] at hr
          | some s =>
            simp only [hs, hi, Option.some.injEq] at hr
            subst hr
            exact ⟨h.put b (sl.set i (some "")), by simp [Ref.take, hs, hi]⟩

theorem Ref.read_of_take_none {h : Heap} {r : Ref} (ht : r.take h = none) :
    r.read h = none := by
  cases hr : r.read h with
  | none => rfl
  | some x =>
    obtain ⟨h1, e⟩ := Ref.take_of_read hr
    rw [ht] at e
    cases e

/-- Reading through a reference only looks at the block it points into. -/
theorem Ref.read_congr {h h1 : Heap} (r : Ref)
    (hfr : ∀ b i, r = Ref.slot (Ptr.addr b i) → h1.slots b = h.slots b) :
    r.read h1 = r.read h := by
  cases r with
  | obj s => rfl
  | slot p =>
    cases p with
    | null => rfl
    | addr b i =>
      simp only [Ref.read, Heap.read, hfr b i rfl]

namespace StrVec

theorem Rep.movedFrom {h h1 : Heap} {v : StrVec} {xs : List String} (r : Rep h v xs)
    (hm : h.MovedFrom h1) : ∃ ys, Rep h1 v ys ∧ ys.length = xs.length := by
  rcases r with ⟨rfl, rfl⟩ | ⟨b, c, rfl, hle, hs⟩
  · exact ⟨[], Or.inl ⟨rfl, rfl⟩, rfl⟩
  · rcases hm.slots_cases b with e | ⟨sl, i, s, hsl, hi, e⟩
    · exact ⟨xs, Or.inr ⟨b, c, rfl, hle, by rw [e, hs]⟩, rfl⟩
    · rw [hs] at hsl
      simp only [Option.some.injEq] at hsl
      subst hsl
      have hlt : i < xs.length := by
        by_contra hn
        have hn2 : (xs.map some).length ≤ i := by simpa using Nat.le_of_not_lt hn
        rw [List.getElem?_append_right hn2] at hi
        by_cases hi2 : i - (xs.map some).length < c - xs.length
        · rw [List.getElem?_replicate_of_lt hi2] at hi
          cases hi
        · rw [List.getElem?_eq_none (by simpa using Nat.le_of_not_lt hi2)] at hi
          cases hi
      refine ⟨xs.set i "", Or.inr ⟨b, c, by simp, by simpa using hle, ?_⟩, by simp⟩
      rw [e]
      congr 1
      rw [List.set_append_left _ _ (by simpa using hlt), List.map_set, List.length_set]

/-- What `chk_n_alloc()` leaves: the same elements, room for one more, and every block the
vector does not own untouched. -/
theorem chk_n_alloc_spec {h : Heap} {v : StrVec} {xs : List String} (r : Rep h v xs) :
    ∃ h1 v1, chk_n_alloc h v = some (h1, v1) ∧ Rep h1 v1 xs ∧ v1.size ≠ v1.capacity ∧
      Frame h h1 v ∧
      (∀ b, v1.elements = Ptr.addr b 0 → v.elements = Ptr.addr b 0 ∨ h.blocks.length ≤ b) ∧
      ((v.size = v.capacity ∧ v1.capacity = max 1 (2 * xs.length) ∧
          v1.elements = Ptr.addr h.blocks.length 0 ∧
          (∀ b, v.elements = Ptr.addr b 0 → h1.slots b = none) ∧
          h1.log = h.log ++ reallocEvents h.blocks.length v xs) ∨
        (v.size ≠ v.capacity ∧ h1 = h ∧ v1 = v)) := by
  by_cases hfull : v.size = v.capacity
  · obtain ⟨h1, hre, hs1, hlen1, hfr1, hgone1, hlog1⟩ := reallocate_spec r
    have r1 : Rep h1 ⟨Ptr.addr h.blocks.length 0, Ptr.addr h.blocks.length xs.length,
        Ptr.addr h.blocks.length (max 1 (2 * xs.length))⟩ xs :=
      Or.inr ⟨_, _, rfl, by omega, hs1⟩
    refine ⟨h1, _, by simp [chk_n_alloc, hfull, hre], r1, ?_, ⟨by omega, hfr1⟩, ?_,
      Or.inl ⟨hfull, by simp [capacity, Ptr.diff], rfl, hgone1, hlog1⟩⟩
    · simp [size, capacity, Ptr.diff]
      omega
    · intro b hb
      cases hb
      exact Or.inr (Nat.le_refl _)
  · refine ⟨h, v, by simp [chk_n_alloc, hfull], r, hfull, ⟨Nat.le_refl _, fun _ _ _ => rfl⟩,
      fun b hb => Or.inl hb, Or.inr ⟨hfull, rfl, rfl⟩⟩

/-- With spare capacity `push_back` of a string outside allocator storage is the one
`construct` call. -/
theorem push_back_unfold {h : Heap} {v : StrVec} (x : String) (hroom : v.size ≠ v.capacity) :
    push_back h v (Ref.obj x) =
      (h.construct v.first_free x).map
        (fun h2 => (h2, { v with first_free := v.first_free.add 1 })) := by
  simp only [push_back, chk_n_alloc, hroom, if_false, Ref.read]
  cases h.construct v.first_free x <;> rfl

theorem push_back_read {h h1 : Heap} {v v1 : StrVec} {s : Ref} {x : String}
    (hc : chk_n_alloc h v = some (h1, v1)) (hroom : v1.size ≠ v1.capacity)
    (hr : s.read h1 = some x) : push_back h v s = push_back h1 v1 (Ref.obj x) := by
  rw [push_back_unfold x hroom]
  simp only [push_back, hc, hr]
  cases h1.construct v1.first_free x <;> rfl

theorem push_back_unread {h h1 : Heap} {v v1 : StrVec} {s : Ref}
    (hc : chk_n_alloc h v = some (h1, v1)) (hr : s.read h1 = none) :
    push_back h v s = none := by
  simp only [push_back, hc, hr]

theorem push_back_rv_take {h h1 h2 : Heap} {v v1 : StrVec} {s : Ref} {x : String}
    (hc : chk_n_alloc h v = some (h1, v1)) (hroom : v1.size ≠ v1.capacity)
    (hr : s.take h1 = some (x, h2)) : push_back_rv h v s = push_back h2 v1 (Ref.obj x) := by
  rw [push_back_unfold x hroom]
  simp only [push_back_rv, hc, hr]
  cases h2.construct v1.first_free x <;> rfl

theorem push_back_rv_untaken {h h1 : Heap} {v v1 : StrVec} {s : Ref}
    (hc : chk_n_alloc h v = some (h1, v1)) (hr : s.take h1 = none) :
    push_back_rv h v s = none := by
  simp only [push_back_rv, hc, hr]

end StrVec

namespace StrVec

/-- The end of every `push_back` and `emplace_back`: after `chk_n_alloc()` and after the
argument was read or moved from, the new element is constructed at `first_free`. -/
theorem push_tail {h h1 h2 hN : Heap} {v v1 vN : StrVec} {xs : List String} {x : String}
    (r1 : Rep h1 v1 xs) (hroom : v1.size ≠ v1.capacity)
    (hfr : Frame h h1 v)
    (hown : ∀ b, v1.elements = Ptr.addr b 0 → v.elements = Ptr.addr b 0 ∨ h.blocks.length ≤ b)
    (hm : h1.MovedFrom h2) (hp : push_back h2 v1 (Ref.obj x) = some (hN, vN)) :
    ∃ ys, ys.length = xs.length ∧ Rep h2 v1 ys ∧ Rep hN vN (ys ++ [x]) ∧
      h.blocks.length ≤ hN.blocks.length ∧
      (∀ u zs, Rep h u zs → (∀ b, u.elements = Ptr.addr b 0 → v.elements ≠ Ptr.addr b 0) →
        ∃ zs1, Rep hN u zs1 ∧ zs1.length = zs.length) ∧
      (∀ b, vN.elements = Ptr.addr b 0 → v.elements = Ptr.addr b 0 ∨ h.blocks.length ≤ b) ∧
      vN.capacity = v1.capacity ∧ vN.elements = v1.elements ∧
      ∃ b, hN.log = h1.log ++ [Event.construct b xs.length x] := by
  obtain ⟨ys, r2, hlen⟩ := r1.movedFrom hm
  have hsame := hm.same
  obtain ⟨h3, b, c, hv1, hle, hp3, t⟩ := push_back_room x r2 hroom
  rw [hp] at hp3
  simp only [Option.some.injEq, Prod.mk.injEq] at hp3
  obtain ⟨rfl, rfl⟩ := hp3
  have rN : Rep hN ⟨Ptr.addr b 0, Ptr.addr b (ys.length + 1), Ptr.addr b c⟩ (ys ++ [x]) :=
    Or.inr ⟨b, c, by simp, by simpa using hle, by simpa using t.here⟩
  refine ⟨ys, hlen, r2, rN, ?_, ?_, ?_, ?_, ?_, ⟨b, ?_⟩⟩
  · rw [t.len, hsame.1]
    exact hfr.1
  · intro u zs ru hdis
    have ru1 : Rep h1 u zs := by
      apply ru.mono
      intro b1 hb1
      exact hfr.2 b1 (ru.block_lt hb1) (hdis b1 hb1)
    obtain ⟨zs1, ru2, hl2⟩ := ru1.movedFrom hm
    refine ⟨zs1, ?_, hl2⟩
    apply ru2.mono
    intro b1 hb1
    apply t.frame
    intro e
    subst e
    have hb : v1.elements = Ptr.addr b1 0 := by rw [hv1]
    rcases hown b1 hb with ho | hn
    · exact hdis b1 hb1 ho
    · have := ru.block_lt hb1
      omega
  · intro b1 hb1
    cases hb1
    apply hown
    rw [hv1]
  · rw [hv1]
    simp [capacity, Ptr.diff]
  · rw [hv1]
  · rw [t.log, hsame.2, hlen]

/-- Every `push_back` call that returns: the vector keeps its length plus one, the other
vectors keep their lengths, and the capacity follows `chk_n_alloc()`. -/
theorem PushCall.call_any {h hN : Heap} {v vN : StrVec} {xs : List String} (c : PushCall)
    (r : Rep h v xs) (hc : c.call h v = some (hN, vN)) :
    ∃ ys x, ys.length = xs.length ∧ Rep hN vN (ys ++ [x]) ∧
      h.blocks.length ≤ hN.blocks.length ∧
      (∀ u zs, Rep h u zs → (∀ b, u.elements = Ptr.addr b 0 → v.elements ≠ Ptr.addr b 0) →
        ∃ zs1, Rep hN u zs1 ∧ zs1.length = zs.length) ∧
      (∀ b, vN.elements = Ptr.addr b 0 → v.elements = Ptr.addr b 0 ∨ h.blocks.length ≤ b) ∧
      ((v.size = v.capacity ∧ vN.capacity = max 1 (2 * xs.length) ∧
          ∃ b, hN.log = h.log ++ (reallocEvents h.blocks.length v xs
            ++ [Event.construct b xs.length x])) ∨
        (v.size ≠ v.capacity ∧ vN.capacity = v.capacity ∧ vN.elements = v.elements ∧
          ∃ b, hN.log = h.log ++ [Event.construct b xs.length x])) := by
  obtain ⟨h1, v1, hchk, r1, hroom, hfr, hown, hcase⟩ := chk_n_alloc_spec r
  have key : ∃ h2 x, h1.MovedFrom h2 ∧ push_back h2 v1 (Ref.obj x) = some (hN, vN) := by
    cases c with
    | lvalue s =>
      cases hr : s.read h1 with
      | none =>
        have := push_back_unread hchk hr
        simp only [PushCall.call, this] at hc
        cases hc
      | some x =>
        have := push_back_read hchk hroom hr
        simp only [PushCall.call, this] at hc
        exact ⟨h1, x, Or.inl rfl, hc⟩
    | rvalue s =>
      cases hr : s.take h1 with
      | none =>
        have := push_back_rv_untaken hchk hr
        simp only [PushCall.call, this] at hc
        cases hc
      | some p =>
        obtain ⟨x, h2⟩ := p
        have := push_back_rv_take hchk hroom hr
        simp only [PushCall.call, this] at hc
        exact ⟨h2, x, Ref.take_movedFrom hr, hc⟩
  obtain ⟨h2, x, hm, hp⟩ := key
  obtain ⟨ys, hlen, _, rN, hbl, hoth, hown2, hcap, hel, b, hlog⟩ :=
    push_tail r1 hroom hfr hown hm hp
  refine ⟨ys, x, hlen, rN, hbl, hoth, hown2, ?_⟩
  rcases hcase with ⟨hf, hc1, _, _, hl1⟩ | ⟨hnf, rfl, rfl⟩
  · exact Or.inl ⟨hf, by rw [hcap, hc1], b, by rw [hlog, hl1, List.append_assoc]⟩
  · exact Or.inr ⟨hnf, hcap, hel, b, hlog⟩

/-- A reference that can be used is still bound to its string after `chk_n_alloc()`. -/
theorem read_after_chk {h h1 : Heap} {v v1 : StrVec} {xs : List String} {s : Ref} {x : String}
    (r : Rep h v xs) (hchk : chk_n_alloc h v = some (h1, v1)) (hx : s.read h = some x)
    (ho : s.Outside v ∨ v.size ≠ v.capacity) : s.read h1 = some x := by
  obtain ⟨h1a, v1a, hchk1, _, _, hfr, _, hcase⟩ := chk_n_alloc_spec r
  rw [hchk] at hchk1
  simp only [Option.some.injEq, Prod.mk.injEq] at hchk1
  obtain ⟨rfl, rfl⟩ := hchk1
  rw [← hx]
  apply Ref.read_congr
  intro b i hs
  subst hs
  rcases hcase with ⟨hf, _⟩ | ⟨_, e, _⟩
  · rcases ho with ho | ho
    · have hb : b < h.blocks.length := by
        simp only [Ref.read, Heap.read] at hx
        cases hsl : h.slots b with
        | none => simp [hsl] at hx
        | some sl => exact Heap.slots_lt hsl
      exact hfr.2 b hb ho
    · exact absurd hf ho
  · rw [e]

/-- A `push_back(const std::string &)` whose argument is bound to the string `x`, outside
the buffer of the vector or with spare capacity, does what `push_back` of a string `x`
outside allocator storage does. -/
theorem push_back_ref {h : Heap} {v : StrVec} {xs : List String} {s : Ref} {x : String}
    (r : Rep h v xs) (hx : s.read h = some x) (ho : s.Outside v ∨ v.size ≠ v.capacity) :
    push_back h v s = push_back h v (Ref.obj x) := by
  obtain ⟨h1, v1, hchk, _, hroom, _⟩ := chk_n_alloc_spec r
  have hr1 := read_after_chk r hchk hx ho
  rw [push_back_read hchk hroom hr1, push_back_read hchk hroom (s := Ref.obj x) rfl]

/-- A call whose argument can be used is defined. -/
theorem PushCall.call_defined {h : Heap} {v : StrVec} {xs : List String} (c : PushCall)
    (r : Rep h v xs) (hu : c.arg.Usable h v) : ∃ h1 v1, c.call h v = some (h1, v1) := by
  obtain ⟨⟨x, hx⟩, ho⟩ := hu
  obtain ⟨h1, v1, hchk, r1, hroom, _, _, _⟩ := chk_n_alloc_spec r
  cases c with
  | lvalue s =>
    have hr1 := read_after_chk r hchk hx ho
    obtain ⟨h3, v3, hp, _⟩ := push_back_spec x r1
    exact ⟨h3, v3, (push_back_read hchk hroom hr1).trans hp⟩
  | rvalue s =>
    have hr1 := read_after_chk r hchk hx ho
    obtain ⟨h2, ht⟩ := Ref.take_of_read hr1
    obtain ⟨ys, r2, _⟩ := r1.movedFrom (Ref.take_movedFrom ht)
    obtain ⟨h3, v3, hp, _⟩ := push_back_spec x r2
    exact ⟨h3, v3, (push_back_rv_take hchk hroom ht).trans hp⟩

/-- A `push_back(std::string &&)` or `push_back(const std::string &)` on a full vector whose
argument is bound to an element of that vector: `reallocate()` has released the buffer
before the argument is used, and the call is undefined. -/
theorem PushCall.call_undefined {h : Heap} {v : StrVec} {xs : List String} (c : PushCall)
    (r : Rep h v xs) (hfull : v.size = v.capacity) (ho : ¬ c.arg.Outside v) :
    c.call h v = none := by
  obtain ⟨h1, v1, hchk, _, _, _, _, hcase⟩ := chk_n_alloc_spec r
  rcases hcase with ⟨_, _, _, hgone, _⟩ | ⟨hnf, _, _⟩
  · have harg : ∃ b i, c.arg = Ref.slot (Ptr.addr b i) ∧ v.elements = Ptr.addr b 0 := by
      cases ha : c.arg with
      | obj s => simp [ha, Ref.Outside] at ho
      | slot p =>
        cases p with
        | null => simp [ha, Ref.Outside] at ho
        | addr b i =>
          refine ⟨b, i, rfl, ?_⟩
          simpa [ha, Ref.Outside] using ho
    obtain ⟨b, i, ha, hb⟩ := harg
    have hs := hgone b hb
    cases c with
    | lvalue s =>
      simp only [PushCall.arg] at ha
      subst ha
      exact push_back_unread hchk (by simp [Ref.read, Heap.read, hs])
    | rvalue s =>
      simp only [PushCall.arg] at ha
      subst ha
      exact push_back_rv_untaken hchk (by simp [Ref.take, hs])
  · exact absurd hfull hnf

end StrVec

namespace StrVec

theorem readLoop_spec (h : Heap) (b : Nat) (ys : List String) :
    ∀ (i : Nat) (pre rest : List (Option String)), pre.length = i →
      h.slots b = some (pre ++ (ys.map some ++ rest)) →
      readLoop h (Ptr.addr b 0) i ys.length = some ys := by
  induction ys with
  | nil => intro i pre rest _ _; rfl
  | cons y ys ih =>
    intro i pre rest hpre hs
    rw [List.map_cons, List.cons_append] at hs
    have hy := getElem?_append_cons pre (some y) (ys.map some ++ rest)
    rw [hpre] at hy
    have hr := Heap.read_spec hs hy
    have hrest := ih (i + 1) (pre ++ [some y]) rest (by simp [hpre]) (by simpa using hs)
    simp only [List.length_cons, readLoop, Ptr.add, Nat.zero_add, hr, hrest]

/-- A represented vector reads back as its element sequence. -/
theorem Rep.toList_eq {h : Heap} {v : StrVec} {xs : List String} (r : Rep h v xs) :
    toList h v = some xs := by
  have hsz := r.size_eq
  rcases r with ⟨rfl, rfl⟩ | ⟨b, c, rfl, _, hs⟩
  · rfl
  · unfold toList
    rw [hsz]
    exact readLoop_spec h b xs 0 [] _ rfl (by simpa using hs)

/-- Building a vector from a range: shared by both copy operations and both
initializer-list operations. -/
theorem build_spec {h : Heap} {r : Range} {xs : List String} (hr : Range.Holds h r xs) :
    ∃ h1, alloc_n_copy h r
        = some (h1, Ptr.addr h.blocks.length 0, Ptr.addr h.blocks.length xs.length) ∧
      Rep h1 ⟨Ptr.addr h.blocks.length 0, Ptr.addr h.blocks.length xs.length,
        Ptr.addr h.blocks.length xs.length⟩ xs ∧
      (∀ b, b ≠ h.blocks.length → h1.slots b = h.slots b) ∧
      h1.blocks.length = h.blocks.length + 1 ∧
      h1.log = h.log ++ Event.allocate h.blocks.length xs.length
        :: constructEvents h.blocks.length 0 xs := by
  obtain ⟨h1, ha, hs, hfr, hlen, hlog⟩ := alloc_n_copy_spec hr
  exact ⟨h1, ha, Or.inr ⟨h.blocks.length, xs.length, rfl, Nat.le_refl _, by simpa using hs⟩,
    hfr, hlen, hlog⟩

theorem copy_ctor_spec {h : Heap} {s : StrVec} {xs : List String} (r : Rep h s xs) :
    ∃ h1, copy_ctor h s = some (h1, ⟨Ptr.addr h.blocks.length 0,
        Ptr.addr h.blocks.length xs.length, Ptr.addr h.blocks.length xs.length⟩) ∧
      Rep h1 ⟨Ptr.addr h.blocks.length 0, Ptr.addr h.blocks.length xs.length,
        Ptr.addr h.blocks.length xs.length⟩ xs ∧
      (∀ b, b ≠ h.blocks.length → h1.slots b = h.slots b) ∧
      h1.blocks.length = h.blocks.length + 1 ∧
      h1.log = h.log ++ Event.allocate h.blocks.length xs.length
        :: constructEvents h.blocks.length 0 xs := by
  obtain ⟨h1, ha, hrep, hfr, hlen, hlog⟩ := build_spec (Range.holds_mem r)
  exact ⟨h1, by simp [copy_ctor, ha], hrep, hfr, hlen, hlog⟩

theorem il_ctor_spec (h : Heap) (il : List String) :
    ∃ h1, il_ctor h il = some (h1, ⟨Ptr.addr h.blocks.length 0,
        Ptr.addr h.blocks.length il.length, Ptr.addr h.blocks.length il.length⟩) ∧
      Rep h1 ⟨Ptr.addr h.blocks.length 0, Ptr.addr h.blocks.length il.length,
        Ptr.addr h.blocks.length il.length⟩ il ∧
      (∀ b, b ≠ h.blocks.length → h1.slots b = h.slots b) ∧
      h1.blocks.length = h.blocks.length + 1 ∧
      h1.log = h.log ++ Event.allocate h.blocks.length il.length
        :: constructEvents h.blocks.length 0 il := by
  obtain ⟨h1, ha, hrep, hfr, hlen, hlog⟩ := build_spec (Range.holds_il h il)
  exact ⟨h1, by simp [il_ctor, ha], hrep, hfr, hlen, hlog⟩

/-- Build the new buffer from `r`, then free the old buffer of `d`: the common body of
copy assignment and initializer-list assignment. -/
theorem build_free_spec {h : Heap} {r : Range} {xs ys : List String} {d : StrVec}
    (hr : Range.Holds h r xs) (hd : Rep h d ys) :
    ∃ h1 h2, alloc_n_copy h r
        = some (h1, Ptr.addr h.blocks.length 0, Ptr.addr h.blocks.length xs.length) ∧
      free h1 d = some h2 ∧
      Rep h2 ⟨Ptr.addr h.blocks.length 0, Ptr.addr h.blocks.length xs.length,
        Ptr.addr h.blocks.length xs.length⟩ xs ∧
      (∀ b, b < h.blocks.length → d.elements ≠ Ptr.addr b 0 → h2.slots b = h.slots b) ∧
      (∀ b, d.elements = Ptr.addr b 0 → h2.slots b = none) ∧
      h2.blocks.length = h.blocks.length + 1 ∧
      h2.log = h.log ++ (Event.allocate h.blocks.length xs.length
        :: constructEvents h.blocks.length 0 xs ++ freeEvents d ys) := by
  obtain ⟨h1, ha, hrep, hfr, hlen, hlog⟩ := build_spec hr
  have hd1 : Rep h1 d ys :=
    hd.mono (fun b hb => hfr b (Nat.ne_of_lt (hd.block_lt hb)))
  obtain ⟨h2, hf, hlen2, hfr2, hgone2, hlog2⟩ := free_spec hd1
  refine ⟨h1, h2, ha, hf, ?_, ?_, hgone2, by rw [hlen2, hlen], ?_⟩
  · apply hrep.mono
    intro b hb
    apply hfr2
    intro e
    have hlt := hd.block_lt e
    simp at hb
    omega
  · intro b hb hn
    rw [hfr2 b hn, hfr b (Nat.ne_of_lt hb)]
  · rw [hlog2, hlog]; simp

theorem copy_assign_spec {h : Heap} {d s : StrVec} {xs ys : List String}
    (hs : Rep h s xs) (hd : Rep h d ys) :
    ∃ h2, copy_assign h d s = some (h2, ⟨Ptr.addr h.blocks.length 0,
        Ptr.addr h.blocks.length xs.length, Ptr.addr h.blocks.length xs.length⟩) ∧
      Rep h2 ⟨Ptr.addr h.blocks.length 0, Ptr.addr h.blocks.length xs.length,
        Ptr.addr h.blocks.length xs.length⟩ xs ∧
      (∀ b, b < h.blocks.length → d.elements ≠ Ptr.addr b 0 → h2.slots b = h.slots b) ∧
      (∀ b, d.elements = Ptr.addr b 0 → h2.slots b = none) ∧
      h2.blocks.length = h.blocks.length + 1 ∧
      h2.log = h.log ++ (Event.allocate h.blocks.length xs.length
        :: constructEvents h.blocks.length 0 xs ++ freeEvents d ys) := by
  obtain ⟨h1, h2, ha, hf, rest⟩ := build_free_spec (Range.holds_mem hs) hd
  exact ⟨h2, by simp [copy_assign, ha, hf], rest⟩

theorem il_assign_spec {h : Heap} {d : StrVec} {ys : List String} (il : List String)
    (hd : Rep h d ys) :
    ∃ h2, il_assign h d il = some (h2, ⟨Ptr.addr h.blocks.length 0,
        Ptr.addr h.blocks.length il.length, Ptr.addr h.blocks.length il.length⟩) ∧
      Rep h2 ⟨Ptr.addr h.blocks.length 0, Ptr.addr h.blocks.length il.length,
        Ptr.addr h.blocks.length il.length⟩ il ∧
      (∀ b, b < h.blocks.length → d.elements ≠ Ptr.addr b 0 → h2.slots b = h.slots b) ∧
      (∀ b, d.elements = Ptr.addr b 0 → h2.slots b = none) ∧
      h2.blocks.length = h.blocks.length + 1 ∧
      h2.log = h.log ++ (Event.allocate h.blocks.length il.length
        :: constructEvents h.blocks.length 0 il ++ freeEvents d ys) := by
  obtain ⟨h1, h2, ha, hf, rest⟩ := build_free_spec (Range.holds_il h il) hd
  exact ⟨h2, by simp [il_assign, ha, hf], rest⟩

end StrVec

/-! # Programs over several objects: the invariant is preserved -/

namespace World

theorem get_lt {w : World} {i : Nat} {v : StrVec} (hg : w.get i = some v) :
    i < w.objs.length := by
  unfold World.get at hg
  by_contra hlt
  rw [List.getElem?_eq_none (Nat.le_of_not_lt hlt)] at hg
  cases hg

theorem get_create (w : World) (h : Heap) (v : StrVec) (j : Nat) :
    (w.create h v).get j = if j = w.objs.length then some v else w.get j := by
  unfold World.get World.create
  by_cases hj : j = w.objs.length
  · subst hj
    simp
  · simp only [hj, if_false]
    by_cases hlt : j < w.objs.length
    · rw [List.getElem?_append_left hlt]
    · have h1 : (w.objs ++ [some v])[j]? = none := by
        apply List.getElem?_eq_none
        simp
        omega
      rw [h1, List.getElem?_eq_none (Nat.le_of_not_lt hlt)]

theorem get_update (w : World) (h : Heap) (i : Nat) (v : StrVec) (hi : i < w.objs.length)
    (j : Nat) : (w.update h i v).get j = if j = i then some v else w.get j := by
  unfold World.get World.update
  by_cases hj : j = i
  · subst hj
    simp [hi]
  · have hne : i ≠ j := fun e => hj e.symm
    simp [hj, List.getElem?_set_ne hne]

theorem get_kill (w : World) (h : Heap) (i j : Nat) :
    World.get { heap := h, objs := w.objs.set i none } j
      = if j = i then none else w.get j := by
  unfold World.get
  by_cases hj : j = i
  · subst hj
    by_cases hlt : j < w.objs.length
    · simp [hlt]
    · have : (w.objs.set j none)[j]? = none := by
        apply List.getElem?_eq_none
        simp
        omega
      simp [this]
  · have hne : i ≠ j := fun e => hj e.symm
    simp [hj, List.getElem?_set_ne hne]

/-- The invariant survives a change of heap and of one object, provided the other objects
keep a represented block and the changed object owns a block nobody else owns. -/
theorem Inv.update_weak {w : World} {this : Nat} {v v1 : StrVec} {h1 : Heap} (hw : w.Inv)
    (hv : w.get this = some v) (hrep : ∃ xs, Rep h1 v1 xs)
    (hfr : ∀ j u xs, j ≠ this → w.get j = some u → Rep w.heap u xs → ∃ ys, Rep h1 u ys)
    (hown : ∀ b, v1.elements = Ptr.addr b 0 → ∀ j u, j ≠ this → w.get j = some u →
      u.elements ≠ Ptr.addr b 0) :
    (w.update h1 this v1).Inv := by
  have hlt := get_lt hv
  constructor
  · intro i u hg
    rw [get_update w h1 this v1 hlt] at hg
    by_cases hi : i = this
    · simp only [hi, if_true, Option.some.injEq] at hg
      subst hg
      exact hrep
    · simp only [hi, if_false] at hg
      obtain ⟨xs, hx⟩ := hw.1 i u hg
      exact hfr i u xs hi hg hx
  · intro i j u1 u2 b hij hg1 hg2 hb
    rw [get_update w h1 this v1 hlt] at hg1 hg2
    by_cases hi : i = this
    · have hj : j ≠ this := fun e => hij (hi.trans e.symm)
      simp only [hi, if_true, Option.some.injEq] at hg1
      simp only [hj, if_false] at hg2
      subst hg1
      exact hown b hb j u2 hj hg2
    · simp only [hi, if_false] at hg1
      by_cases hj : j = this
      · simp only [hj, if_true, Option.some.injEq] at hg2
        subst hg2
        intro hb2
        exact hown b hb2 i u1 hi hg1 hb
      · simp only [hj, if_false] at hg2
        exact hw.2 i j u1 u2 b hij hg1 hg2 hb

/-- The invariant survives a change of heap and of one object, provided the other objects
keep their blocks and the changed object owns a block nobody else owns. -/
theorem Inv.update {w : World} {this : Nat} {v v1 : StrVec} {h1 : Heap} (hw : w.Inv)
    (hv : w.get this = some v) (hrep : ∃ xs, Rep h1 v1 xs)
    (hfr : ∀ j u xs, j ≠ this → w.get j = some u → Rep w.heap u xs → Rep h1 u xs)
    (hown : ∀ b, v1.elements = Ptr.addr b 0 → ∀ j u, j ≠ this → w.get j = some u →
      u.elements ≠ Ptr.addr b 0) :
    (w.update h1 this v1).Inv :=
  Inv.update_weak hw hv hrep (fun j u xs hj hg hx => ⟨xs, hfr j u xs hj hg hx⟩) hown

/-- The invariant survives the creation of an object. -/
theorem Inv.create {w : World} {v : StrVec} {h1 : Heap} (hw : w.Inv)
    (hrep : ∃ xs, Rep h1 v xs)
    (hfr : ∀ j u xs, w.get j = some u → Rep w.heap u xs → Rep h1 u xs)
    (hown : ∀ b, v.elements = Ptr.addr b 0 → ∀ j u, w.get j = some u →
      u.elements ≠ Ptr.addr b 0) :
    (w.create h1 v).Inv := by
  constructor
  · intro i u hg
    rw [get_create] at hg
    by_cases hi : i = w.objs.length
    · simp only [hi, if_true, Option.some.injEq] at hg
      subst hg
      exact hrep
    · simp only [hi, if_false] at hg
      obtain ⟨xs, hx⟩ := hw.1 i u hg
      exact ⟨xs, hfr i u xs hg hx⟩
  · intro i j u1 u2 b hij hg1 hg2 hb
    rw [get_create] at hg1 hg2
    by_cases hi : i = w.objs.length
    · have hj : j ≠ w.objs.length := fun e => hij (hi.trans e.symm)
      simp only [hi, if_true, Option.some.injEq] at hg1
      simp only [hj, if_false] at hg2
      subst hg1
      exact hown b hb j u2 hg2
    · simp only [hi, if_false] at hg1
      by_cases hj : j = w.objs.length
      · simp only [hj, if_true, Option.some.injEq] at hg2
        subst hg2
        intro hb2
        exact hown b hb2 i u1 hg1 hb
      · simp only [hj, if_false] at hg2
        exact hw.2 i j u1 u2 b hij hg1 hg2 hb

/-- The invariant survives the end of an object's lifetime. -/
theorem Inv.kill {w : World} {this : Nat} {h1 : Heap} (hw : w.Inv)
    (hfr : ∀ j u xs, j ≠ this → w.get j = some u → Rep w.heap u xs → Rep h1 u xs) :
    World.Inv { heap := h1, objs := w.objs.set this none } := by
  constructor
  · intro i u hg
    rw [get_kill] at hg
    by_cases hi : i = this
    · simp [hi] at hg
    · simp only [hi, if_false] at hg
      obtain ⟨xs, hx⟩ := hw.1 i u hg
      exact ⟨xs, hfr i u xs hi hg hx⟩
  · intro i j u1 u2 b hij hg1 hg2 hb
    rw [get_kill] at hg1 hg2
    by_cases hi : i = this
    · simp [hi] at hg1
    · by_cases hj : j = this
      · simp [hj] at hg2
      · simp only [hi, if_false] at hg1
        simp only [hj, if_false] at hg2
        exact hw.2 i j u1 u2 b hij hg1 hg2 hb

end World

namespace World

theorem Inv.frame_other {w : World} {this : Nat} {v : StrVec} {h1 : Heap} (hw : w.Inv)
    (hv : w.get this = some v) (hfr : Frame w.heap h1 v) :
    ∀ j u xs, j ≠ this → w.get j = some u → Rep w.heap u xs → Rep h1 u xs := by
  intro j u xs hj hg hr
  apply hr.mono
  intro b hb
  exact hfr.2 b (hr.block_lt hb) (hw.2 j this u v b hj hg hv hb)

theorem Inv.fresh_other {w : World} (hw : w.Inv) {b : Nat} (hb : w.heap.blocks.length ≤ b) :
    ∀ j u, w.get j = some u → u.elements ≠ Ptr.addr b 0 := by
  intro j u hg e
  obtain ⟨xs, hx⟩ := hw.1 j u hg
  have := hx.block_lt e
  omega

theorem method_safe {w : World} (this : Nat) (f : Heap → StrVec → Option (Heap × StrVec))
    (hw : w.Inv)
    (hf : ∀ v xs, Rep w.heap v xs → ∃ h1 v1, f w.heap v = some (h1, v1) ∧
      (∃ ys, Rep h1 v1 ys) ∧ Frame w.heap h1 v ∧
      (∀ b, v1.elements = Ptr.addr b 0 →
        v.elements = Ptr.addr b 0 ∨ w.heap.blocks.length ≤ b)) :
    (w.method this f).Safe := by
  unfold World.method
  cases hv : w.get this with
  | none => trivial
  | some v =>
    obtain ⟨xs, hx⟩ := hw.1 this v hv
    obtain ⟨h1, v1, hfe, hrep, hfr, hown⟩ := hf v xs hx
    simp only [hfe]
    apply Inv.update hw hv hrep (Inv.frame_other hw hv hfr)
    intro b hb j u hj hg
    rcases hown b hb with hold | hnew
    · exact hw.2 this j v u b (Ne.symm hj) hv hg hold
    · exact Inv.fresh_other hw hnew j u hg

/-- A member function that returns keeps the invariant, provided it leaves every other
vector with a represented block. -/
theorem method_sound {w w1 : World} (this : Nat) (f : Heap → StrVec → Option (Heap × StrVec))
    (hw : w.Inv)
    (hf : ∀ v xs h1 v1, Rep w.heap v xs → f w.heap v = some (h1, v1) →
      (∃ ys, Rep h1 v1 ys) ∧
      (∀ u zs, Rep w.heap u zs →
        (∀ b, u.elements = Ptr.addr b 0 → v.elements ≠ Ptr.addr b 0) → ∃ zs1, Rep h1 u zs1) ∧
      (∀ b, v1.elements = Ptr.addr b 0 →
        v.elements = Ptr.addr b 0 ∨ w.heap.blocks.length ≤ b))
    (he : w.method this f = Outcome.ok w1) : w1.Inv := by
  unfold World.method at he
  cases hv : w.get this with
  | none => simp [hv] at he
  | some v =>
    obtain ⟨xs, hx⟩ := hw.1 this v hv
    cases hfe : f w.heap v with
    | none => simp [hv, hfe] at he
    | some p =>
      obtain ⟨hrep, hoth, hown⟩ := hf v xs p.1 p.2 hx hfe
      simp only [hv, hfe, Outcome.ok.injEq] at he
      subst he
      apply Inv.update_weak hw hv hrep
      · intro j u zs hj hg hz
        exact hoth u zs hz (fun b hb => hw.2 j this u v b hj hg hv hb)
      · intro b hb j u hj hg
        rcases hown b hb with hold | hnew
        · exact hw.2 this j v u b (Ne.symm hj) hv hg hold
        · exact Inv.fresh_other hw hnew j u hg

/-- A `push_back` call that returns keeps the invariant. -/
theorem call_sound {w w1 : World} (this : Nat) (c : PushCall) (hw : w.Inv)
    (he : w.method this (fun h v => c.call h v) = Outcome.ok w1) : w1.Inv := by
  apply method_sound this _ hw _ he
  intro v xs h1 v1 hx hc
  obtain ⟨ys, x, _, hrep, _, hoth, hown, _⟩ := PushCall.call_any c hx hc
  refine ⟨⟨_, hrep⟩, ?_, hown⟩
  intro u zs hz hdis
  obtain ⟨zs1, hz1, _⟩ := hoth u zs hz hdis
  exact ⟨zs1, hz1⟩

/-- A `push_back` call whose argument can be used is defined and keeps the invariant. -/
theorem call_safe {w : World} (this : Nat) (c : PushCall) (hw : w.Inv)
    (hd : ∀ v, w.get this = some v → c.arg.Usable w.heap v) :
    (w.method this (fun h v => c.call h v)).Safe := by
  cases he : w.method this (fun h v => c.call h v) with
  | ok w1 => exact call_sound this c hw he
  | dead => trivial
  | undefined =>
    unfold World.method at he
    cases hv : w.get this with
    | none => simp [hv] at he
    | some v =>
      obtain ⟨xs, hx⟩ := hw.1 this v hv
      obtain ⟨h1, v1, hc⟩ := PushCall.call_defined c hx (hd v hv)
      simp [hv, hc] at he

/-- A statement that appends an element runs the member function of its call. -/
theorem exec_pushCall {w : World} {st : Stmt} {this : Nat} {c : PushCall}
    (hp : st.pushCall = some (this, c)) :
    w.exec st = w.method this (fun h v => c.call h v) := by
  cases st with
  | push_back t s =>
    simp only [Stmt.pushCall, Option.some.injEq, Prod.mk.injEq] at hp
    obtain ⟨rfl, rfl⟩ := hp
    rfl
  | push_back_rv t s =>
    simp only [Stmt.pushCall, Option.some.injEq, Prod.mk.injEq] at hp
    obtain ⟨rfl, rfl⟩ := hp
    rfl
  | emplace_back t args =>
    simp only [Stmt.pushCall, Option.some.injEq, Prod.mk.injEq] at hp
    obtain ⟨rfl, rfl⟩ := hp
    have e : (fun h v => StrVec.emplace_back h v args) = (fun h v => args.asCall.call h v) := by
      funext h v
      exact emplace_back_eq h v args
    simp only [World.exec, e]
  | default_ctor => simp [Stmt.pushCall] at hp
  | il_ctor il => simp [Stmt.pushCall] at hp
  | copy_ctor src => simp [Stmt.pushCall] at hp
  | move_ctor src => simp [Stmt.pushCall] at hp
  | copy_assign a b => simp [Stmt.pushCall] at hp
  | move_assign a b => simp [Stmt.pushCall] at hp
  | il_assign a il => simp [Stmt.pushCall] at hp
  | destructor a => simp [Stmt.pushCall] at hp

theorem copy_assign_safe {w : World} (this : Nat) {r : StrVec} {ys : List String}
    (hr : Rep w.heap r ys) (hw : w.Inv) :
    (w.method this (fun h v => StrVec.copy_assign h v r)).Safe := by
  apply method_safe this _ hw
  intro v xs hx
  obtain ⟨h2, hc, hrep, hfr, _, hlen, _⟩ := copy_assign_spec hr hx
  refine ⟨h2, _, hc, ⟨_, hrep⟩, ⟨by omega, hfr⟩, ?_⟩
  intro b hb
  cases hb
  exact Or.inr (Nat.le_refl _)

theorem il_assign_safe {w : World} (this : Nat) (il : List String) (hw : w.Inv) :
    (w.method this (fun h v => StrVec.il_assign h v il)).Safe := by
  apply method_safe this _ hw
  intro v xs hx
  obtain ⟨h2, hc, hrep, hfr, _, hlen, _⟩ := il_assign_spec il hx
  refine ⟨h2, _, hc, ⟨_, hrep⟩, ⟨by omega, hfr⟩, ?_⟩
  intro b hb
  cases hb
  exact Or.inr (Nat.le_refl _)

/-- A vector built in the fresh block by `alloc_n_copy` joins the world. -/
theorem create_fresh_inv {w : World} {h1 : Heap} {n : Nat} {xs : List String} (hw : w.Inv)
    (hrep : Rep h1 ⟨Ptr.addr w.heap.blocks.length 0, Ptr.addr w.heap.blocks.length n,
      Ptr.addr w.heap.blocks.length n⟩ xs)
    (hfr : ∀ b, b ≠ w.heap.blocks.length → h1.slots b = w.heap.slots b) :
    (w.create h1 ⟨Ptr.addr w.heap.blocks.length 0, Ptr.addr w.heap.blocks.length n,
      Ptr.addr w.heap.blocks.length n⟩).Inv := by
  apply Inv.create hw ⟨xs, hrep⟩
  · intro j u ys _ hr
    apply hr.mono
    intro b hb
    exact hfr b (Nat.ne_of_lt (hr.block_lt hb))
  · intro b hb
    cases hb
    exact Inv.fresh_other hw (Nat.le_refl _)

theorem move_ctor_inv {w : World} {src : Nat} {s : StrVec} (hw : w.Inv)
    (hs : w.get src = some s) :
    ((w.update w.heap src (StrVec.move_ctor s).2).create w.heap (StrVec.move_ctor s).1).Inv := by
  have hlt := get_lt hs
  have h1 : (w.update w.heap src StrVec.default).Inv := by
    apply Inv.update hw hs ⟨[], Or.inl ⟨rfl, rfl⟩⟩
    · intro j u xs _ _ hr
      exact hr
    · intro b hb
      cases hb
  obtain ⟨xs, hx⟩ := hw.1 src s hs
  have hs1 : (StrVec.move_ctor s).1 = s := rfl
  have hs2 : (StrVec.move_ctor s).2 = StrVec.default := rfl
  rw [hs1, hs2]
  apply Inv.create h1 ⟨xs, hx⟩
  · intro j u ys _ hr
    exact hr
  · intro b hb j u hg
    rw [get_update w w.heap src _ hlt] at hg
    by_cases hj : j = src
    · simp only [hj, if_true, Option.some.injEq] at hg
      subst hg
      intro e
      cases e
    · simp only [hj, if_false] at hg
      exact hw.2 src j s u b (Ne.symm hj) hs hg hb

end World
namespace StrVec

theorem free_frame {h h1 : Heap} {v : StrVec}
    (hlen : h1.blocks.length = h.blocks.length)
    (hfr : ∀ b, v.elements ≠ Ptr.addr b 0 → h1.slots b = h.slots b) : Frame h h1 v :=
  ⟨by omega, fun b _ hn => hfr b hn⟩

/-- Move assignment between two different objects. -/
theorem move_assign_spec {h : Heap} {d r : StrVec} {xs ys : List String}
    (hd : Rep h d ys) (hr : Rep h r xs)
    (hsep : ∀ b, d.elements = Ptr.addr b 0 → r.elements ≠ Ptr.addr b 0) :
    ∃ h1, move_assign h d r false = some (h1, r, StrVec.default) ∧ Rep h1 r xs ∧
      Frame h h1 d ∧ (∀ b, d.elements = Ptr.addr b 0 → h1.slots b = none) ∧
      h1.log = h.log ++ freeEvents d ys := by
  obtain ⟨h1, hf, hlen, hfr, hgone, hlog⟩ := free_spec hd
  refine ⟨h1, by simp [move_assign, hf], ?_, free_frame hlen hfr, hgone, hlog⟩
  apply hr.mono
  intro b hb
  apply hfr
  intro e
  exact hsep b e hb

end StrVec

namespace World

theorem Inv.congr {w w1 : World} (hw : w.Inv) (hh : w1.heap = w.heap)
    (hg : ∀ j, w1.get j = w.get j) : w1.Inv := by
  constructor
  · intro i v hi
    rw [hg] at hi
    rw [hh]
    exact hw.1 i v hi
  · intro i j v u b hij hi hj
    rw [hg] at hi hj
    exact hw.2 i j v u b hij hi hj

theorem move_assign_safe {w : World} (this rhs : Nat) (hw : w.Inv) :
    (w.exec (Stmt.move_assign this rhs)).Safe := by
  cases hv : w.get this with
  | none => simp [World.exec, hv, Outcome.Safe]
  | some v =>
    cases hr : w.get rhs with
    | none => simp [World.exec, hv, hr, Outcome.Safe]
    | some r =>
      simp only [World.exec, hv, hr]
      have hlt := get_lt hv
      have hlr := get_lt hr
      by_cases hsame : this = rhs
      · subst hsame
        have e : r = v := by
          rw [hv] at hr
          exact (Option.some.inj hr).symm
        subst e
        simp only [StrVec.move_assign, decide_True, Bool.true_eq_false, if_false]
        show World.Inv _
        refine Inv.congr hw ?_ ?_
        · rfl
        intro j
        rw [get_update _ _ _ _ (by simpa [World.update] using hlt),
          get_update _ _ _ _ hlt]
        by_cases hj : j = this
        · simp [hj, hv]
        · simp [hj]
      · obtain ⟨xs, hx⟩ := hw.1 rhs r hr
        obtain ⟨ys, hy⟩ := hw.1 this v hv
        have hsep : ∀ b, v.elements = Ptr.addr b 0 → r.elements ≠ Ptr.addr b 0 :=
          fun b hb => hw.2 this rhs v r b hsame hv hr hb
        obtain ⟨h1, hm, hrep, hfr, _, _⟩ := StrVec.move_assign_spec hy hx hsep
        simp only [hsame, decide_False, hm]
        have w1 : (w.update h1 this StrVec.default).Inv := by
          apply Inv.update hw hv ⟨[], Or.inl ⟨rfl, rfl⟩⟩ (Inv.frame_other hw hv hfr)
          intro b hb
          cases hb
        have g1 := get_update w h1 this StrVec.default hlt
        have hr1 : (w.update h1 this StrVec.default).get rhs = some r := by
          rw [g1]; simp [Ne.symm hsame, hr]
        have w2 : ((w.update h1 this StrVec.default).update h1 rhs StrVec.default).Inv := by
          apply Inv.update w1 hr1 ⟨[], Or.inl ⟨rfl, rfl⟩⟩
          · intro j u zs _ _ hz
            exact hz
          · intro b hb
            cases hb
        have g2 := get_update (w.update h1 this StrVec.default) h1 rhs StrVec.default
          (by simpa [World.update] using hlr)
        have hv2 : ((w.update h1 this StrVec.default).update h1 rhs StrVec.default).get this
            = some StrVec.default := by
          rw [g2, g1]; simp [hsame]
        have w3 : (((w.update h1 this StrVec.default).update h1 rhs StrVec.default).update
            h1 this r).Inv := by
          apply Inv.update w2 hv2 ⟨xs, hrep⟩
          · intro j u zs _ _ hz
            exact hz
          · intro b hb j u hj hg
            rw [g2, g1] at hg
            by_cases hjr : j = rhs
            · simp only [hjr, if_true, Option.some.injEq] at hg
              subst hg
              intro e
              cases e
            · simp only [hjr, hj, if_false] at hg
              exact hw.2 rhs j r u b (Ne.symm hjr) hr hg hb
        show World.Inv _
        refine Inv.congr w3 ?_ ?_
        · rfl
        intro j
        have a := get_update (w.update h1 rhs StrVec.default) h1 this r
          (by simpa [World.update] using hlt) j
        have b := get_update ((w.update h1 this StrVec.default).update h1 rhs StrVec.default)
          h1 this r (by simpa [World.update] using hlt) j
        rw [a, b, get_update _ _ _ _ hlr, g2, g1]
        by_cases hj : j = this
        · simp [hj]
        · simp [hj]

theorem destructor_safe {w : World} (this : Nat) (hw : w.Inv) :
    (w.exec (Stmt.destructor this)).Safe := by
  cases hv : w.get this with
  | none => simp [World.exec, hv, Outcome.Safe]
  | some v =>
    simp only [World.exec, hv]
    obtain ⟨xs, hx⟩ := hw.1 this v hv
    obtain ⟨h1, hf, hlen, hfr, _, _⟩ := StrVec.free_spec hx
    simp only [StrVec.destructor, hf]
    exact Inv.kill hw (Inv.frame_other hw hv (StrVec.free_frame hlen hfr))

/-- Every statement whose arguments can be used keeps the invariant and performs defined
allocator calls only. -/
theorem exec_safe {w : World} (hw : w.Inv) (st : Stmt) (hd : w.Defined st) :
    (w.exec st).Safe := by
  cases st with
  | default_ctor =>
    apply Inv.create hw ⟨[], Or.inl ⟨rfl, rfl⟩⟩
    · intro j u xs _ hr
      exact hr
    · intro b hb
      cases hb
  | il_ctor il =>
    obtain ⟨h1, hc, hrep, hfr, _, _⟩ := StrVec.il_ctor_spec w.heap il
    simp only [World.exec, hc]
    exact create_fresh_inv hw hrep hfr
  | copy_ctor src =>
    cases hs : w.get src with
    | none => simp [World.exec, hs, Outcome.Safe]
    | some s =>
      obtain ⟨xs, hx⟩ := hw.1 src s hs
      obtain ⟨h1, hc, hrep, hfr, _, _⟩ := StrVec.copy_ctor_spec hx
      simp only [World.exec, hs, hc]
      exact create_fresh_inv hw hrep hfr
  | move_ctor src =>
    cases hs : w.get src with
    | none => simp [World.exec, hs, Outcome.Safe]
    | some s =>
      simp only [World.exec, hs]
      exact move_ctor_inv hw hs
  | push_back this s =>
    exact call_safe this (PushCall.lvalue s) hw (fun v hv => hd this _ v rfl hv)
  | push_back_rv this s =>
    exact call_safe this (PushCall.rvalue s) hw (fun v hv => hd this _ v rfl hv)
  | emplace_back this args =>
    have e : w.exec (Stmt.emplace_back this args)
        = w.method this (fun h v => args.asCall.call h v) := exec_pushCall rfl
    rw [e]
    exact call_safe this args.asCall hw (fun v hv => hd this _ v rfl hv)
  | copy_assign this rhs =>
    cases hr : w.get rhs with
    | none => simp [World.exec, hr, Outcome.Safe]
    | some r =>
      obtain ⟨ys, hy⟩ := hw.1 rhs r hr
      simp only [World.exec, hr]
      exact copy_assign_safe this hy hw
  | move_assign this rhs => exact move_assign_safe this rhs hw
  | il_assign this il => exact il_assign_safe this il hw
  | destructor this => exact destructor_safe this hw

/-- A statement without a call that appends has nothing to check. -/
theorem defined_of_pushCall_none {w : World} {st : Stmt} (hn : st.pushCall = none) :
    w.Defined st := by
  intro this c v hp
  rw [hn] at hp
  cases hp

/-- Every statement that returns keeps the invariant. -/
theorem exec_sound {w w1 : World} (hw : w.Inv) (st : Stmt) (he : w.exec st = Outcome.ok w1) :
    w1.Inv := by
  cases hp : st.pushCall with
  | none =>
    have hs := exec_safe hw st (defined_of_pushCall_none hp)
    rw [he] at hs
    exact hs
  | some p =>
    have e : w.exec st = w.method p.1 (fun h v => p.2.call h v) := exec_pushCall hp
    rw [e] at he
    exact call_sound p.1 p.2 hw he

theorem run_sound (sts : List Stmt) :
    ∀ {w w1 : World}, w.Inv → w.run sts = Outcome.ok w1 → w1.Inv := by
  induction sts with
  | nil =>
    intro w w1 hw he
    simp only [World.run, Outcome.ok.injEq] at he
    rw [← he]
    exact hw
  | cons st rest ih =>
    intro w w1 hw he
    unfold World.run at he
    cases hs : w.exec st with
    | ok w2 =>
      rw [hs] at he
      exact ih (exec_sound hw st hs) he
    | dead => simp [hs] at he
    | undefined => simp [hs] at he

theorem empty_inv : World.empty.Inv := by
  constructor
  · intro i v hg
    simp [World.get, World.empty] at hg
  · intro i j v u b _ hg
    simp [World.get, World.empty] at hg

end World

/-! # Sequences of `push_back` calls -/

namespace StrVec

/-- A string outside allocator storage can always be passed. -/
theorem usable_of_isObj (h : Heap) (v : StrVec) {r : Ref} (hr : r.isObj = true) :
    r.Usable h v := by
  cases r with
  | obj s => exact ⟨⟨s, rfl⟩, Or.inl trivial⟩
  | slot p => cases hr

theorem usableAll_of_obj (calls : List PushCall) :
    ∀ (h : Heap) (v : StrVec), (∀ c ∈ calls, c.arg.isObj = true) → UsableAll h v calls := by
  induction calls with
  | nil => intro h v _; trivial
  | cons c cs ih =>
    intro h v hobj
    exact ⟨usable_of_isObj h v (hobj c (List.mem_cons_self _ _)),
      fun h1 v1 _ => ih h1 v1 (fun c1 hc1 => hobj c1 (List.mem_cons_of_mem _ hc1))⟩

/-- A `push_back` call that returns leaves a vector that is one element longer. -/
theorem PushCall.call_rep {h hN : Heap} {v vN : StrVec} {xs : List String} (c : PushCall)
    (r : Rep h v xs) (hc : c.call h v = some (hN, vN)) :
    ∃ zs, Rep hN vN zs ∧ zs.length = xs.length + 1 := by
  obtain ⟨ys, x, hlen, rN, _⟩ := PushCall.call_any c r hc
  exact ⟨ys ++ [x], rN, by simp [hlen]⟩

/-- The string a `push_back` call with an argument outside allocator storage appends. -/
theorem PushCall.call_spec {h : Heap} {v : StrVec} {xs : List String} (c : PushCall) (s : String)
    (hs : c.arg = Ref.obj s) (r : Rep h v xs) :
    ∃ h1 v1, c.call h v = some (h1, v1) ∧ Rep h1 v1 (xs ++ [s]) := by
  cases c with
  | lvalue t =>
    simp only [PushCall.arg] at hs
    subst hs
    obtain ⟨h1, v1, hp, hrep, _, _⟩ := push_back_spec s r
    exact ⟨h1, v1, hp, hrep⟩
  | rvalue t =>
    simp only [PushCall.arg] at hs
    subst hs
    obtain ⟨h1, v1, hp, hrep, _, _⟩ := push_back_spec s r
    exact ⟨h1, v1, hp, hrep⟩

theorem pushAll_defined (calls : List PushCall) :
    ∀ {h : Heap} {v : StrVec} {xs : List String}, Rep h v xs → UsableAll h v calls →
      ∃ hN vN, pushAll h v calls = some (hN, vN) := by
  induction calls with
  | nil =>
    intro h v xs _ _
    exact ⟨h, v, rfl⟩
  | cons c cs ih =>
    intro h v xs r hu
    obtain ⟨h1, v1, hc⟩ := PushCall.call_defined c r hu.1
    obtain ⟨zs, r1, _⟩ := PushCall.call_rep c r hc
    obtain ⟨hN, vN, hp⟩ := ih r1 (hu.2 h1 v1 hc)
    exact ⟨hN, vN, by simp [pushAll, hc, hp]⟩

theorem pushTrace_defined (calls : List PushCall) :
    ∀ {h hN : Heap} {v vN : StrVec}, pushAll h v calls = some (hN, vN) →
      ∃ tr, pushTrace h v calls = some tr := by
  induction calls with
  | nil =>
    intro h hN v vN _
    exact ⟨[], rfl⟩
  | cons c cs ih =>
    intro h hN v vN hp
    cases hc : c.call h v with
    | none => simp [pushAll, hc] at hp
    | some p =>
      obtain ⟨h1, v1⟩ := p
      simp only [pushAll, hc] at hp
      obtain ⟨tr, ht⟩ := ih hp
      exact ⟨(h1, v1) :: tr, by simp [pushTrace, hc, ht]⟩

theorem pushAll_spec (calls : List PushCall) :
    ∀ {h hN : Heap} {v vN : StrVec} {xs : List String}, Rep h v xs →
      pushAll h v calls = some (hN, vN) →
      ∃ zs, Rep hN vN zs ∧ zs.length = xs.length + calls.length := by
  induction calls with
  | nil =>
    intro h hN v vN xs r hp
    simp only [pushAll, Option.some.injEq, Prod.mk.injEq] at hp
    obtain ⟨rfl, rfl⟩ := hp
    exact ⟨xs, r, rfl⟩
  | cons c cs ih =>
    intro h hN v vN xs r hp
    cases hc : c.call h v with
    | none => simp [pushAll, hc] at hp
    | some p =>
      obtain ⟨h1, v1⟩ := p
      simp only [pushAll, hc] at hp
      obtain ⟨ys, r1, hl1⟩ := PushCall.call_rep c r hc
      obtain ⟨zs, rN, hlen⟩ := ih r1 hp
      refine ⟨zs, rN, ?_⟩
      rw [hlen, hl1]
      simp
      omega

theorem pushTrace_spec (calls : List PushCall) :
    ∀ {h : Heap} {v : StrVec} {xs : List String} {tr : List (Heap × StrVec)}, Rep h v xs →
      pushTrace h v calls = some tr →
      tr.length = calls.length ∧
        ∀ k st, tr[k]? = some st →
          st.2.size = xs.length + k + 1 ∧ st.2.size ≤ st.2.capacity := by
  induction calls with
  | nil =>
    intro h v xs tr _ ht
    simp only [pushTrace, Option.some.injEq] at ht
    subst ht
    exact ⟨rfl, by simp⟩
  | cons c cs ih =>
    intro h v xs tr r ht
    cases hc : c.call h v with
    | none => simp [pushTrace, hc] at ht
    | some p =>
      obtain ⟨h1, v1⟩ := p
      obtain ⟨ys, r1, hl1⟩ := PushCall.call_rep c r hc
      cases ht1 : pushTrace h1 v1 cs with
      | none => simp [pushTrace, hc, ht1] at ht
      | some tr1 =>
        simp only [pushTrace, hc, ht1, Option.some.injEq] at ht
        subst ht
        obtain ⟨hlen, hall⟩ := ih r1 ht1
        refine ⟨by simp [hlen], ?_⟩
        intro k st hk
        cases k with
        | zero =>
          simp at hk
          subst hk
          refine ⟨?_, r1.size_le⟩
          rw [r1.size_eq, hl1]
        | succ k =>
          simp at hk
          obtain ⟨h2, hle⟩ := hall k st hk
          refine ⟨?_, hle⟩
          rw [h2, hl1]
          omega

end StrVec

/-! # The claims about single vectors -/

theorem countP_destroyEvents (b : Nat) (xs : List String) :
    ∀ i, (destroyEvents b i xs).countP Event.isAllocate = 0 := by
  induction xs with
  | nil => intro i; rfl
  | cons x xs ih =>
    intro i
    simp [destroyEvents, List.countP_append, ih, Event.isAllocate]

theorem destroyEvents_eq_reverse (b : Nat) (xs : List String) :
    ∀ i, destroyEvents b i xs = (destroyCalls b i xs).reverse := by
  induction xs with
  | nil => intro i; rfl
  | cons x xs ih =>
    intro i
    simp [destroyEvents, destroyCalls, ih]

theorem countP_constructEvents (b : Nat) (xs : List String) :
    ∀ i, (constructEvents b i xs).countP Event.isAllocate = 0 := by
  induction xs with
  | nil => intro i; rfl
  | cons x xs ih =>
    intro i
    simp [constructEvents, List.countP_cons, ih, Event.isAllocate]

theorem Heap.slots_fresh (h : Heap) : h.slots h.blocks.length = none := by
  cases hs : h.slots h.blocks.length with
  | none => rfl
  | some sl => exact absurd (Heap.slots_lt hs) (Nat.lt_irrefl _)

namespace StrVec

theorem countP_freeEvents (v : StrVec) (xs : List String) :
    (freeEvents v xs).countP Event.isAllocate = 0 := by
  unfold freeEvents
  cases v.elements with
  | null => rfl
  | addr b o => simp [List.countP_append, countP_destroyEvents, Event.isAllocate]

/-- C1, counterexample to the claim as stated.  The two calls `v.push_back("a");
v.push_back(*v.begin());` on a default-constructed `StrVec`: the second call finds the vector
full, `reallocate()` releases the buffer its argument is bound to, and `construct` then
reads the released element.  The sequence has no defined final state. -/
theorem push_back_of_front_undefined :
    pushAll Heap.empty StrVec.default
      [PushCall.lvalue (Ref.obj "a"), PushCall.lvalue (Ref.slot (Ptr.addr 0 0))] = none := by
  rfl

/-- C1, as the code has it.  For every heap and every sequence of `push_back` calls (each one
through either overload) applied to a default-constructed `StrVec`, in which no call is handed
a reference to an element of the vector while the vector is full (in particular when every
argument is a string outside the vector): all calls are well defined, the final `size()`
equals the number `N` of calls, the `k`-th call leaves `size() = k`, and after each individual
call `capacity() >= size()` holds.  The sizes and capacities are these for every sequence of
calls that returns at all. -/
theorem push_back_size_capacity (h : Heap) (calls : List PushCall) :
    ((∀ c ∈ calls, c.arg.isObj = true) → UsableAll h StrVec.default calls) ∧
    (UsableAll h StrVec.default calls →
      ∃ hN vN tr, pushAll h StrVec.default calls = some (hN, vN) ∧ vN.size = calls.length ∧
        pushTrace h StrVec.default calls = some tr ∧ tr.length = calls.length ∧
        ∀ k st, tr[k]? = some st → st.2.size = k + 1 ∧ st.2.size ≤ st.2.capacity) ∧
    (∀ hN vN, pushAll h StrVec.default calls = some (hN, vN) →
      vN.size = calls.length ∧
      ∃ tr, pushTrace h StrVec.default calls = some tr ∧ tr.length = calls.length ∧
        ∀ k st, tr[k]? = some st → st.2.size = k + 1 ∧ st.2.size ≤ st.2.capacity) := by
  have r0 : Rep h StrVec.default [] := Or.inl ⟨rfl, rfl⟩
  have key : ∀ hN vN, pushAll h StrVec.default calls = some (hN, vN) →
      vN.size = calls.length ∧
      ∃ tr, pushTrace h StrVec.default calls = some tr ∧ tr.length = calls.length ∧
        ∀ k st, tr[k]? = some st → st.2.size = k + 1 ∧ st.2.size ≤ st.2.capacity := by
    intro hN vN hp
    obtain ⟨zs, rN, hlen⟩ := pushAll_spec calls r0 hp
    obtain ⟨tr, ht⟩ := pushTrace_defined calls hp
    obtain ⟨htl, hall⟩ := pushTrace_spec calls r0 ht
    refine ⟨by rw [rN.size_eq, hlen]; simp, tr, ht, htl, ?_⟩
    intro k st hk
    have := hall k st hk
    simpa using this
  refine ⟨usableAll_of_obj calls h StrVec.default, ?_, key⟩
  intro hu
  obtain ⟨hN, vN, hp⟩ := pushAll_defined calls r0 hu
  obtain ⟨hsz, tr, ht, htl, hall⟩ := key hN vN hp
  exact ⟨hN, vN, tr, hp, hsz, ht, htl, hall⟩

/-- A vector whose `cap` equals `first_free` owns a block of exactly as many slots as it has
elements, all of them constructed. -/
theorem Rep.exact_slots {h : Heap} {n k : Nat} {xs : List String}
    (r : Rep h ⟨Ptr.addr n 0, Ptr.addr n k, Ptr.addr n k⟩ xs) :
    h.slots n = some (xs.map some) := by
  rcases r with ⟨hv, _⟩ | ⟨b, c, hv, _, hs⟩
  · cases hv
  · simp only [StrVec.mk.injEq, Ptr.addr.injEq, and_true, true_and] at hv
    obtain ⟨rfl, ⟨_, h1⟩, ⟨_, h2⟩⟩ := hv
    have hc : c - xs.length = 0 := by omega
    simpa [hc] using hs

/-- The buffer of a represented vector is not the block an allocation is about to return. -/
theorem Rep.ne_fresh {h : Heap} {v : StrVec} {xs : List String} (r : Rep h v xs) :
    v.elements ≠ Ptr.addr h.blocks.length 0 := by
  intro e
  exact Nat.lt_irrefl _ (r.block_lt e)

/-- C4. For every `StrVec` source `s` (and every destination `d`, which may be `s` itself):
the vector produced by copy construction or by copy assignment from `s` holds the same
element sequence as `s`, and its `size()` and `capacity()` both equal `s.size()`.  Its buffer
is a block that did not exist before the call and is not the buffer of `s`: the call makes
exactly one allocation, of exactly `s.size()` slots, and copy-constructs the elements of `s`
into it in order, so that every slot of the new block holds an element.  The source keeps its
members, and keeps its elements after copy construction and after copy assignment to a
vector with another buffer. -/
theorem copy_equal {h : Heap} {s d : StrVec} {xs ys : List String}
    (hs : Rep h s xs) (hd : Rep h d ys) :
    toList h s = some xs ∧ h.slots h.blocks.length = none ∧
    (∃ h1 c, copy_ctor h s = some (h1, c) ∧ toList h1 c = some xs ∧
      c.size = s.size ∧ c.capacity = s.size ∧
      c.elements = Ptr.addr h.blocks.length 0 ∧ c.elements ≠ s.elements ∧
      h1.slots h.blocks.length = some (xs.map some) ∧
      h1.blocks.length = h.blocks.length + 1 ∧
      h1.allocations = h.allocations + 1 ∧
      h1.log = h.log ++ Event.allocate h.blocks.length s.size
        :: constructEvents h.blocks.length 0 xs ∧
      toList h1 s = some xs) ∧
    (∃ h1 c, copy_assign h d s = some (h1, c) ∧ toList h1 c = some xs ∧
      c.size = s.size ∧ c.capacity = s.size ∧
      c.elements = Ptr.addr h.blocks.length 0 ∧ c.elements ≠ s.elements ∧
      c.elements ≠ d.elements ∧
      h1.slots h.blocks.length = some (xs.map some) ∧
      h1.blocks.length = h.blocks.length + 1 ∧
      h1.allocations = h.allocations + 1 ∧
      h1.log = h.log ++ (Event.allocate h.blocks.length s.size
        :: constructEvents h.blocks.length 0 xs ++ freeEvents d ys) ∧
      ((∀ b, d.elements = Ptr.addr b 0 → s.elements ≠ Ptr.addr b 0) →
        toList h1 s = some xs)) := by
  have hsz := hs.size_eq
  refine ⟨hs.toList_eq, Heap.slots_fresh h, ?_, ?_⟩
  · obtain ⟨h1, hc, hrep, hfr, hlen, hlog⟩ := copy_ctor_spec hs
    refine ⟨h1, _, hc, hrep.toList_eq, by rw [hrep.size_eq, hsz],
      by rw [hsz]; simp [capacity, Ptr.diff], rfl, fun e => hs.ne_fresh e.symm,
      hrep.exact_slots, hlen, ?_, by rw [hlog, hsz], ?_⟩
    · unfold Heap.allocations
      rw [hlog]
      simp [List.countP_append, List.countP_cons, countP_constructEvents, Event.isAllocate]
    · apply Rep.toList_eq
      apply hs.mono
      intro b hb
      exact hfr b (Nat.ne_of_lt (hs.block_lt hb))
  · obtain ⟨h1, hc, hrep, hfr, _, hlen, hlog⟩ := copy_assign_spec hs hd
    refine ⟨h1, _, hc, hrep.toList_eq, by rw [hrep.size_eq, hsz],
      by rw [hsz]; simp [capacity, Ptr.diff], rfl, fun e => hs.ne_fresh e.symm,
      fun e => hd.ne_fresh e.symm, hrep.exact_slots, hlen, ?_, by rw [hlog, hsz], ?_⟩
    · unfold Heap.allocations
      rw [hlog]
      simp [List.countP_append, List.countP_cons, countP_constructEvents, countP_freeEvents,
        Event.isAllocate]
    · intro hdis
      apply Rep.toList_eq
      apply hs.mono
      intro b hb
      exact hfr b (hs.block_lt hb) (fun e => hdis b e hb)

/-- C7. Appending "Alice", "Bob", "Calvin" and "David" to a default-constructed `StrVec`
(capacity 0): the sizes after the four calls are 1, 2, 3, 4, the capacities are 1, 2, 4, 4,
and the elements are the four names in order. -/
theorem four_names_capacities :
    StrVec.default.capacity = 0 ∧
    (pushTrace Heap.empty StrVec.default
        [PushCall.rvalue (Ref.obj "Alice"), PushCall.rvalue (Ref.obj "Bob"), PushCall.rvalue (Ref.obj "Calvin"),
          PushCall.rvalue (Ref.obj "David")]).map
        (List.map fun st => (st.2.size, st.2.capacity, toList st.1 st.2))
      = some [(1, 1, some ["Alice"]), (2, 2, some ["Alice", "Bob"]),
          (3, 4, some ["Alice", "Bob", "Calvin"]),
          (4, 4, some ["Alice", "Bob", "Calvin", "David"])] := by
  constructor
  · rfl
  · rfl

/-- C8. `StrVec::free` (which is all the destructor does) on a vector holding `xs` in block
`b`: the allocator calls it makes are one `destroy` per constructed element, the last element
first, followed by one `deallocate` of the block with the full capacity; the block is then
released.  On a vector whose `elements` is null it makes no call at all. -/
theorem free_destroys_in_reverse {h : Heap} {v : StrVec} {xs : List String} (r : Rep h v xs) :
    ∃ h1, free h v = some h1 ∧ destructor h v = some h1 ∧
      (∀ b o, v.elements = Ptr.addr b o →
        h1.log = h.log ++ ((destroyCalls b 0 xs).reverse ++ [Event.deallocate b v.capacity]) ∧
        h1.slots b = none) ∧
      (v.elements = Ptr.null → h1 = h) := by
  obtain ⟨h1, hf, _, _, hgone, hlog⟩ := free_spec r
  refine ⟨h1, hf, hf, ?_, ?_⟩
  · intro b o hb
    have ho : o = 0 := by
      rcases r with ⟨rfl, rfl⟩ | ⟨b1, c, rfl, _, _⟩
      · cases hb
      · cases hb; rfl
    subst ho
    refine ⟨?_, hgone b hb⟩
    rw [hlog]
    simp [freeEvents, hb, destroyEvents_eq_reverse]
  · intro hn
    simp [free, hn] at hf
    exact hf.symm

/-- C10. Copy assignment and initializer-list assignment first allocate the new block and
copy-construct every element of the source into it, and only then destroy the old elements
and release the old block: the allocator log grows by `allocate`, the constructions, then the
calls of `free()`.  Every call is well defined (a read of released storage would not be), also
for self-assignment `v = v`, which leaves the element sequence of `v` unchanged. -/
theorem assign_builds_before_release {h : Heap} {d s : StrVec} {xs ys : List String}
    (il : List String) (hs : Rep h s xs) (hd : Rep h d ys) :
    (∃ h1 v1, copy_assign h d s = some (h1, v1) ∧ toList h1 v1 = some xs ∧
      h1.log = h.log ++ (Event.allocate h.blocks.length xs.length
        :: constructEvents h.blocks.length 0 xs ++ freeEvents d ys)) ∧
    (∃ h1 v1, il_assign h d il = some (h1, v1) ∧ toList h1 v1 = some il ∧
      h1.log = h.log ++ (Event.allocate h.blocks.length il.length
        :: constructEvents h.blocks.length 0 il ++ freeEvents d ys)) ∧
    (∃ h1 v1, copy_assign h s s = some (h1, v1) ∧ toList h1 v1 = some xs ∧
      h1.log = h.log ++ (Event.allocate h.blocks.length xs.length
        :: constructEvents h.blocks.length 0 xs ++ freeEvents s xs)) := by
  refine ⟨?_, ?_, ?_⟩
  · obtain ⟨h1, hc, hrep, _, _, _, hlog⟩ := copy_assign_spec hs hd
    exact ⟨h1, _, hc, hrep.toList_eq, hlog⟩
  · obtain ⟨h1, hc, hrep, _, _, _, hlog⟩ := il_assign_spec il hd
    exact ⟨h1, _, hc, hrep.toList_eq, hlog⟩
  · obtain ⟨h1, hc, hrep, _, _, _, hlog⟩ := copy_assign_spec hs hs
    exact ⟨h1, _, hc, hrep.toList_eq, hlog⟩

end StrVec

/-! # The claims about programs -/

namespace World

theorem update_objs_length (w : World) (h : Heap) (i : Nat) (v : StrVec) :
    (w.update h i v).objs.length = w.objs.length := by
  simp [World.update]

/-- What `push_back` does to a program state, when its argument is bound to the string `x` and
is not an element of the vector while the vector is full. -/
theorem exec_push_back {w : World} {j : Nat} {c : StrVec} {xs : List String} {t : Ref}
    {x : String} (hw : w.Inv) (hc : w.get j = some c) (hr : Rep w.heap c xs)
    (hx : t.read w.heap = some x) (ho : t.Outside c ∨ c.size < c.capacity) :
    ∃ h2 c2, w.exec (Stmt.push_back j t) = Outcome.ok (w.update h2 j c2) ∧
      Rep h2 c2 (xs ++ [x]) ∧
      (∀ k u zs, k ≠ j → w.get k = some u → Rep w.heap u zs → Rep h2 u zs) := by
  obtain ⟨h2, c2, hp, hrep, hfr, _⟩ := push_back_spec x hr
  have e := (push_back_ref hr hx (ho.imp id Nat.ne_of_lt)).trans hp
  exact ⟨h2, c2, by simp [World.exec, World.method, hc, e], hrep, Inv.frame_other hw hc hfr⟩

theorem independent_of_inv {w : World} {i j : Nat} {s c : StrVec} {xs : List String}
    {t : Ref} {x : String} (hw : w.Inv) (hij : i ≠ j) (hs : w.get i = some s)
    (hc : w.get j = some c) (rs : Rep w.heap s xs) (rc : Rep w.heap c xs)
    (hx : t.read w.heap = some x) : w.Independent i j s c xs t x := by
  refine ⟨rs.toList_eq, rc.toList_eq, ?_, ?_⟩
  · intro ho
    obtain ⟨h2, c2, he, hrep, hfr⟩ := exec_push_back hw hc rc hx ho
    refine ⟨_, c2, he, ?_, (hfr i s xs hij hs rs).toList_eq, ?_, hrep.toList_eq⟩
    · rw [get_update w h2 j c2 (get_lt hc)]
      simp [hij, hs]
    · rw [get_update w h2 j c2 (get_lt hc)]
      simp
  · intro ho
    obtain ⟨h2, s2, he, hrep, hfr⟩ := exec_push_back hw hs rs hx ho
    refine ⟨_, s2, he, ?_, (hfr j c xs (Ne.symm hij) hc rc).toList_eq, ?_, hrep.toList_eq⟩
    · rw [get_update w h2 i s2 (get_lt hs)]
      simp [Ne.symm hij, hc]
    · rw [get_update w h2 i s2 (get_lt hs)]
      simp

theorem rep_of_toList {w : World} {i : Nat} {s : StrVec} {xs : List String} (hw : w.Inv)
    (hs : w.get i = some s) (hx : toList w.heap s = some xs) : Rep w.heap s xs := by
  obtain ⟨zs, hz⟩ := hw.1 i s hs
  have := hz.toList_eq
  rw [hx] at this
  cases this
  exact hz

/-- C5, counterexample to the claim as stated.  The program `StrVec s{"a"}; StrVec c(s);
c.push_back(*c.begin());` copies `s` and then appends to the copy its own first element.  The
copy is full, `reallocate()` releases the buffer the argument is bound to, and `construct`
reads the released element: the call is undefined, and says nothing about `s`. -/
theorem copy_push_back_own_element :
    World.run World.empty
      [Stmt.il_ctor ["a"], Stmt.copy_ctor 0, Stmt.push_back 1 (Ref.slot (Ptr.addr 1 0))]
      = Outcome.undefined := by
  rfl

/-- C5, as the code has it.  In every program state satisfying the invariant, let `s` be a
live `StrVec` holding `xs` and let `c` be a copy of it, made by the copy constructor or by
copy assignment to any other live object.  Then `c` holds `xs` too.  Let `t` be a reference
bound to a string `x` after the copy.  When `t` is not bound to an element of `c`,
`c.push_back(t)` appends `x` to `c` and leaves the members of `s` (hence `size()` and
`capacity()`) and the elements of `s` unchanged; when `t` is not bound to an element of `s`,
or `s` has spare capacity, `s.push_back(t)` appends `x` to `s` and leaves the members and the
elements of `c` unchanged. -/
theorem copy_independent {w : World} {i : Nat} {s : StrVec} {xs : List String}
    (t : Ref) (x : String) (hw : w.Inv) (hs : w.get i = some s)
    (hx : toList w.heap s = some xs) :
    (∃ w1 c, w.exec (Stmt.copy_ctor i) = Outcome.ok w1 ∧ w1.get i = some s ∧
      w1.get w.objs.length = some c ∧
      (t.read w1.heap = some x → w1.Independent i w.objs.length s c xs t x)) ∧
    (∀ d dv, w.get d = some dv → d ≠ i →
      ∃ w1 c, w.exec (Stmt.copy_assign d i) = Outcome.ok w1 ∧ w1.get i = some s ∧
        w1.get d = some c ∧ (t.read w1.heap = some x → w1.Independent i d s c xs t x)) := by
  have rs := rep_of_toList hw hs hx
  have hlt := get_lt hs
  constructor
  · obtain ⟨h1, hc, hrep, hfr, _, _⟩ := copy_ctor_spec rs
    have hinv := create_fresh_inv hw hrep hfr
    have hil : i ≠ w.objs.length := Nat.ne_of_lt hlt
    have g := get_create w h1 ⟨Ptr.addr w.heap.blocks.length 0,
      Ptr.addr w.heap.blocks.length xs.length, Ptr.addr w.heap.blocks.length xs.length⟩
    have gi := g i
    have gn := g w.objs.length
    simp only [hil, if_false, hs] at gi
    simp only [if_true] at gn
    refine ⟨_, _, by simp [World.exec, hs, hc], gi, gn, ?_⟩
    intro ht
    apply independent_of_inv hinv hil gi gn _ hrep ht
    apply rs.mono
    intro b hb
    exact hfr b (Nat.ne_of_lt (rs.block_lt hb))
  · intro d dv hd hne
    obtain ⟨zs, rd⟩ := hw.1 d dv hd
    obtain ⟨h2, hc, hrep, hfr, _, hlen, _⟩ := copy_assign_spec rs rd
    have hex : w.exec (Stmt.copy_assign d i) = Outcome.ok (w.update h2 d
        ⟨Ptr.addr w.heap.blocks.length 0, Ptr.addr w.heap.blocks.length xs.length,
          Ptr.addr w.heap.blocks.length xs.length⟩) := by
      simp [World.exec, World.method, hs, hd, hc]
    have hinv := exec_sound hw (Stmt.copy_assign d i) hex
    have g := get_update w h2 d ⟨Ptr.addr w.heap.blocks.length 0,
      Ptr.addr w.heap.blocks.length xs.length, Ptr.addr w.heap.blocks.length xs.length⟩
      (get_lt hd)
    have gi := g i
    have gd := g d
    simp only [Ne.symm hne, if_false, hs] at gi
    simp only [if_true] at gd
    refine ⟨_, _, hex, gi, gd, ?_⟩
    intro ht
    apply independent_of_inv hinv (Ne.symm hne) gi gd _ hrep ht
    exact Inv.frame_other hw hd ⟨by omega, hfr⟩ i s xs (Ne.symm hne) hs rs

/-- C6, as the code has it.  In every program state satisfying the invariant, let `s` be a
live `StrVec` holding `xs`.  After move construction from `s`, and after move assignment of
`s` to a different live object, `s` has all three pointers null (so `size() == 0` and
`capacity() == 0`) and the destination holds exactly `xs`.  Move assignment of an object to
itself changes nothing: the object still holds `xs`. -/
theorem move_transfers {w : World} {i d : Nat} {s dv : StrVec} {xs : List String}
    (hw : w.Inv) (hs : w.get i = some s) (hx : toList w.heap s = some xs)
    (hd : w.get d = some dv) :
    (StrVec.default.elements = Ptr.null ∧ StrVec.default.first_free = Ptr.null ∧
      StrVec.default.cap = Ptr.null ∧ StrVec.default.size = 0 ∧
      StrVec.default.capacity = 0) ∧
    (∃ w1 c, w.exec (Stmt.move_ctor i) = Outcome.ok w1 ∧ w1.get i = some StrVec.default ∧
      w1.get w.objs.length = some c ∧ toList w1.heap c = some xs) ∧
    (d ≠ i → ∃ w1 c, w.exec (Stmt.move_assign d i) = Outcome.ok w1 ∧
      w1.get i = some StrVec.default ∧ w1.get d = some c ∧ toList w1.heap c = some xs) ∧
    (∃ w1, w.exec (Stmt.move_assign i i) = Outcome.ok w1 ∧ w1.get i = some s ∧
      toList w1.heap s = some xs) := by
  have rs := rep_of_toList hw hs hx
  have hlt := get_lt hs
  refine ⟨⟨rfl, rfl, rfl, rfl, rfl⟩, ?_, ?_, ?_⟩
  · refine ⟨(w.update w.heap i StrVec.default).create w.heap s, s, ?_, ?_, ?_, hx⟩
    · simp only [World.exec, hs]
      rfl
    · rw [get_create, update_objs_length, get_update w _ i _ hlt]
      simp [Nat.ne_of_lt hlt]
    · rw [get_create, update_objs_length]
      simp
  · intro hne
    obtain ⟨zs, rd⟩ := hw.1 d dv hd
    have hsep : ∀ b, dv.elements = Ptr.addr b 0 → s.elements ≠ Ptr.addr b 0 :=
      fun b hb => hw.2 d i dv s b hne hd hs hb
    obtain ⟨h1, hm, hrep, _, _, _⟩ := StrVec.move_assign_spec rd rs hsep
    refine ⟨(w.update h1 i StrVec.default).update h1 d s, s, ?_, ?_, ?_, hrep.toList_eq⟩
    · simp only [World.exec, hs, hd, hne, decide_False, hm]
    · rw [get_update _ _ d _ (by rw [update_objs_length]; exact get_lt hd),
        get_update w _ i _ hlt]
      simp [Ne.symm hne]
    · rw [get_update _ _ d _ (by rw [update_objs_length]; exact get_lt hd)]
      simp
  · refine ⟨(w.update w.heap i s).update w.heap i s, ?_, ?_, hx⟩
    · simp only [World.exec, hs, StrVec.move_assign, decide_True, Bool.true_eq_false,
        if_false]
    · rw [get_update _ _ i _ (by rw [update_objs_length]; exact hlt)]
      simp

end World

/-! # Instances on the example states -/

namespace StrVec

/-- The calls `v.push_back("a"); v.push_back("b"); v.push_back("c");` lead to `exampleState`. -/
theorem usableAll_example (cs : List PushCall)
    (hcs : UsableAll exampleState.1 exampleState.2 cs) :
    UsableAll Heap.empty StrVec.default
      (PushCall.lvalue (Ref.obj "a") :: PushCall.lvalue (Ref.obj "b")
        :: PushCall.rvalue (Ref.obj "c") :: cs) := by
  refine ⟨⟨⟨"a", rfl⟩, Or.inl trivial⟩, ?_⟩
  intro h1 v1 e1
  refine ⟨⟨⟨"b", rfl⟩, Or.inl trivial⟩, ?_⟩
  intro h2 v2 e2
  refine ⟨⟨⟨"c", rfl⟩, Or.inl trivial⟩, ?_⟩
  intro h3 v3 e3
  have e : pushAll Heap.empty StrVec.default
      [PushCall.lvalue (Ref.obj "a"), PushCall.lvalue (Ref.obj "b"),
        PushCall.rvalue (Ref.obj "c")] = some (h3, v3) := by
    simp only [pushAll, e1, e2, e3]
  have e0 : pushAll Heap.empty StrVec.default
      [PushCall.lvalue (Ref.obj "a"), PushCall.lvalue (Ref.obj "b"),
        PushCall.rvalue (Ref.obj "c")] = some exampleState := by
    decide
  rw [e0] at e
  cases e
  exact hcs

/-- The sequence `v.push_back("a"); v.push_back("b"); v.push_back("c");
v.push_back(*v.begin());`: the last call finds size 3 and capacity 4. -/
theorem push_back_size_capacity_witness :
    ∃ hN vN tr, pushAll Heap.empty StrVec.default
        [PushCall.lvalue (Ref.obj "a"), PushCall.lvalue (Ref.obj "b"),
          PushCall.rvalue (Ref.obj "c"), PushCall.lvalue (Ref.slot (Ptr.addr 2 0))]
        = some (hN, vN) ∧
      vN.size = 4 ∧
      pushTrace Heap.empty StrVec.default
        [PushCall.lvalue (Ref.obj "a"), PushCall.lvalue (Ref.obj "b"),
          PushCall.rvalue (Ref.obj "c"), PushCall.lvalue (Ref.slot (Ptr.addr 2 0))]
        = some tr ∧
      tr.length = 4 ∧
      ∀ k st, tr[k]? = some st → st.2.size = k + 1 ∧ st.2.size ≤ st.2.capacity :=
  (push_back_size_capacity Heap.empty
      [PushCall.lvalue (Ref.obj "a"), PushCall.lvalue (Ref.obj "b"),
        PushCall.rvalue (Ref.obj "c"), PushCall.lvalue (Ref.slot (Ptr.addr 2 0))]).2.1
    (usableAll_example _ ⟨⟨⟨"a", rfl⟩, Or.inr (by decide)⟩, fun _ _ _ => trivial⟩)

theorem copy_equal_witness :
    Rep exampleState.1 exampleState.2 ["a", "b", "c"] ∧
    Rep exampleState.1 StrVec.default [] ∧
    ∃ h1 c, copy_assign exampleState.1 StrVec.default exampleState.2 = some (h1, c) ∧
      toList h1 c = some ["a", "b", "c"] ∧
      c.size = exampleState.2.size ∧ c.capacity = exampleState.2.size ∧
      c.elements = Ptr.addr exampleState.1.blocks.length 0 ∧
      c.elements ≠ exampleState.2.elements ∧ c.elements ≠ StrVec.default.elements ∧
      h1.slots exampleState.1.blocks.length = some (["a", "b", "c"].map some) ∧
      h1.blocks.length = exampleState.1.blocks.length + 1 ∧
      h1.allocations = exampleState.1.allocations + 1 ∧
      h1.log = exampleState.1.log ++ (Event.allocate exampleState.1.blocks.length
        exampleState.2.size :: constructEvents exampleState.1.blocks.length 0 ["a", "b", "c"]
          ++ freeEvents StrVec.default []) ∧
      ((∀ b, StrVec.default.elements = Ptr.addr b 0 → exampleState.2.elements ≠ Ptr.addr b 0) →
        toList h1 exampleState.2 = some ["a", "b", "c"]) :=
  have r : Rep exampleState.1 exampleState.2 ["a", "b", "c"] :=
    Or.inr ⟨2, 4, rfl, by decide, rfl⟩
  have r0 : Rep exampleState.1 StrVec.default [] := Or.inl ⟨rfl, rfl⟩
  ⟨r, r0, (copy_equal r r0).2.2.2⟩

theorem free_destroys_in_reverse_witness :
    Rep exampleState.1 exampleState.2 ["a", "b", "c"] ∧
    ∃ h1, free exampleState.1 exampleState.2 = some h1 ∧
      destructor exampleState.1 exampleState.2 = some h1 ∧
      (∀ b o, exampleState.2.elements = Ptr.addr b o →
        h1.log = exampleState.1.log ++ ((destroyCalls b 0 ["a", "b", "c"]).reverse
          ++ [Event.deallocate b exampleState.2.capacity]) ∧
        h1.slots b = none) ∧
      (exampleState.2.elements = Ptr.null → h1 = exampleState.1) :=
  have r : Rep exampleState.1 exampleState.2 ["a", "b", "c"] :=
    Or.inr ⟨2, 4, rfl, by decide, rfl⟩
  ⟨r, free_destroys_in_reverse r⟩

theorem assign_builds_before_release_witness :
    Rep exampleState.1 exampleState.2 ["a", "b", "c"] ∧
    Rep exampleState.1 StrVec.default [] ∧
    (∃ h1 v1, copy_assign exampleState.1 StrVec.default exampleState.2 = some (h1, v1) ∧
      toList h1 v1 = some ["a", "b", "c"] ∧
      h1.log = exampleState.1.log ++ (Event.allocate exampleState.1.blocks.length
        ["a", "b", "c"].length :: constructEvents exampleState.1.blocks.length 0
          ["a", "b", "c"] ++ freeEvents StrVec.default [])) ∧
    (∃ h1 v1, il_assign exampleState.1 StrVec.default ["x", "y"] = some (h1, v1) ∧
      toList h1 v1 = some ["x", "y"] ∧
      h1.log = exampleState.1.log ++ (Event.allocate exampleState.1.blocks.length
        ["x", "y"].length :: constructEvents exampleState.1.blocks.length 0 ["x", "y"]
          ++ freeEvents StrVec.default [])) ∧
    (∃ h1 v1, copy_assign exampleState.1 exampleState.2 exampleState.2 = some (h1, v1) ∧
      toList h1 v1 = some ["a", "b", "c"] ∧
      h1.log = exampleState.1.log ++ (Event.allocate exampleState.1.blocks.length
        ["a", "b", "c"].length :: constructEvents exampleState.1.blocks.length 0
          ["a", "b", "c"] ++ freeEvents exampleState.2 ["a", "b", "c"])) :=
  have r : Rep exampleState.1 exampleState.2 ["a", "b", "c"] :=
    Or.inr ⟨2, 4, rfl, by decide, rfl⟩
  have r0 : Rep exampleState.1 StrVec.default [] := Or.inl ⟨rfl, rfl⟩
  ⟨r, r0, assign_builds_before_release ["x", "y"] r r0⟩

end StrVec

namespace World

theorem exampleWorld_inv : exampleWorld.Inv :=
  @run_sound exampleProgram World.empty exampleWorld empty_inv rfl

theorem copy_independent_witness :
    exampleWorld.Inv ∧ exampleWorld.get 0 = some ⟨Ptr.addr 0 0, Ptr.addr 0 2, Ptr.addr 0 2⟩ ∧
    toList exampleWorld.heap ⟨Ptr.addr 0 0, Ptr.addr 0 2, Ptr.addr 0 2⟩ = some ["a", "b"] ∧
    ((∃ w1 c, exampleWorld.exec (Stmt.copy_ctor 0) = Outcome.ok w1 ∧
        w1.get 0 = some ⟨Ptr.addr 0 0, Ptr.addr 0 2, Ptr.addr 0 2⟩ ∧
        w1.get exampleWorld.objs.length = some c ∧
        ((Ref.slot (Ptr.addr 0 1)).read w1.heap = some "b" →
          w1.Independent 0 exampleWorld.objs.length ⟨Ptr.addr 0 0, Ptr.addr 0 2, Ptr.addr 0 2⟩
            c ["a", "b"] (Ref.slot (Ptr.addr 0 1)) "b")) ∧
      (∀ d dv, exampleWorld.get d = some dv → d ≠ 0 →
        ∃ w1 c, exampleWorld.exec (Stmt.copy_assign d 0) = Outcome.ok w1 ∧
          w1.get 0 = some ⟨Ptr.addr 0 0, Ptr.addr 0 2, Ptr.addr 0 2⟩ ∧
          w1.get d = some c ∧
          ((Ref.slot (Ptr.addr 0 1)).read w1.heap = some "b" →
            w1.Independent 0 d ⟨Ptr.addr 0 0, Ptr.addr 0 2, Ptr.addr 0 2⟩ c ["a", "b"]
              (Ref.slot (Ptr.addr 0 1)) "b"))) :=
  ⟨exampleWorld_inv, rfl, rfl,
    copy_independent (Ref.slot (Ptr.addr 0 1)) "b" exampleWorld_inv rfl rfl⟩

/-- C6, counterexample to the claim as stated.  The program `StrVec v{"a"}; v = std::move(v);`
is a move assignment whose source is `v`; afterwards `v` still has `size() == 1`,
`capacity() == 1`, a non-null `elements` and the element "a". -/
theorem self_move_assign_keeps_source :
    (match World.run World.empty [Stmt.il_ctor ["a"], Stmt.move_assign 0 0] with
      | Outcome.ok w =>
        (w.get 0).map fun v => (v.size, v.capacity, v.elements, toList w.heap v)
      | _ => none)
      = some (1, 1, Ptr.addr 0 0, some ["a"]) := by
  rfl

theorem move_transfers_witness :
    exampleWorld.Inv ∧ exampleWorld.get 0 = some ⟨Ptr.addr 0 0, Ptr.addr 0 2, Ptr.addr 0 2⟩ ∧
    toList exampleWorld.heap ⟨Ptr.addr 0 0, Ptr.addr 0 2, Ptr.addr 0 2⟩ = some ["a", "b"] ∧
    exampleWorld.get 1 = some StrVec.default ∧
    ((StrVec.default.elements = Ptr.null ∧ StrVec.default.first_free = Ptr.null ∧
        StrVec.default.cap = Ptr.null ∧ StrVec.default.size = 0 ∧
        StrVec.default.capacity = 0) ∧
      (∃ w1 c, exampleWorld.exec (Stmt.move_ctor 0) = Outcome.ok w1 ∧
        w1.get 0 = some StrVec.default ∧
        w1.get exampleWorld.objs.length = some c ∧ toList w1.heap c = some ["a", "b"]) ∧
      (1 ≠ 0 → ∃ w1 c, exampleWorld.exec (Stmt.move_assign 1 0) = Outcome.ok w1 ∧
        w1.get 0 = some StrVec.default ∧ w1.get 1 = some c ∧
        toList w1.heap c = some ["a", "b"]) ∧
      (∃ w1, exampleWorld.exec (Stmt.move_assign 0 0) = Outcome.ok w1 ∧
        w1.get 0 = some ⟨Ptr.addr 0 0, Ptr.addr 0 2, Ptr.addr 0 2⟩ ∧
        toList w1.heap ⟨Ptr.addr 0 0, Ptr.addr 0 2, Ptr.addr 0 2⟩ = some ["a", "b"])) :=
  ⟨exampleWorld_inv, rfl, rfl, rfl, move_transfers exampleWorld_inv rfl rfl rfl⟩

end World

/-! # `StrBlob`, `Blob<T>` and `StrBlobPtr` -/

theorem Store.live_assign {α : Type} {st : Store α} {id : Nat} {xs : List α} (ys : List α)
    (hl : st.live id = some xs) : (st.assign id ys).live id = some ys := by
  unfold Store.live at hl
  cases hc : st[id]? with
  | none => simp [hc] at hl
  | some c =>
    simp only [hc] at hl
    have hu : c.uses ≠ 0 := by
      intro h0
      simp [h0] at hl
    have hlt : id < st.length := by
      by_contra hn
      rw [List.getElem?_eq_none (Nat.le_of_not_lt hn)] at hc
      cases hc
    simp [Store.assign, Store.live, hc, hlt, hu]

theorem Store.live_eq_none_iff {α : Type} (st : Store α) (id : Nat) :
    st.live id = none ↔ st.uses id = 0 := by
  unfold Store.live Store.uses
  cases st[id]? with
  | none => simp
  | some c =>
    by_cases h0 : c.uses = 0
    · simp [h0]
    · simp [h0]

namespace Blob

theorem check_zero {α : Type} {st : Store α} {b : Blob} {xs : List α} (msg : String)
    (hl : st.live b.data = some xs) :
    check st b 0 msg
      = if xs.length = 0 then Result.throw (Exn.out_of_range msg) else Result.ok () := by
  cases xs with
  | nil => simp [check, hl]
  | cons x xs => simp [check, hl]

theorem frontWith_spec {α : Type} {st : Store α} {b : Blob} {xs : List α} (msg : String)
    (hl : st.live b.data = some xs) :
    (frontWith msg st b = Result.throw (Exn.out_of_range msg) ↔ xs = []) ∧
    (∀ x, xs.head? = some x → frontWith msg st b = Result.ok x) := by
  cases xs with
  | nil => simp [frontWith, check_zero msg hl]
  | cons x xs => simp [frontWith, check_zero msg hl, hl, vfront]

theorem backWith_spec {α : Type} {st : Store α} {b : Blob} {xs : List α} (msg : String)
    (hl : st.live b.data = some xs) :
    (backWith msg st b = Result.throw (Exn.out_of_range msg) ↔ xs = []) ∧
    (∀ x, xs.getLast? = some x → backWith msg st b = Result.ok x) := by
  cases xs with
  | nil => simp [backWith, check_zero msg hl]
  | cons x xs =>
    refine ⟨?_, ?_⟩
    · simp only [backWith, check_zero msg hl, hl, vback]
      cases (x :: xs).getLast? <;> simp
    · intro y hy
      simp only [backWith, check_zero msg hl, hl, vback, hy]
      simp

theorem pop_backWith_spec {α : Type} {st : Store α} {b : Blob} {xs : List α} (msg : String)
    (hl : st.live b.data = some xs) :
    (pop_backWith msg st b = Result.throw (Exn.out_of_range msg) ↔ xs = []) ∧
    (xs ≠ [] → ∃ st1, pop_backWith msg st b = Result.ok st1 ∧
      st1.live b.data = some xs.dropLast ∧ size st1 b = Result.ok (xs.length - 1)) := by
  cases xs with
  | nil => simp [pop_backWith, check_zero msg hl]
  | cons x xs =>
    refine ⟨by simp [pop_backWith, check_zero msg hl, hl], ?_⟩
    intro _
    have hl1 := Store.live_assign (x :: xs).dropLast hl
    refine ⟨st.assign b.data (x :: xs).dropLast, ?_, hl1, ?_⟩
    · simp [pop_backWith, check_zero msg hl, hl]
    · simp [size, hl1]

theorem subscript_spec {α : Type} {st : Store α} {b : Blob} {xs : List α} (i : Nat)
    (hl : st.live b.data = some xs) :
    (subscript st b i = Result.throw (Exn.out_of_range "subscript out of range")
      ↔ xs.length ≤ i) ∧
    (∀ x, xs[i]? = some x → subscript st b i = Result.ok x) := by
  by_cases hi : xs.length ≤ i
  · refine ⟨by simp [subscript, check, hl, hi], ?_⟩
    intro x hx
    rw [List.getElem?_eq_none hi] at hx
    cases hx
  · have hlt : i < xs.length := Nat.lt_of_not_le hi
    refine ⟨?_, ?_⟩
    · simp [subscript, check, hl, hi, List.getElem?_eq_getElem hlt]
    · intro x hx
      simp [subscript, check, hl, hi, hx]

end Blob

/-- C12. For every `StrBlob` whose `data` owns a live vector `xs`: `front()`, `back()` and
`pop_back()` throw `out_of_range` if and only if `xs` is empty; on a non-empty `xs`,
`front()` returns the first element, `back()` the last, and `pop_back()` leaves `xs` without
its last element (size one less).  The same holds for `Blob<T>` of chpt16.cpp, whose
`operator[]` throws `out_of_range` exactly for `i >= size()` and else returns element `i`. -/
theorem StrBlob.access_throws_iff_empty {st : Store String} {b : StrBlob} {xs : List String}
    (hl : st.live b.data = some xs) :
    ((StrBlob.front st b = Result.throw (Exn.out_of_range "front on empty StrBlob") ↔ xs = []) ∧
      (∀ x, xs.head? = some x → StrBlob.front st b = Result.ok x)) ∧
    ((StrBlob.back st b = Result.throw (Exn.out_of_range "back on empty StrBlob") ↔ xs = []) ∧
      (∀ x, xs.getLast? = some x → StrBlob.back st b = Result.ok x)) ∧
    ((StrBlob.pop_back st b = Result.throw (Exn.out_of_range "pop_back on empty StrBlob")
        ↔ xs = []) ∧
      (xs ≠ [] → ∃ st1, StrBlob.pop_back st b = Result.ok st1 ∧
        st1.live b.data = some xs.dropLast ∧ Blob.size st1 b = Result.ok (xs.length - 1))) ∧
    ((Blob.front st b = Result.throw (Exn.out_of_range "front on empty Blob") ↔ xs = []) ∧
      (∀ x, xs.head? = some x → Blob.front st b = Result.ok x)) ∧
    ((Blob.back st b = Result.throw (Exn.out_of_range "back on empty Blob") ↔ xs = []) ∧
      (∀ x, xs.getLast? = some x → Blob.back st b = Result.ok x)) ∧
    ((Blob.pop_back st b = Result.throw (Exn.out_of_range "pop_back on empty Blob")
        ↔ xs = []) ∧
      (xs ≠ [] → ∃ st1, Blob.pop_back st b = Result.ok st1 ∧
        st1.live b.data = some xs.dropLast ∧ Blob.size st1 b = Result.ok (xs.length - 1))) ∧
    (∀ i, (Blob.subscript st b i = Result.throw (Exn.out_of_range "subscript out of range")
        ↔ xs.length ≤ i) ∧
      (∀ x, xs[i]? = some x → Blob.subscript st b i = Result.ok x)) :=
  ⟨Blob.frontWith_spec _ hl, Blob.backWith_spec _ hl, Blob.pop_backWith_spec _ hl,
    Blob.frontWith_spec _ hl, Blob.backWith_spec _ hl, Blob.pop_backWith_spec _ hl,
    fun i => Blob.subscript_spec i hl⟩

theorem StrBlob.access_throws_iff_empty_witness :
    Store.live [⟨["Hello", "World"], 1⟩] (Blob.mk 0).data = some ["Hello", "World"] ∧
    StrBlob.back [⟨["Hello", "World"], 1⟩] (Blob.mk 0) = Result.ok "World" :=
  ⟨rfl, (StrBlob.access_throws_iff_empty
    (show Store.live [⟨["Hello", "World"], 1⟩] (Blob.mk 0).data = some ["Hello", "World"]
      from rfl)).2.1.2 "World" rfl⟩

namespace StrBlobPtr

theorem checkWith_spec {α : Type} (unbound : String) (st : Store α) (p : StrBlobPtr) (i : Nat)
    (msg : String) :
    (st.lock p.wptr = none →
      checkWith unbound st p i msg = Result.throw (Exn.runtime_error unbound)) ∧
    (∀ v, st.lock p.wptr = some v →
      (v.length ≤ i → checkWith unbound st p i msg = Result.throw (Exn.out_of_range msg)) ∧
      (i < v.length → checkWith unbound st p i msg = Result.ok v)) := by
  refine ⟨?_, ?_⟩
  · intro hn
    simp [checkWith, hn]
  · intro v hv
    refine ⟨?_, ?_⟩
    · intro hle
      simp [checkWith, hv, hle]
    · intro hlt
      simp [checkWith, hv, Nat.not_le.mpr hlt]

theorem deref_incr_unbound {st : Store String} {p : StrBlobPtr} (hn : st.lock p.wptr = none) :
    deref st p = Result.throw (Exn.runtime_error "unbound StrBlobPtr") ∧
    incr st p = Result.throw (Exn.runtime_error "unbound StrBlobPtr") := by
  have hc := fun i msg => (checkWith_spec "unbound StrBlobPtr" st p i msg).1 hn
  exact ⟨by simp [deref, check, hc], by simp [incr, check, hc]⟩

theorem deref_incr_past_end {st : Store String} {p : StrBlobPtr} {v : List String}
    (hv : st.lock p.wptr = some v) (hle : v.length ≤ p.curr) :
    deref st p = Result.throw (Exn.out_of_range "dereference past end") ∧
    incr st p = Result.throw (Exn.out_of_range "increment past end of StrBlobPtr") := by
  have hc := fun i msg => (checkWith_spec "unbound StrBlobPtr" st p i msg).2 v hv
  exact ⟨by simp [deref, check, (hc p.curr _).1 hle], by simp [incr, check, (hc p.curr _).1 hle]⟩

theorem deref_incr_inside {st : Store String} {p : StrBlobPtr} {v : List String}
    (hv : st.lock p.wptr = some v) (hlt : p.curr < v.length) :
    (∃ s, v[p.curr]? = some s ∧ deref st p = Result.ok s) ∧
    incr st p = Result.ok ⟨p.wptr, p.curr + 1⟩ := by
  have hc := fun i msg => (checkWith_spec "unbound StrBlobPtr" st p i msg).2 v hv
  refine ⟨⟨v[p.curr], List.getElem?_eq_getElem hlt, ?_⟩, ?_⟩
  · simp [deref, check, (hc p.curr _).2 hlt, List.getElem?_eq_getElem hlt]
  · simp [incr, check, (hc p.curr _).2 hlt]

/-- C13. `StrBlobPtr` looks up its vector anew on every use.  When the `weak_ptr` is empty
or the vector it observed has been destroyed (`use_count() == 0`), `deref()` and `incr()`
throw `runtime_error("unbound StrBlobPtr")`, whatever the position.  Otherwise both throw
`out_of_range` exactly when `curr >= size()`, and for `curr < size()` `deref()` returns the
element at index `curr` and `incr()` advances `curr` by one.  `BlobPtr<T>::check` of
chpt16.cpp decides the same way. -/
theorem revalidates (st : Store String) (p : StrBlobPtr) :
    (st.lock p.wptr = none ↔ p.wptr = none ∨ ∃ id, p.wptr = some id ∧ st.uses id = 0) ∧
    (st.lock p.wptr = none →
      deref st p = Result.throw (Exn.runtime_error "unbound StrBlobPtr") ∧
      incr st p = Result.throw (Exn.runtime_error "unbound StrBlobPtr") ∧
      ∀ i msg, BlobPtr.check st p i msg = Result.throw (Exn.runtime_error "unbound BlobPtr")) ∧
    (∀ v, st.lock p.wptr = some v →
      (v.length ≤ p.curr →
        deref st p = Result.throw (Exn.out_of_range "dereference past end") ∧
        incr st p = Result.throw (Exn.out_of_range "increment past end of StrBlobPtr")) ∧
      (p.curr < v.length →
        (∃ s, v[p.curr]? = some s ∧ deref st p = Result.ok s) ∧
        incr st p = Result.ok ⟨p.wptr, p.curr + 1⟩) ∧
      (∀ i msg, (v.length ≤ i →
          BlobPtr.check st p i msg = Result.throw (Exn.out_of_range msg)) ∧
        (i < v.length → BlobPtr.check st p i msg = Result.ok v))) := by
  refine ⟨?_, ?_, ?_⟩
  · cases hw : p.wptr with
    | none => simp [Store.lock]
    | some id => simp [Store.lock, Store.live_eq_none_iff]
  · intro hn
    refine ⟨(deref_incr_unbound hn).1, (deref_incr_unbound hn).2, ?_⟩
    intro i msg
    exact (checkWith_spec "unbound BlobPtr" st p i msg).1 hn
  · intro v hv
    refine ⟨deref_incr_past_end hv, deref_incr_inside hv, ?_⟩
    intro i msg
    exact (checkWith_spec "unbound BlobPtr" st p i msg).2 v hv

theorem incrN_spec {st : Store String} {id : Nat} {xs : List String}
    (hl : st.live id = some xs) :
    ∀ (k i : Nat), i + k ≤ xs.length →
      incrN st k ⟨some id, i⟩ = Result.ok ⟨some id, i + k⟩ := by
  intro k
  induction k with
  | zero => intro i _; rfl
  | succ k ih =>
    intro i hle
    have hlock : st.lock (StrBlobPtr.mk (some id) i).wptr = some xs := hl
    have hi := deref_incr_inside hlock (by simp; omega)
    have hin : incr st ⟨some id, i⟩ = Result.ok ⟨some id, i + 1⟩ := hi.2
    simp only [incrN, hin]
    rw [ih (i + 1) (by omega)]
    congr 2
    omega

/-- C19. Let a `StrBlob` own the live vector `xs` of `n` elements and let `p` be a
`StrBlobPtr` created on it at position 0.  For every `k < n`, `k` calls of `incr()` succeed
and `deref()` then returns element `k`.  Also `n` calls of `incr()` succeed; the pointer is
then one past the end, where `deref()` throws `out_of_range` and a further `incr()` throws
`out_of_range`.  The demonstration on `{"Hello", "World"}`: `p.deref()` is "Hello",
`p.incr().deref()` is "World", and one more `p.incr().deref()` is a dereference past the
end. -/
theorem walk {st : Store String} {b : StrBlob} {xs : List String}
    (hl : st.live b.data = some xs) :
    (∀ k s, xs[k]? = some s →
      ∃ p, incrN st k (bind b 0) = Result.ok p ∧ p.curr = k ∧ deref st p = Result.ok s) ∧
    (∃ p, incrN st xs.length (bind b 0) = Result.ok p ∧ p.curr = xs.length ∧
      deref st p = Result.throw (Exn.out_of_range "dereference past end") ∧
      incr st p = Result.throw (Exn.out_of_range "increment past end of StrBlobPtr")) ∧
    (helloWorld.1.live helloWorld.2.data = some ["Hello", "World"] ∧
      deref helloWorld.1 (bind helloWorld.2 0) = Result.ok "Hello" ∧
      derefAfter helloWorld.1 1 (bind helloWorld.2 0) = Result.ok "World" ∧
      derefAfter helloWorld.1 2 (bind helloWorld.2 0)
        = Result.throw (Exn.out_of_range "dereference past end")) := by
  refine ⟨?_, ?_, by decide⟩
  · intro k s hk
    have hlt : k < xs.length := by
      by_contra hn
      rw [List.getElem?_eq_none (Nat.le_of_not_lt hn)] at hk
      cases hk
    have hn := incrN_spec hl k 0 (by omega)
    rw [Nat.zero_add] at hn
    refine ⟨⟨some b.data, k⟩, hn, rfl, ?_⟩
    have hlock : st.lock (StrBlobPtr.mk (some b.data) k).wptr = some xs := hl
    obtain ⟨s1, hs1, hd⟩ := (deref_incr_inside hlock hlt).1
    have e : s1 = s := by
      have h2 : xs[k]? = some s1 := hs1
      rw [hk] at h2
      exact (Option.some.inj h2).symm
    rw [← e]
    exact hd
  · have hn := incrN_spec hl xs.length 0 (by omega)
    rw [Nat.zero_add] at hn
    have hlock : st.lock (StrBlobPtr.mk (some b.data) xs.length).wptr = some xs := hl
    have h2 := deref_incr_past_end hlock (Nat.le_refl _)
    exact ⟨⟨some b.data, xs.length⟩, hn, rfl, h2.1, h2.2⟩

theorem walk_witness :
    helloWorld.1.live helloWorld.2.data = some ["Hello", "World"] ∧
    ∃ p, incrN helloWorld.1 ["Hello", "World"].length (bind helloWorld.2 0) = Result.ok p ∧
      p.curr = ["Hello", "World"].length ∧
      deref helloWorld.1 p = Result.throw (Exn.out_of_range "dereference past end") ∧
      incr helloWorld.1 p
        = Result.throw (Exn.out_of_range "increment past end of StrBlobPtr") :=
  have hl : helloWorld.1.live helloWorld.2.data = some ["Hello", "World"] := rfl
  ⟨hl, (walk hl).2.1⟩

end StrBlobPtr

/-! # Shared ownership: the reference counts -/

namespace Store

theorem live_of_uses {α : Type} {st : Store α} {id : Nat} (h : st.uses id ≠ 0) :
    ∃ xs, st.live id = some xs := by
  cases hl : st.live id with
  | some xs => exact ⟨xs, rfl⟩
  | none => exact absurd ((Store.live_eq_none_iff st id).1 hl) h

end Store

namespace BlobWorld

theorem get_elem {w : BlobWorld} {i : Nat} {b : StrBlob} (hg : w.get i = some b) :
    w.blobs[i]? = some (some b) := by
  unfold BlobWorld.get at hg
  cases h : w.blobs[i]? with
  | none => simp [h] at hg
  | some o =>
    cases o with
    | none => simp [h] at hg
    | some c =>
      simp [h] at hg
      rw [hg]

theorem owners_pos (v : StrBlob) :
    ∀ (l : List (Option StrBlob)) (i : Nat), l[i]? = some (some v) → owners l v.data ≠ 0 := by
  intro l
  induction l with
  | nil => intro i h; simp at h
  | cons a l ih =>
    intro i h
    cases i with
    | zero =>
      simp at h
      subst h
      simp [owners]
    | succ i =>
      simp at h
      have := ih i h
      cases a with
      | none => simpa [owners] using this
      | some c =>
        simp only [owners]
        omega

theorem refs_pos {w : BlobWorld} {i : Nat} {b : StrBlob} (hg : w.get i = some b) :
    w.refs b.data ≠ 0 := owners_pos b w.blobs i (get_elem hg)

theorem Counted.live {w : BlobWorld} (hw : w.Counted) {i : Nat} {b : StrBlob}
    (hg : w.get i = some b) : ∃ xs, w.store.live b.data = some xs := by
  apply Store.live_of_uses
  rw [hw b.data]
  exact refs_pos hg

end BlobWorld

namespace BlobWorld

end BlobWorld

namespace StrBlobPtr

theorem revalidates_witness :
    helloWorld.1.lock (bind helloWorld.2 1).wptr = some ["Hello", "World"] ∧
    deref helloWorld.1 (bind helloWorld.2 1) = Result.ok "World" ∧
    deref helloWorld.1 (bind helloWorld.2 2)
      = Result.throw (Exn.out_of_range "dereference past end") ∧
    deref helloWorld.1 StrBlobPtr.default
      = Result.throw (Exn.runtime_error "unbound StrBlobPtr") :=
  ⟨rfl,
    by
      obtain ⟨s, hs, hd⟩ := (((revalidates helloWorld.1 (bind helloWorld.2 1)).2.2
        ["Hello", "World"] rfl).2.1 (by decide)).1
      have e : s = "World" := by
        have h2 : (["Hello", "World"] : List String)[1]? = some s := hs
        simp at h2
        exact h2.symm
      rw [← e]
      exact hd,
    (((revalidates helloWorld.1 (bind helloWorld.2 2)).2.2 ["Hello", "World"] rfl).1
      (by decide)).1,
    ((revalidates helloWorld.1 StrBlobPtr.default).2.1 rfl).1⟩

end StrBlobPtr

namespace BlobWorld

end BlobWorld

/-! # Growth of `StrVec`: moved elements, initializer lists -/

namespace StrVec

end StrVec

/-! # Chapters 5 and 6 -/

namespace Chpt06

theorem callsFrom_length (w : Nat) : ∀ k c, (callsFrom w k c).length = k := by
  intro k
  induction k with
  | zero => intro c; rfl
  | succ k ih => intro c; simp [callsFrom, ih]

theorem callsFrom_getElem (w : Nat) :
    ∀ k c i, i < k → (callsFrom w k c)[i]? = some ((c + i + 1) % 2 ^ w) := by
  intro k
  induction k with
  | zero => intro c i hi; omega
  | succ k ih =>
    intro c i hi
    cases i with
    | zero => simp [callsFrom, countCalls]
    | succ i =>
      have := ih ((c + 1) % 2 ^ w) i (by omega)
      simp only [callsFrom, countCalls, List.getElem?_cons_succ, this]
      rw [Nat.add_assoc ((c + 1) % 2 ^ w), Nat.mod_add_mod]
      congr 2
      omega

/-- C16, counterexample to the claim as stated: with a 64-bit `size_t` the call number
`2 ^ 64` of a program run returns `0`, not `2 ^ 64`, because `++ctr` wraps. -/
theorem countCalls_wraps : (calls 64 (2 ^ 64))[2 ^ 64 - 1]? = some 0 := by
  have h := callsFrom_getElem 64 (2 ^ 64) ctrInit (2 ^ 64 - 1) (by norm_num)
  rw [calls, h]
  norm_num [ctrInit]

/-- C16, as the code has it.  `countCalls` keeps a counter that persists across calls and
starts at `0`.  With `size_t` of `w` bits, the `k`-th call of a program run returns
`k mod 2 ^ w`; so for every `k` with `1 <= k < 2 ^ w` the `k`-th call returns `k`.  The
demonstration loop of ten calls yields `1, 2, ..., 10`. -/
theorem countCalls_kth (w k : Nat) (hk1 : 1 ≤ k) :
    ctrInit = 0 ∧ (calls w k).length = k ∧
    (calls w k)[k - 1]? = some (k % 2 ^ w) ∧
    (k < 2 ^ w → (calls w k)[k - 1]? = some k) ∧
    calls 64 10 = [1, 2, 3, 4, 5, 6, 7, 8, 9, 10] := by
  have h := callsFrom_getElem w k ctrInit (k - 1) (by omega)
  have e : ctrInit + (k - 1) + 1 = k := by
    simp [ctrInit]
    omega
  rw [e] at h
  refine ⟨rfl, callsFrom_length w k ctrInit, h, ?_, by decide⟩
  intro hlt
  rw [calls, h, Nat.mod_eq_of_lt hlt]

theorem countCalls_kth_witness :
    (1 : Nat) ≤ 3 ∧
    (ctrInit = 0 ∧ (calls 64 3).length = 3 ∧
      (calls 64 3)[3 - 1]? = some (3 % 2 ^ 64) ∧
      (3 < 2 ^ 64 → (calls 64 3)[3 - 1]? = some 3) ∧
      calls 64 10 = [1, 2, 3, 4, 5, 6, 7, 8, 9, 10]) :=
  ⟨by decide, countCalls_kth 64 3 (by decide)⟩

/-- C20. For every `n` with `0 <= n <= 12` (the inputs whose factorial fits in `int`) the
iterative `fact` and the recursive `myFact` both return `n!`, without overflow; the
demonstration values are `fact(5) = 120` and `myFact(6) = 720`. -/
theorem fact_agrees (n : Nat) (hn : n ≤ 12) :
    fact (n : Int) = some (n.factorial : Int) ∧ myFact (n : Int) = some (n.factorial : Int) ∧
    fact (n : Int) = myFact (n : Int) ∧ fact 5 = some 120 ∧ myFact 6 = some 720 := by
  interval_cases n <;> decide

theorem fact_agrees_witness :
    (12 : Nat) ≤ 12 ∧
    (fact ((12 : Nat) : Int) = some ((Nat.factorial 12 : Nat) : Int) ∧
      myFact ((12 : Nat) : Int) = some ((Nat.factorial 12 : Nat) : Int) ∧
      fact ((12 : Nat) : Int) = myFact ((12 : Nat) : Int) ∧
      fact 5 = some 120 ∧ myFact 6 = some 720) :=
  ⟨by decide, fact_agrees 12 (by decide)⟩

end Chpt06

namespace Chpt05

theorem countdown_spec : ∀ (n fuel : Nat), n + 1 ≤ fuel →
    countdown fuel ((n + 1 : Nat) : Int) = some 0 := by
  intro n
  induction n with
  | zero =>
    intro fuel hf
    cases fuel with
    | zero => omega
    | succ fuel => simp [countdown]
  | succ n ih =>
    intro fuel hf
    cases fuel with
    | zero => omega
    | succ fuel =>
      have := ih fuel (by omega)
      have e : (((n + 1 + 1 : Nat) : Int) - 1) = ((n + 1 : Nat) : Int) := by
        push_cast
        ring
      have hne : ((n + 1 : Nat) : Int) ≠ 0 := by
        have : (0 : Int) < ((n + 1 : Nat) : Int) := by exact_mod_cast Nat.succ_pos n
        omega
      rw [countdown, e]
      simp only [ne_eq, hne, not_false_eq_true, if_true]
      exact this

/-- C17. The program of chapter 5 ends by returning `-1` from `main`: the last block throws
a `runtime_error`, its handler catches it and executes `return -1`, and the blocks before it
all fall through.  With enough fuel for the one `while` loop (ten steps) `main` returns `-1`,
and no amount of fuel gives another return value; `-1` is not the default `0`. -/
theorem main_returns_minus_one :
    (∀ out, tryBody out
      = Flow.raise out (Exn.runtime_error "An Error Has Occurred! (not really)")) ∧
    (∀ out, block8 out
      = Flow.ret (out ++ [Tok.str "An Error Has Occurred! (not really)", Tok.endl]) (-1)) ∧
    (∀ fuel, 10 ≤ fuel → ∃ out, main fuel = Flow.ret out (-1)) ∧
    (∀ fuel, main fuel = Flow.stuck ∨ returnValue (main fuel) = some (-1)) ∧
    ((-1 : Int) ≠ 0) := by
  refine ⟨fun _ => rfl, fun _ => rfl, ?_, ?_, by decide⟩
  · intro fuel hf
    have hc : countdown fuel 10 = some 0 := countdown_spec 9 fuel (by omega)
    simp only [main, block1, block2, block3, block4, hc, block5, block6, block7, block8,
      tryBody, Flow.andThen]
    exact ⟨_, rfl⟩
  · intro fuel
    cases hc : countdown fuel 10 with
    | none =>
      left
      simp only [main, block1, block2, block3, block4, hc, Flow.andThen]
    | some i =>
      right
      simp only [main, block1, block2, block3, block4, hc, block5, block6, block7, block8,
        tryBody, Flow.andThen]
      rfl

end Chpt05

theorem strLess_iff (a b : String) : strLess a b = true ↔ a < b := by
  rw [String.lt_iff_toList_lt]
  simp [strLess]

theorem strLess_false_iff (a b : String) : strLess b a = false ↔ a ≤ b := by
  rw [← not_lt, ← strLess_iff]
  simp

theorem uniqueAfter_spec {α : Type} [LinearOrder α] [DecidableEq α] :
    ∀ (l : List α) (prev : α), List.Sorted (· ≤ ·) (prev :: l) →
      List.Sorted (· < ·) (prev :: uniqueAfter prev l) ∧
      ∀ x, x ∈ prev :: uniqueAfter prev l ↔ x ∈ prev :: l := by
  intro l
  induction l with
  | nil =>
    intro prev _
    simp [uniqueAfter]
  | cons y rest ih =>
    intro prev hs
    have hs' : List.Sorted (· ≤ ·) (y :: rest) := List.Sorted.of_cons hs
    have hpy : prev ≤ y := List.rel_of_sorted_cons hs y (List.mem_cons_self _ _)
    by_cases he : prev = y
    · subst he
      obtain ⟨h1, h2⟩ := ih prev hs'
      simp only [uniqueAfter, if_true]
      refine ⟨h1, ?_⟩
      intro x
      rw [h2 x]
      simp
    · obtain ⟨h1, h2⟩ := ih y hs'
      have hlt : prev < y := lt_of_le_of_ne hpy he
      simp only [uniqueAfter, he, if_false]
      refine ⟨?_, ?_⟩
      · exact List.Sorted.cons hlt h1
      · intro x
        simp only [List.mem_cons] at h2 ⊢
        rw [h2 x]

theorem unique_spec {α : Type} [LinearOrder α] [DecidableEq α] (l : List α) (hs : List.Sorted (· ≤ ·) l) :
    List.Sorted (· < ·) (unique l) ∧ ∀ x, x ∈ unique l ↔ x ∈ l := by
  cases l with
  | nil => simp [unique]
  | cons x rest => exact uniqueAfter_spec rest x hs

theorem sort_strLess_sorted (words : List String) :
    List.Sorted (· ≤ ·) (sort strLess words) := by
  have htot : IsTotal String (fun a b => strLess b a = false) :=
    ⟨fun a b => by
      rw [strLess_false_iff, strLess_false_iff]
      exact le_total a b⟩
  have htr : IsTrans String (fun a b => strLess b a = false) :=
    ⟨fun a b c => by
      rw [strLess_false_iff, strLess_false_iff, strLess_false_iff]
      exact le_trans⟩
  have h := @List.sorted_insertionSort String (fun a b => strLess b a = false) _ htot htr words
  exact List.Pairwise.imp (fun {a b} hab => (strLess_false_iff a b).1 hab) h

theorem sort_perm {α : Type} (lt : α → α → Bool) (words : List α) :
    (sort lt words).Perm words :=
  List.perm_insertionSort _ words

/-- C21. For every vector of strings, `elimDups` leaves the vector in strictly ascending
lexicographic order (sorted, no two elements equal) with exactly the strings that occur in
the input; on the ten words of the demonstration it leaves the eight words fox, jumps, over,
quick, red, slow, the, turtle. -/
theorem elimDups_sorted_distinct (words : List String) :
    List.Sorted (fun a b => strLess a b = true) (elimDups words) ∧
    (elimDups words).Nodup ∧
    (∀ s, s ∈ elimDups words ↔ s ∈ words) ∧
    elimDups ["the", "quick", "red", "fox", "jumps", "over", "the", "slow", "red", "turtle"]
      = ["fox", "jumps", "over", "quick", "red", "slow", "the", "turtle"] := by
  obtain ⟨h1, h2⟩ := unique_spec (sort strLess words) (sort_strLess_sorted words)
  have e : elimDups words = unique (sort strLess words) := rfl
  rw [e]
  refine ⟨?_, ?_, ?_, by decide⟩
  · exact List.Pairwise.imp (fun {a b} hab => (strLess_iff a b).2 hab) h1
  · exact List.Sorted.nodup h1
  · intro s
    rw [h2 s]
    exact (sort_perm strLess words).mem_iff

/-- C23. With `std::less` on a strict total order, `compare(v1, v2)` is `-1` when `v1 < v2`,
`1` when `v2 < v1` and `0` otherwise; hence `compare(a, b) == -compare(b, a)`, and
`compare(a, b) == 0` exactly when `a` equals `b`; `flexibleCompare` gives the same values.
The demonstration: `compare(1, 0)` is `1` and `compare({1, 2, 3}, {4, 5, 6})` is `-1`. -/
theorem compare_antisymmetric {α : Type} [LinearOrder α] (a b : α) :
    (a < b → compare less a b = -1) ∧ (b < a → compare less a b = 1) ∧
    (¬ a < b → ¬ b < a → compare less a b = 0) ∧
    compare less a b = -compare less b a ∧
    (compare less a b = 0 ↔ a = b) ∧
    flexibleCompare a b = compare less a b ∧
    compare less (1 : Int) 0 = 1 ∧ compare less ([1, 2, 3] : List Int) [4, 5, 6] = -1 := by
  refine ⟨?_, ?_, ?_, ?_, ?_, ?_, by decide, by decide⟩
  · intro h
    simp [compare, less, h]
  · intro h
    simp [compare, less, h, lt_asymm h]
  · intro h1 h2
    simp [compare, less, h1, h2]
  · rcases lt_trichotomy a b with h | h | h
    · simp [compare, less, h, lt_asymm h]
    · subst h
      simp [compare, less]
    · simp [compare, less, h, lt_asymm h]
  · rcases lt_trichotomy a b with h | h | h
    · simp [compare, less, h, ne_of_lt h]
    · subst h
      simp [compare, less]
    · simp [compare, less, h, lt_asymm h, ne_of_gt h]
  · simp [compare, less, flexibleCompare]

theorem compare_antisymmetric_witness :
    compare less (2 : Int) 5 = -1 ∧ compare less (5 : Int) 2 = 1 ∧
    compare less (2 : Int) 5 = -compare less (5 : Int) 2 ∧
    (compare less (2 : Int) 2 = 0 ↔ (2 : Int) = 2) :=
  ⟨(compare_antisymmetric (2 : Int) 5).1 (by decide),
    (compare_antisymmetric (5 : Int) 2).2.1 (by decide),
    (compare_antisymmetric (2 : Int) 5).2.2.2.1,
    (compare_antisymmetric (2 : Int) 2).2.2.2.2.1⟩

namespace SmallInt

/-- C27, evaluated on the code.  The constructor throws `out_of_range` exactly for `i < 0`
or `i > 255`, and then the value is in `0..255`.  But `operator+` writes the sum into `val`
without the check: `SmallInt(200) + SmallInt(100)` is a `SmallInt` holding `300`. -/
theorem add_leaves_range :
    (∀ i : Int, ofInt i = Result.throw (Exn.out_of_range "Bad SamllInt value")
      ↔ (i < 0 ∨ i > 255)) ∧
    (∀ (i : Int) (s : SmallInt), ofInt i = Result.ok s → s.InRange ∧ (s.val : Int) = i) ∧
    ofInt 200 = Result.ok ⟨200⟩ ∧ ofInt 100 = Result.ok ⟨100⟩ ∧
    add ⟨200⟩ ⟨100⟩ = Result.ok ⟨300⟩ ∧ ¬ (SmallInt.mk 300).InRange := by
  refine ⟨?_, ?_, by decide, by decide, by decide, by unfold InRange; decide⟩
  · intro i
    by_cases h : i < 0 ∨ i > 255
    · simp [ofInt, h]
    · simp [ofInt, h]
  · intro i s hs
    by_cases h : i < 0 ∨ i > 255
    · simp [ofInt, h] at hs
    · simp only [ofInt, h, if_false, Result.ok.injEq] at hs
      subst hs
      have h0 : 0 ≤ i := by omega
      have h1 : i ≤ 255 := by omega
      have hm : i % 2 ^ 64 = i := Int.emod_eq_of_lt h0 (by omega)
      simp only [InRange, hm]
      omega

end SmallInt

namespace PtrSet

theorem mem_insert (x y : Nat) (s : List Nat) : y ∈ insert x s ↔ y ∈ s ∨ y = x := by
  unfold insert
  by_cases h : x ∈ s
  · simp only [h, if_true]
    constructor
    · exact Or.inl
    · rintro (h1 | h1)
      · exact h1
      · rw [h1]; exact h
  · simp only [h, if_false, List.mem_orderedInsert]
    tauto

theorem mem_erase (x y : Nat) (s : List Nat) : y ∈ erase x s ↔ y ∈ s ∧ y ≠ x := by
  simp [erase]

end PtrSet

namespace MsgWorld

theorem msg_get_lt {w : MsgWorld} {m : Nat} {msg : Message} (h : w.get m = some msg) :
    m < w.msgs.length := by
  by_contra hn
  have e : w.msgs[m]? = none := List.getElem?_eq_none (by omega)
  simp [get, e] at h

theorem get_put (w : MsgWorld) (m n : Nat) (msg : Message) (h : m < w.msgs.length) :
    (w.put m msg).get n = if n = m then some msg else w.get n := by
  by_cases e : n = m
  · subst e
    simp [get, put, List.getElem?_set_self, h]
  · have e2 : m ≠ n := fun h => e h.symm
    simp [get, put, e, List.getElem?_set_ne e2]

theorem get_onFolder (w : MsgWorld) (f n : Nat) (g : Folder → Folder) :
    (w.onFolder f g).get n = w.get n := by
  unfold onFolder
  cases w.flds[f]? <;> rfl

theorem msgs_onFolder (w : MsgWorld) (f : Nat) (g : Folder → Folder) :
    (w.onFolder f g).msgs = w.msgs := by
  unfold onFolder
  cases w.flds[f]? <;> rfl

theorem length_onFolder (w : MsgWorld) (f : Nat) (g : Folder → Folder) :
    (w.onFolder f g).flds.length = w.flds.length := by
  unfold onFolder
  cases w.flds[f]? <;> simp

theorem members_valid {w : MsgWorld} {f x : Nat} (h : x ∈ w.members f) : f < w.flds.length := by
  by_contra hn
  have e : w.flds[f]? = none := List.getElem?_eq_none (by omega)
  simp [members, e] at h

theorem mem_members_onFolder (w : MsgWorld) (f h x : Nat) (g : Folder → Folder)
    (T : Nat → Prop → Prop) (hT : ∀ fd y, y ∈ (g fd).messages ↔ T y (y ∈ fd.messages)) :
    x ∈ (w.onFolder f g).members h ↔
      ((h = f ∧ h < w.flds.length) ∧ T x (x ∈ w.members h)) ∨
      (¬ (h = f ∧ h < w.flds.length) ∧ x ∈ w.members h) := by
  by_cases hf : f < w.flds.length
  · have e : w.flds[f]? = some (w.flds[f]) := List.getElem?_eq_getElem hf
    by_cases hh : h = f
    · subst hh
      simp [onFolder, members, e, hf, hT]
    · have hh2 : f ≠ h := fun e => hh e.symm
      simp [onFolder, members, e, hh, List.getElem?_set_ne hh2]
  · have e : w.flds[f]? = none := List.getElem?_eq_none (by omega)
    have hn : ¬ (h = f ∧ h < w.flds.length) := by
      rintro ⟨h1, h2⟩
      omega
    simp [onFolder, e, hn]

theorem get_forEach (fs : List Nat) (g : Folder → Folder) (w : MsgWorld) (n : Nat) :
    (forEach fs g w).get n = w.get n := by
  induction fs generalizing w with
  | nil => rfl
  | cons f fs ih =>
    show (forEach fs g (w.onFolder f g)).get n = w.get n
    rw [ih, get_onFolder]

theorem msgs_forEach (fs : List Nat) (g : Folder → Folder) (w : MsgWorld) :
    (forEach fs g w).msgs = w.msgs := by
  induction fs generalizing w with
  | nil => rfl
  | cons f fs ih =>
    show (forEach fs g (w.onFolder f g)).msgs = w.msgs
    rw [ih, msgs_onFolder]

theorem length_forEach (fs : List Nat) (g : Folder → Folder) (w : MsgWorld) :
    (forEach fs g w).flds.length = w.flds.length := by
  induction fs generalizing w with
  | nil => rfl
  | cons f fs ih =>
    show (forEach fs g (w.onFolder f g)).flds.length = w.flds.length
    rw [ih, length_onFolder]

theorem mem_members_forEach (fs : List Nat) (g : Folder → Folder) (T : Nat → Prop → Prop)
    (hT : ∀ fd y, y ∈ (g fd).messages ↔ T y (y ∈ fd.messages))
    (hidem : ∀ y p, T y (T y p) ↔ T y p) (w : MsgWorld) (h x : Nat) :
    x ∈ (forEach fs g w).members h ↔
      ((h ∈ fs ∧ h < w.flds.length) ∧ T x (x ∈ w.members h)) ∨
      (¬ (h ∈ fs ∧ h < w.flds.length) ∧ x ∈ w.members h) := by
  induction fs generalizing w with
  | nil => simp [forEach]
  | cons f fs ih =>
    show x ∈ (forEach fs g (w.onFolder f g)).members h ↔ _
    rw [ih, length_onFolder]
    have hQ := mem_members_onFolder w f h x g T hT
    by_cases c : h = f ∧ h < w.flds.length
    · have eQ : (x ∈ (w.onFolder f g).members h) = T x (x ∈ w.members h) :=
        propext (by rw [hQ]; tauto)
      rw [eQ]
      have hi := hidem x (x ∈ w.members h)
      have hm : h ∈ f :: fs := by rw [c.1]; exact List.mem_cons_self _ _
      simp only [hi, hm, c.2, and_self, true_and, not_true_eq_false, false_and, or_false]
      tauto
    · have eQ : (x ∈ (w.onFolder f g).members h) = (x ∈ w.members h) :=
        propext (by rw [hQ]; tauto)
      rw [eQ]
      have hm : (h ∈ f :: fs ∧ h < w.flds.length) ↔ (h ∈ fs ∧ h < w.flds.length) := by
        rw [List.mem_cons]
        tauto
      rw [hm]

end MsgWorld

namespace MsgWorld

theorem attached_of_consistent {w : MsgWorld} (h : w.Consistent) :
    w.Attached (fun _ => False) := by
  refine ⟨?_, ?_⟩
  · intro m msg hm f hf
    exact members_valid ((h m f).1 ⟨msg, hm, hf⟩)
  · intro m f
    rw [← h m f]
    simp

theorem consistent_of_attached {w : MsgWorld} {S : Nat → Prop} (h : w.Attached S)
    (hS : ∀ x, ¬ S x) : w.Consistent := by
  intro m f
  rw [h.2 m f]
  simp [hS m]

theorem Attached.relabel {w : MsgWorld} {S S1 : Nat → Prop} (h : w.Attached S)
    (hS : ∀ x, S1 x ↔ S x) : w.Attached S1 := by
  refine ⟨h.1, ?_⟩
  intro m f
  rw [h.2 m f, hS m]

theorem mem_remAll (fs : List Nat) (a : Nat) (w : MsgWorld) (h x : Nat) :
    x ∈ (forEach fs (Folder.remMsg a) w).members h ↔
      x ∈ w.members h ∧ ¬ (x = a ∧ h ∈ fs) := by
  rw [mem_members_forEach fs (Folder.remMsg a) (fun y p => p ∧ y ≠ a)
    (fun fd y => PtrSet.mem_erase a y fd.messages) (fun y p => by tauto) w h x]
  have hv : x ∈ w.members h → h < w.flds.length := members_valid
  tauto

theorem mem_addAll (fs : List Nat) (a : Nat) (w : MsgWorld) (h x : Nat) :
    x ∈ (forEach fs (Folder.addMsg a) w).members h ↔
      x ∈ w.members h ∨ (x = a ∧ h ∈ fs ∧ h < w.flds.length) := by
  rw [mem_members_forEach fs (Folder.addMsg a) (fun y p => p ∨ y = a)
    (fun fd y => PtrSet.mem_insert a y fd.messages) (fun y p => by tauto) w h x]
  tauto

theorem mem_moveAll (fs : List Nat) (dst src : Nat) (w : MsgWorld) (h x : Nat) :
    x ∈ (forEach fs (fun fd => Folder.addMsg dst (Folder.remMsg src fd)) w).members h ↔
      (x ∈ w.members h ∧ ¬ (x = src ∧ h ∈ fs)) ∨ (x = dst ∧ h ∈ fs ∧ h < w.flds.length) := by
  rw [mem_members_forEach fs (fun fd => Folder.addMsg dst (Folder.remMsg src fd))
    (fun y p => (p ∧ y ≠ src) ∨ y = dst)
    (fun fd y => by
      show y ∈ PtrSet.insert dst (PtrSet.erase src fd.messages) ↔ _
      rw [PtrSet.mem_insert, PtrSet.mem_erase])
    (fun y p => by tauto) w h x]
  have hv : x ∈ w.members h → h < w.flds.length := members_valid
  tauto

/-- Taking a message out of all its folders. -/
theorem Attached.detach {w : MsgWorld} {S : Nat → Prop} (h : w.Attached S) {a : Nat}
    {msg : Message} (ha : w.get a = some msg) :
    (forEach msg.folders (Folder.remMsg a) w).Attached (fun x => S x ∨ x = a) := by
  refine ⟨?_, ?_⟩
  · intro m ms hm f hf
    rw [get_forEach] at hm
    rw [length_forEach]
    exact h.1 m ms hm f hf
  · intro m f
    rw [mem_remAll, get_forEach, h.2 m f]
    constructor
    · rintro ⟨⟨h1, ms, h2, h3⟩, h4⟩
      refine ⟨?_, ms, h2, h3⟩
      rintro (h5 | h5)
      · exact h1 h5
      · subst h5
        rw [ha] at h2
        cases h2
        exact h4 ⟨rfl, h3⟩
    · rintro ⟨h1, ms, h2, h3⟩
      refine ⟨⟨fun h5 => h1 (Or.inl h5), ms, h2, h3⟩, ?_⟩
      rintro ⟨h5, _⟩
      exact h1 (Or.inr h5)

/-- Putting a message into all its folders. -/
theorem Attached.attach {w : MsgWorld} {S : Nat → Prop} (h : w.Attached S) {a : Nat}
    {msg : Message} (ha : w.get a = some msg) :
    (forEach msg.folders (Folder.addMsg a) w).Attached (fun x => S x ∧ x ≠ a) := by
  refine ⟨?_, ?_⟩
  · intro m ms hm f hf
    rw [get_forEach] at hm
    rw [length_forEach]
    exact h.1 m ms hm f hf
  · intro m f
    rw [mem_addAll, get_forEach, h.2 m f]
    constructor
    · rintro (⟨h1, ms, h2, h3⟩ | ⟨h1, h2, _⟩)
      · exact ⟨fun h5 => h1 h5.1, ms, h2, h3⟩
      · subst h1
        exact ⟨fun h5 => h5.2 rfl, msg, ha, h2⟩
    · rintro ⟨h1, ms, h2, h3⟩
      by_cases e : m = a
      · subst e
        rw [ha] at h2
        cases h2
        exact Or.inr ⟨rfl, h3, h.1 m msg ha f h3⟩
      · refine Or.inl ⟨fun h5 => h1 ⟨h5, e⟩, ms, h2, h3⟩

/-- Storing into a message that is out of its folders. -/
theorem Attached.put {w : MsgWorld} {S : Nat → Prop} (h : w.Attached S) {a : Nat}
    {old : Message} (ha : w.get a = some old) (hS : S a) (msg : Message)
    (hv : ∀ f ∈ msg.folders, f < w.flds.length) :
    (w.put a msg).Attached S := by
  have hl := msg_get_lt ha
  refine ⟨?_, ?_⟩
  · intro m ms hm f hf
    rw [get_put w a m msg hl] at hm
    by_cases e : m = a
    · rw [if_pos e] at hm
      cases hm
      exact hv f hf
    · rw [if_neg e] at hm
      exact h.1 m ms hm f hf
  · intro m f
    show m ∈ w.members f ↔ _
    rw [h.2 m f, get_put w a m msg hl]
    by_cases e : m = a
    · subst e
      simp [hS]
    · rw [if_neg e]

/-- Storing new contents into a message. -/
theorem Attached.put_contents {w : MsgWorld} {S : Nat → Prop} (h : w.Attached S) {a : Nat}
    {old : Message} (ha : w.get a = some old) (c : String) :
    (w.put a ⟨c, old.folders⟩).Attached S := by
  have hl := msg_get_lt ha
  refine ⟨?_, ?_⟩
  · intro m ms hm f hf
    rw [get_put w a m _ hl] at hm
    by_cases e : m = a
    · rw [if_pos e] at hm
      cases hm
      exact h.1 a old ha f hf
    · rw [if_neg e] at hm
      exact h.1 m ms hm f hf
  · intro m f
    show m ∈ w.members f ↔ _
    rw [h.2 m f, get_put w a m _ hl]
    by_cases e : m = a
    · subst e
      rw [if_pos rfl, ha]
      simp
    · rw [if_neg e]

theorem get_fresh (w : MsgWorld) (msg : Message) (n : Nat) :
    (MsgWorld.mk (w.msgs ++ [some msg]) w.flds).get n =
      if n = w.msgs.length then some msg else w.get n := by
  by_cases e : n = w.msgs.length
  · subst e
    simp [get]
  · rw [if_neg e]
    by_cases e2 : n < w.msgs.length
    · simp [get, List.getElem?_append_left e2]
    · have e3 : w.msgs[n]? = none := List.getElem?_eq_none (by omega)
      have e4 : (w.msgs ++ [some msg])[n]? = none :=
        List.getElem?_eq_none (by simp; omega)
      simp [get, e3, e4]

theorem get_length (w : MsgWorld) : w.get w.msgs.length = none := by
  have e : w.msgs[w.msgs.length]? = none := List.getElem?_eq_none (le_refl _)
  simp [get, e]

/-- A new message, not yet in the folders it lists. -/
theorem Attached.fresh {w : MsgWorld} {S : Nat → Prop} (h : w.Attached S) (msg : Message)
    (hv : ∀ f ∈ msg.folders, f < w.flds.length) :
    (MsgWorld.mk (w.msgs ++ [some msg]) w.flds).Attached (fun x => S x ∨ x = w.msgs.length) := by
  refine ⟨?_, ?_⟩
  · intro m ms hm f hf
    rw [get_fresh] at hm
    by_cases e : m = w.msgs.length
    · rw [if_pos e] at hm
      cases hm
      exact hv f hf
    · rw [if_neg e] at hm
      exact h.1 m ms hm f hf
  · intro m f
    show m ∈ w.members f ↔ _
    rw [h.2 m f, get_fresh]
    by_cases e : m = w.msgs.length
    · subst e
      simp [get_length]
    · simp [e]

theorem msg_get_kill (w : MsgWorld) (a n : Nat) :
    (MsgWorld.mk (w.msgs.set a none) w.flds).get n = if n = a then none else w.get n := by
  by_cases e : n = a
  · subst e
    by_cases hl : n < w.msgs.length
    · simp [get, List.getElem?_set_self, hl]
    · have e3 : (w.msgs.set n none)[n]? = none := List.getElem?_eq_none (by simp; omega)
      simp [get, e3]
  · have e2 : a ≠ n := fun h => e h.symm
    simp [get, e, List.getElem?_set_ne e2]

/-- The end of the lifetime of a message that is out of its folders. -/
theorem Attached.ended {w : MsgWorld} {S : Nat → Prop} (h : w.Attached S) {a : Nat} (hS : S a) :
    (MsgWorld.mk (w.msgs.set a none) w.flds).Attached (fun x => S x ∧ x ≠ a) := by
  refine ⟨?_, ?_⟩
  · intro m ms hm f hf
    rw [msg_get_kill] at hm
    by_cases e : m = a
    · rw [if_pos e] at hm
      cases hm
    · rw [if_neg e] at hm
      exact h.1 m ms hm f hf
  · intro m f
    show m ∈ w.members f ↔ _
    rw [h.2 m f, msg_get_kill]
    by_cases e : m = a
    · subst e
      simp [hS]
    · simp [e]

/-- The loop of `move_Folders`. -/
theorem Attached.move {w : MsgWorld} {S : Nat → Prop} (h : w.Attached S) {dst src : Nat}
    {t s : Message} (hd : w.get dst = some t) (hs : w.get src = some s)
    (hf : t.folders = s.folders) (hS : S dst) (hne : dst ≠ src) :
    (forEach s.folders (fun fd => Folder.addMsg dst (Folder.remMsg src fd)) w).Attached
      (fun x => (S x ∧ x ≠ dst) ∨ x = src) := by
  refine ⟨?_, ?_⟩
  · intro m ms hm f hf
    rw [get_forEach] at hm
    rw [length_forEach]
    exact h.1 m ms hm f hf
  · intro m f
    rw [mem_moveAll, get_forEach, h.2 m f]
    constructor
    · rintro (⟨⟨h1, ms, h2, h3⟩, h4⟩ | ⟨h1, h2, _⟩)
      · refine ⟨?_, ms, h2, h3⟩
        rintro (h5 | h5)
        · exact h1 h5.1
        · subst h5
          rw [hs] at h2
          cases h2
          exact h4 ⟨rfl, h3⟩
      · subst h1
        refine ⟨?_, t, hd, by rw [hf]; exact h2⟩
        rintro (h5 | h5)
        · exact h5.2 rfl
        · exact hne h5
    · rintro ⟨h1, ms, h2, h3⟩
      by_cases e : m = dst
      · subst e
        rw [hd] at h2
        cases h2
        rw [hf] at h3
        exact Or.inr ⟨rfl, h3, h.1 src s hs f h3⟩
      · refine Or.inl ⟨⟨fun h5 => h1 (Or.inl ⟨h5, e⟩), ms, h2, h3⟩, ?_⟩
        rintro ⟨h5, _⟩
        exact h1 (Or.inr h5)

end MsgWorld

namespace MsgWorld

theorem newFolder_consistent {w : MsgWorld} (h : w.Consistent) : w.newFolder.Consistent := by
  intro m f
  have e : ∀ x, x ∈ w.newFolder.members f ↔ x ∈ w.members f := by
    intro x
    by_cases hf : f < w.flds.length
    · simp [members, newFolder, List.getElem?_append_left hf]
    · have e1 : w.flds[f]? = none := List.getElem?_eq_none (by omega)
      by_cases hf2 : f = w.flds.length
      · subst hf2
        simp [members, newFolder]
      · have e2 : (w.flds ++ [Folder.mk []])[f]? = none :=
          List.getElem?_eq_none (by simp; omega)
        simp [members, newFolder, e1, e2]
  rw [e m]
  exact h m f

theorem newMessage_consistent {w : MsgWorld} (h : w.Consistent) (str : String) :
    (w.newMessage str).Consistent := by
  have h1 := (attached_of_consistent h).fresh ⟨str, []⟩ (by simp)
  have h2 := h1.attach (by rw [get_fresh, if_pos rfl])
  exact consistent_of_attached h2 (by intro x; simp)

theorem save_spec {w : MsgWorld} (h : w.Consistent) {m f : Nat} {msg : Message}
    (hm : w.get m = some msg) (hf : f < w.flds.length) :
    ∃ w1, w.save m f = some w1 ∧ w1.Consistent ∧
      w1.get m = some ⟨msg.contents, PtrSet.insert f msg.folders⟩ := by
  have hl := msg_get_lt hm
  refine ⟨_, by simp only [save, hm, hf, if_true]; rfl, ?_, ?_⟩
  · intro n g
    rw [get_onFolder, get_put w m n _ hl,
      mem_members_onFolder _ f g n (Folder.addMsg m) (fun y p => p ∨ y = m)
        (fun fd y => PtrSet.mem_insert m y fd.messages)]
    show _ ↔ ((g = f ∧ g < w.flds.length) ∧ (n ∈ w.members g ∨ n = m)) ∨
      (¬ (g = f ∧ g < w.flds.length) ∧ n ∈ w.members g)
    rw [← h n g]
    by_cases e : n = m
    · subst e
      simp only [if_true, hm, Option.some.injEq, exists_eq_left', PtrSet.mem_insert]
      by_cases e2 : g = f
      · subst e2
        simp [hf]
      · simp [e2]
    · simp only [if_neg e]
      by_cases e2 : g = f
      · subst e2
        simp [hf, e]
      · simp [e2]
  · rw [get_onFolder, get_put w m m _ hl, if_pos rfl]

theorem remove_spec {w : MsgWorld} (h : w.Consistent) {m f : Nat} {msg : Message}
    (hm : w.get m = some msg) (hf : f < w.flds.length) :
    ∃ w1, w.remove m f = some w1 ∧ w1.Consistent ∧
      w1.get m = some ⟨msg.contents, PtrSet.erase f msg.folders⟩ := by
  have hl := msg_get_lt hm
  refine ⟨_, by simp only [remove, hm, hf, if_true]; rfl, ?_, ?_⟩
  · intro n g
    rw [get_onFolder, get_put w m n _ hl,
      mem_members_onFolder _ f g n (Folder.remMsg m) (fun y p => p ∧ y ≠ m)
        (fun fd y => PtrSet.mem_erase m y fd.messages)]
    show _ ↔ ((g = f ∧ g < w.flds.length) ∧ (n ∈ w.members g ∧ n ≠ m)) ∨
      (¬ (g = f ∧ g < w.flds.length) ∧ n ∈ w.members g)
    rw [← h n g]
    by_cases e : n = m
    · subst e
      simp only [if_true, hm, Option.some.injEq, exists_eq_left', PtrSet.mem_erase]
      by_cases e2 : g = f
      · subst e2
        simp [hf]
      · simp [e2]
    · simp only [if_neg e]
      by_cases e2 : g = f
      · subst e2
        simp [hf, e]
      · simp [e2]
  · rw [get_onFolder, get_put w m m _ hl, if_pos rfl]

theorem copy_ctor_consistent {w : MsgWorld} (h : w.Consistent) {m : Nat} {msg : Message}
    (hm : w.get m = some msg) :
    ∃ w1, w.copy_ctor m = some w1 ∧ w1.Consistent ∧
      w1.get w.msgs.length = some ⟨msg.contents, msg.folders⟩ := by
  have hl := msg_get_lt hm
  have hne : m ≠ w.msgs.length := by omega
  have ha := attached_of_consistent h
  have g1 : (MsgWorld.mk (w.msgs ++ [some ⟨msg.contents, msg.folders⟩]) w.flds).get m
      = some msg := by
    rw [get_fresh, if_neg hne, hm]
  have g2 : (MsgWorld.mk (w.msgs ++ [some ⟨msg.contents, msg.folders⟩]) w.flds).get
      w.msgs.length = some ⟨msg.contents, msg.folders⟩ := by
    rw [get_fresh, if_pos rfl]
  have h1 := ha.fresh ⟨msg.contents, msg.folders⟩ (fun f hf => ha.1 m msg hm f hf)
  have h2 := h1.attach g2
  refine ⟨_, by simp only [copy_ctor, hm, add_to_Folders, g1]; rfl, ?_, ?_⟩
  · exact consistent_of_attached h2 (by intro x; simp)
  · rw [get_forEach, g2]

theorem remove_from_Folders_spec {w : MsgWorld} (h : w.Consistent) {a : Nat} {msg : Message}
    (ha : w.get a = some msg) :
    ∃ w1, w.remove_from_Folders a = some w1 ∧
      w1.Attached (fun x => x = a) ∧ (∀ n, w1.get n = w.get n) ∧
      (∀ f, a ∉ w1.members f) ∧ (msg.folders = [] → w1 = w) := by
  have h1 := (attached_of_consistent h).detach ha
  have h2 : (forEach msg.folders (Folder.remMsg a) w).Attached (fun x => x = a) :=
    h1.relabel (by intro x; simp)
  refine ⟨_, by simp only [remove_from_Folders, ha], h2, fun n => get_forEach _ _ _ _, ?_, ?_⟩
  · intro f hf
    exact ((h2.2 a f).1 hf).1 rfl
  · intro e
    rw [e]
    rfl

theorem destructor_consistent {w : MsgWorld} (h : w.Consistent) {a : Nat} {msg : Message}
    (ha : w.get a = some msg) :
    ∃ w1, w.destructor a = some w1 ∧ w1.Consistent ∧ w1.get a = none ∧
      (msg.folders = [] → w1.flds = w.flds) := by
  obtain ⟨w1, e1, h1, _, _, h4⟩ := remove_from_Folders_spec h ha
  have h2 := h1.ended rfl
  refine ⟨_, by simp only [destructor, e1]; rfl, ?_, ?_, ?_⟩
  · exact consistent_of_attached h2 (by intro x; simp)
  · rw [msg_get_kill, if_pos rfl]
  · intro e
    show w1.flds = w.flds
    rw [h4 e]

theorem copy_assign_consistent {w : MsgWorld} (h : w.Consistent) {a b : Nat} {t r : Message}
    (ha : w.get a = some t) (hb : w.get b = some r) :
    ∃ w1, w.copy_assign a b = some w1 ∧ w1.Consistent ∧
      w1.get a = some ⟨r.contents, r.folders⟩ := by
  obtain ⟨w1, e1, h1, hg, _, _⟩ := remove_from_Folders_spec h ha
  have hl1 : w1.flds.length = w.flds.length := by
    simp only [remove_from_Folders, ha, Option.some.injEq] at e1
    rw [← e1, length_forEach]
  have ha1 : w1.get a = some t := by rw [hg, ha]
  have hb1 : w1.get b = some r := by rw [hg, hb]
  have hla := msg_get_lt ha1
  have h2 := h1.put ha1 rfl ⟨r.contents, r.folders⟩ (fun f hf => h1.1 b r hb1 f hf)
  have ga : (w1.put a ⟨r.contents, r.folders⟩).get a = some ⟨r.contents, r.folders⟩ := by
    rw [get_put w1 a a _ hla, if_pos rfl]
  have gb : ∃ r2, (w1.put a ⟨r.contents, r.folders⟩).get b = some r2 ∧
      r2.folders = r.folders := by
    rw [get_put w1 a b _ hla]
    by_cases e : b = a
    · exact ⟨_, if_pos e, rfl⟩
    · exact ⟨r, by rw [if_neg e, hb1], rfl⟩
  obtain ⟨r2, gb1, gb2⟩ := gb
  have h3 := h2.attach ga
  refine ⟨_, by simp only [copy_assign, e1, hb1, add_to_Folders, gb1, gb2]; rfl, ?_, ?_⟩
  · exact consistent_of_attached h3 (by intro x; simp)
  · rw [get_forEach, ga]

theorem swap_consistent {w : MsgWorld} (h : w.Consistent) {a b : Nat} {l r : Message}
    (ha : w.get a = some l) (hb : w.get b = some r) :
    ∃ w1, w.swap a b = some w1 ∧ w1.Consistent ∧
      w1.get a = some ⟨r.contents, r.folders⟩ ∧ w1.get b = some ⟨l.contents, l.folders⟩ := by
  have h0 := attached_of_consistent h
  have h1 := h0.detach ha
  have hb1 : (forEach l.folders (Folder.remMsg a) w).get b = some r := by
    rw [get_forEach, hb]
  have h2 := h1.detach hb1
  have ha2 : (forEach r.folders (Folder.remMsg b)
      (forEach l.folders (Folder.remMsg a) w)).get a = some l := by
    rw [get_forEach, get_forEach, ha]
  have hb2 : (forEach r.folders (Folder.remMsg b)
      (forEach l.folders (Folder.remMsg a) w)).get b = some r := by
    rw [get_forEach, hb1]
  have hlen : (forEach r.folders (Folder.remMsg b)
      (forEach l.folders (Folder.remMsg a) w)).flds.length = w.flds.length := by
    rw [length_forEach, length_forEach]
  have hla := msg_get_lt ha2
  have hlb := msg_get_lt hb2
  have h3 := h2.put ha2 (Or.inl (Or.inr rfl)) ⟨r.contents, r.folders⟩
    (fun f hf => by rw [hlen]; exact h0.1 b r hb f hf)
  generalize hw2 : forEach r.folders (Folder.remMsg b)
      (forEach l.folders (Folder.remMsg a) w) = w2 at *
  have hab : ∃ r1, (w2.put a ⟨r.contents, r.folders⟩).get b = some r1 := by
    rw [get_put w2 a b _ hla]
    by_cases e : b = a
    · exact ⟨_, if_pos e⟩
    · exact ⟨r, by rw [if_neg e, hb2]⟩
  obtain ⟨r1, hr1⟩ := hab
  have hlb2 : b < (w2.put a ⟨r.contents, r.folders⟩).msgs.length := msg_get_lt hr1
  have h4 := h3.put hr1 (Or.inr rfl) ⟨l.contents, l.folders⟩
    (fun f hf => by
      show f < w2.flds.length
      rw [hlen]; exact h0.1 a l ha f hf)
  generalize hw3 : (w2.put a ⟨r.contents, r.folders⟩).put b ⟨l.contents, l.folders⟩ = w3 at *
  have gb3 : w3.get b = some ⟨l.contents, l.folders⟩ := by
    rw [← hw3, get_put _ b b _ hlb2, if_pos rfl]
  have ga3 : ∃ l3, w3.get a = some l3 ∧
      (a ≠ b → l3 = ⟨r.contents, r.folders⟩) := by
    rw [← hw3, get_put _ b a _ hlb2]
    by_cases e : a = b
    · exact ⟨_, if_pos e, fun hn => absurd e hn⟩
    · rw [if_neg e, get_put w2 a a _ hla, if_pos rfl]
      exact ⟨_, rfl, fun _ => rfl⟩
  obtain ⟨l3, hl3, hl3e⟩ := ga3
  have h5 := h4.attach hl3
  have gb4 : (forEach l3.folders (Folder.addMsg a) w3).get b
      = some ⟨l.contents, l.folders⟩ := by
    rw [get_forEach, gb3]
  have h6 := h5.attach gb4
  refine ⟨_, by simp only [swap, ha, hb, hw2, hw3, hl3, gb3]; rfl, ?_, ?_, ?_⟩
  · exact consistent_of_attached h6 (by intro x; simp; tauto)
  · rw [get_forEach, get_forEach, hl3]
    by_cases e : a = b
    · subst e
      rw [ha] at hb
      cases hb
      rw [gb3] at hl3
      cases hl3
      rfl
    · rw [hl3e e]
  · rw [get_forEach, gb4]

end MsgWorld

namespace MsgWorld

theorem move_Folders_spec {w : MsgWorld} {S : Nat → Prop} (h : w.Attached S) {dst src : Nat}
    {t s : Message} (hd : w.get dst = some t) (hs : w.get src = some s) (hS : S dst)
    (hne : dst ≠ src) :
    ∃ w1, w.move_Folders dst src = some w1 ∧
      w1.Attached (fun x => S x ∧ x ≠ dst ∧ x ≠ src) ∧
      w1.get dst = some ⟨t.contents, s.folders⟩ ∧ w1.get src = some ⟨s.contents, []⟩ := by
  have hld := msg_get_lt hd
  have hls := msg_get_lt hs
  have hnes : src ≠ dst := fun e => hne e.symm
  have h1 := h.put hd hS ⟨t.contents, s.folders⟩ (fun f hf => h.1 src s hs f hf)
  have gd1 : (w.put dst ⟨t.contents, s.folders⟩).get dst = some ⟨t.contents, s.folders⟩ := by
    rw [get_put w dst dst _ hld, if_pos rfl]
  have gs1 : (w.put dst ⟨t.contents, s.folders⟩).get src = some s := by
    rw [get_put w dst src _ hld, if_neg hnes, hs]
  have h2 := h1.move gd1 gs1 rfl hS hne
  generalize hw2 : forEach s.folders (fun fd => Folder.addMsg dst (Folder.remMsg src fd))
    (w.put dst ⟨t.contents, s.folders⟩) = w2 at *
  have gd2 : w2.get dst = some ⟨t.contents, s.folders⟩ := by
    rw [← hw2, get_forEach, gd1]
  have gs2 : w2.get src = some s := by
    rw [← hw2, get_forEach, gs1]
  have hls2 := msg_get_lt gs2
  have h3 := h2.put gs2 (Or.inr rfl) ⟨s.contents, []⟩ (by simp)
  have gs3 : (w2.put src ⟨s.contents, []⟩).get src = some ⟨s.contents, []⟩ := by
    rw [get_put w2 src src _ hls2, if_pos rfl]
  have h4 := h3.attach gs3
  refine ⟨_, by simp only [move_Folders, hd, hs, hw2, gs2], ?_, ?_, gs3⟩
  · exact h4.relabel (by intro x; simp; tauto)
  · rw [get_put w2 src dst _ hls2, if_neg hne, gd2]

theorem move_ctor_spec {w : MsgWorld} (h : w.Consistent) (residue : String) {src : Nat}
    {s : Message} (hs : w.get src = some s) :
    ∃ w1, w.move_ctor residue src = some w1 ∧ w1.Consistent ∧
      w1.get w.msgs.length = some ⟨s.contents, s.folders⟩ ∧
      w1.get src = some ⟨residue, []⟩ := by
  have hl := msg_get_lt hs
  have hne : w.msgs.length ≠ src := by omega
  have hnes : src ≠ w.msgs.length := by omega
  have h1 := (attached_of_consistent h).fresh ⟨s.contents, []⟩ (by simp)
  have gs1 : (MsgWorld.mk (w.msgs ++ [some ⟨s.contents, []⟩]) w.flds).get src = some s := by
    rw [get_fresh, if_neg hnes, hs]
  have hl1 := msg_get_lt gs1
  have h2 := h1.put_contents gs1 residue
  have gd2 : ((MsgWorld.mk (w.msgs ++ [some ⟨s.contents, []⟩]) w.flds).put src
      ⟨residue, s.folders⟩).get w.msgs.length = some ⟨s.contents, []⟩ := by
    rw [get_put _ src _ _ hl1, if_neg hne, get_fresh, if_pos rfl]
  have gs2 : ((MsgWorld.mk (w.msgs ++ [some ⟨s.contents, []⟩]) w.flds).put src
      ⟨residue, s.folders⟩).get src = some ⟨residue, s.folders⟩ := by
    rw [get_put _ src _ _ hl1, if_pos rfl]
  obtain ⟨w1, e1, h3, g1, g2⟩ := move_Folders_spec h2 gd2 gs2 (Or.inr rfl) hne
  refine ⟨w1, ?_, ?_, g1, g2⟩
  · simp only [move_ctor, hs]
    exact e1
  · exact consistent_of_attached h3 (by intro x; simp; tauto)

theorem msg_move_assign_spec {w : MsgWorld} (h : w.Consistent) (residue : String) {dst src : Nat}
    {t s : Message} (hd : w.get dst = some t) (hs : w.get src = some s) (hne : dst ≠ src) :
    ∃ w1 w2 w3, w.remove_from_Folders dst = some w1 ∧ (∀ f, dst ∉ w1.members f) ∧
      w1.move_contents residue dst src = some w2 ∧ w2.move_Folders dst src = some w3 ∧
      w.move_assign residue dst src = some w3 ∧ w3.Consistent ∧
      w3.get dst = some ⟨s.contents, s.folders⟩ ∧ w3.get src = some ⟨residue, []⟩ := by
  have hnes : src ≠ dst := fun e => hne e.symm
  obtain ⟨w1, e1, h1, hg, hn, _⟩ := remove_from_Folders_spec h hd
  have hd1 : w1.get dst = some t := by rw [hg, hd]
  have hs1 : w1.get src = some s := by rw [hg, hs]
  have hld := msg_get_lt hd1
  have h2 := h1.put_contents hd1 s.contents
  have gs2 : (w1.put dst ⟨s.contents, t.folders⟩).get src = some s := by
    rw [get_put w1 dst src _ hld, if_neg hnes, hs1]
  have hls := msg_get_lt gs2
  have h3 := h2.put_contents gs2 residue
  have gd3 : ((w1.put dst ⟨s.contents, t.folders⟩).put src ⟨residue, s.folders⟩).get dst
      = some ⟨s.contents, t.folders⟩ := by
    rw [get_put _ src dst _ hls, if_neg hne, get_put w1 dst dst _ hld, if_pos rfl]
  have gs3 : ((w1.put dst ⟨s.contents, t.folders⟩).put src ⟨residue, s.folders⟩).get src
      = some ⟨residue, s.folders⟩ := by
    rw [get_put _ src src _ hls, if_pos rfl]
  obtain ⟨w3, e3, h4, g1, g2⟩ := move_Folders_spec h3 gd3 gs3 rfl hne
  have e2 : w1.move_contents residue dst src
      = some ((w1.put dst ⟨s.contents, t.folders⟩).put src ⟨residue, s.folders⟩) := by
    simp only [move_contents, hd1, hs1]
  refine ⟨w1, _, w3, e1, hn, e2, e3, ?_, ?_, g1, g2⟩
  · simp only [move_assign, hne, ne_eq, not_false_eq_true, if_true, e1, e2]
    exact e3
  · exact consistent_of_attached h4 (by intro x; simp; tauto)

theorem move_assign_self {w : MsgWorld} {a : Nat} {t : Message} (ha : w.get a = some t)
    (residue : String) : w.move_assign residue a a = some w := by
  simp [move_assign, ha]

theorem isSome_get {w : MsgWorld} {m : Nat} (h : (w.get m).isSome) : ∃ msg, w.get m = some msg :=
  Option.isSome_iff_exists.1 h

theorem exec_consistent {w : MsgWorld} (h : w.Consistent) (s : MsgStmt) (hr : w.Ready s) :
    ∃ w1, w.exec s = some w1 ∧ w1.Consistent := by
  cases s with
  | folder => exact ⟨_, rfl, newFolder_consistent h⟩
  | message str => exact ⟨_, rfl, newMessage_consistent h str⟩
  | copy m =>
    obtain ⟨msg, hm⟩ := isSome_get hr
    obtain ⟨w1, e, hc, _⟩ := copy_ctor_consistent h hm
    exact ⟨w1, e, hc⟩
  | move residue m =>
    obtain ⟨msg, hm⟩ := isSome_get hr
    obtain ⟨w1, e, hc, _⟩ := move_ctor_spec h residue hm
    exact ⟨w1, e, hc⟩
  | copy_assign a b =>
    obtain ⟨t, ha⟩ := isSome_get hr.1
    obtain ⟨r, hb⟩ := isSome_get hr.2
    obtain ⟨w1, e, hc, _⟩ := copy_assign_consistent h ha hb
    exact ⟨w1, e, hc⟩
  | move_assign residue a b =>
    obtain ⟨t, ha⟩ := isSome_get hr.1
    obtain ⟨r, hb⟩ := isSome_get hr.2
    by_cases e : a = b
    · subst e
      exact ⟨w, move_assign_self ha residue, h⟩
    · obtain ⟨_, _, w3, _, _, _, _, e3, hc, _⟩ := msg_move_assign_spec h residue ha hb e
      exact ⟨w3, e3, hc⟩
  | swap a b =>
    obtain ⟨t, ha⟩ := isSome_get hr.1
    obtain ⟨r, hb⟩ := isSome_get hr.2
    obtain ⟨w1, e, hc, _⟩ := swap_consistent h ha hb
    exact ⟨w1, e, hc⟩
  | save m f =>
    obtain ⟨msg, hm⟩ := isSome_get hr.1
    obtain ⟨w1, e, hc, _⟩ := save_spec h hm hr.2
    exact ⟨w1, e, hc⟩
  | remove m f =>
    obtain ⟨msg, hm⟩ := isSome_get hr.1
    obtain ⟨w1, e, hc, _⟩ := remove_spec h hm hr.2
    exact ⟨w1, e, hc⟩
  | destroy m =>
    obtain ⟨msg, hm⟩ := isSome_get hr
    obtain ⟨w1, e, hc, _⟩ := destructor_consistent h hm
    exact ⟨w1, e, hc⟩

theorem ready_of_exec {w w1 : MsgWorld} {s : MsgStmt} (h : w.exec s = some w1) : w.Ready s := by
  cases s with
  | folder => trivial
  | message str => trivial
  | copy m =>
    show (w.get m).isSome
    cases hm : w.get m with
    | none => simp [exec, copy_ctor, hm] at h
    | some _ => rfl
  | move residue m =>
    show (w.get m).isSome
    cases hm : w.get m with
    | none => simp [exec, move_ctor, hm] at h
    | some _ => rfl
  | copy_assign a b =>
    show (w.get a).isSome ∧ (w.get b).isSome
    cases ha : w.get a with
    | none => simp [exec, copy_assign, remove_from_Folders, ha] at h
    | some t =>
      cases hb : w.get b with
      | none => simp [exec, copy_assign, remove_from_Folders, ha, get_forEach, hb] at h
      | some _ => exact ⟨rfl, rfl⟩
  | move_assign residue a b =>
    show (w.get a).isSome ∧ (w.get b).isSome
    cases ha : w.get a with
    | none =>
      by_cases e : a = b
      · simp [exec, move_assign, e] at h
        rw [← e, ha] at h
        simp at h
      · simp [exec, move_assign, e, remove_from_Folders, ha] at h
    | some t =>
      cases hb : w.get b with
      | none =>
        by_cases e : a = b
        · rw [e, hb] at ha
          cases ha
        · simp [exec, move_assign, e, remove_from_Folders, ha, move_contents, get_forEach,
            hb] at h
      | some _ => exact ⟨rfl, rfl⟩
  | swap a b =>
    show (w.get a).isSome ∧ (w.get b).isSome
    cases ha : w.get a with
    | none => simp [exec, swap, ha] at h
    | some t =>
      cases hb : w.get b with
      | none => simp [exec, swap, ha, hb] at h
      | some _ => exact ⟨rfl, rfl⟩
  | save m f =>
    show (w.get m).isSome ∧ f < w.flds.length
    cases hm : w.get m with
    | none => simp [exec, save, hm] at h
    | some _ =>
      by_cases hf : f < w.flds.length
      · exact ⟨rfl, hf⟩
      · simp [exec, save, hm, hf] at h
  | remove m f =>
    show (w.get m).isSome ∧ f < w.flds.length
    cases hm : w.get m with
    | none => simp [exec, remove, hm] at h
    | some _ =>
      by_cases hf : f < w.flds.length
      · exact ⟨rfl, hf⟩
      · simp [exec, remove, hm, hf] at h
  | destroy m =>
    show (w.get m).isSome
    cases hm : w.get m with
    | none => simp [exec, destructor, remove_from_Folders, hm] at h
    | some _ => rfl

theorem run_consistent (prog : List MsgStmt) :
    ∀ (w w1 : MsgWorld), w.Consistent → w.run prog = some w1 → w1.Consistent := by
  induction prog with
  | nil =>
    intro w w1 h e
    simp only [run, Option.some.injEq] at e
    rw [← e]
    exact h
  | cons s rest ih =>
    intro w w1 h e
    cases hs : w.exec s with
    | none => simp [run, hs] at e
    | some w2 =>
      simp only [run, hs] at e
      obtain ⟨w3, e3, hc⟩ := exec_consistent h s (ready_of_exec hs)
      rw [hs] at e3
      cases e3
      exact ih w2 w1 hc e

theorem empty_consistent : MsgWorld.empty.Consistent := by
  intro m f
  simp [MsgWorld.empty, get, members]

end MsgWorld

namespace MsgWorld

theorem moved_members {w w1 : MsgWorld} (h : w.Consistent) (h1 : w1.Consistent) {dst src : Nat}
    {s : Message} {residue : String} (hs : w.get src = some s)
    (gd : w1.get dst = some ⟨s.contents, s.folders⟩) (gs : w1.get src = some ⟨residue, []⟩) :
    (∀ f, dst ∈ w1.members f ↔ src ∈ w.members f) ∧ (∀ f, src ∉ w1.members f) ∧
    ∃ w2, w1.destructor src = some w2 ∧ w2.flds = w1.flds := by
  refine ⟨?_, ?_, ?_⟩
  · intro f
    rw [← h1 dst f, ← h src f, gd, hs]
  · intro f
    rw [← h1 src f, gs]
    simp
  · obtain ⟨w2, e, _, _, hf⟩ := destructor_consistent h1 gs
    exact ⟨w2, e, hf rfl⟩

/-- C24. In a consistent state, let `src` be a live message.  Move construction from `src`
gives a new message `dst` with the former contents of `src`, a member of exactly the folders
that contained `src`; the folder set of `src` is then empty, no folder contains `src`, and
destroying `src` leaves every folder as it is.  Move assignment of `src` to another live
message `dst` first takes `dst` out of every folder, and then ends in the same way. -/
theorem move_transfers_folders (w : MsgWorld) (h : w.Consistent) (residue : String) (src : Nat)
    (s : Message) (hs : w.get src = some s) :
    (∃ w1, w.move_ctor residue src = some w1 ∧
      w1.get w.msgs.length = some ⟨s.contents, s.folders⟩ ∧
      (∀ f, w.msgs.length ∈ w1.members f ↔ src ∈ w.members f) ∧
      w1.get src = some ⟨residue, []⟩ ∧ (∀ f, src ∉ w1.members f) ∧
      ∃ w2, w1.destructor src = some w2 ∧ w2.flds = w1.flds) ∧
    (∀ dst t, w.get dst = some t → dst ≠ src →
      ∃ w1 w2 w3, w.remove_from_Folders dst = some w1 ∧ (∀ f, dst ∉ w1.members f) ∧
        w1.move_contents residue dst src = some w2 ∧ w2.move_Folders dst src = some w3 ∧
        w.move_assign residue dst src = some w3 ∧
        w3.get dst = some ⟨s.contents, s.folders⟩ ∧
        (∀ f, dst ∈ w3.members f ↔ src ∈ w.members f) ∧
        w3.get src = some ⟨residue, []⟩ ∧ (∀ f, src ∉ w3.members f) ∧
        ∃ w4, w3.destructor src = some w4 ∧ w4.flds = w3.flds) := by
  refine ⟨?_, ?_⟩
  · obtain ⟨w1, e, hc, gd, gs⟩ := move_ctor_spec h residue hs
    obtain ⟨m1, m2, m3⟩ := moved_members h hc hs gd gs
    exact ⟨w1, e, gd, m1, gs, m2, m3⟩
  · intro dst t hd hne
    obtain ⟨w1, w2, w3, e1, hn, e2, e3, e, hc, gd, gs⟩ := msg_move_assign_spec h residue hd hs hne
    obtain ⟨m1, m2, m3⟩ := moved_members h hc hs gd gs
    exact ⟨w1, w2, w3, e1, hn, e2, e3, e, gd, m1, gs, m2, m3⟩

theorem messageDemo_run : MsgWorld.empty.run messageDemo = some messageDemoEnd := by decide

theorem messageDemoEnd_consistent : messageDemoEnd.Consistent :=
  run_consistent messageDemo MsgWorld.empty messageDemoEnd empty_consistent messageDemo_run

theorem move_transfers_folders_witness :
    messageDemoEnd.get 1 = some ⟨"Hello World!", [0, 1]⟩ ∧
    (∃ w1, messageDemoEnd.move_ctor "" 1 = some w1 ∧
      w1.get messageDemoEnd.msgs.length = some ⟨"Hello World!", [0, 1]⟩ ∧
      (∀ f, messageDemoEnd.msgs.length ∈ w1.members f ↔ 1 ∈ messageDemoEnd.members f) ∧
      w1.get 1 = some ⟨"", []⟩ ∧ (∀ f, 1 ∉ w1.members f) ∧
      ∃ w2, w1.destructor 1 = some w2 ∧ w2.flds = w1.flds) :=
  ⟨by decide,
    (move_transfers_folders messageDemoEnd messageDemoEnd_consistent "" 1
      ⟨"Hello World!", [0, 1]⟩ (by decide)).1⟩

/-- C25. Bidirectional consistency (folder `f` is in `m.folders` exactly when message `m` is
in `f.messages`) is an invariant: it holds when nothing has been created, after the
construction of a message, and in a consistent state every statement on live messages and
existing folders (a new folder or message, copy and move construction, copy and move
assignment, also of a message to itself, `swap`, `save`, `remove`, destruction) returns a
consistent state, as does every program that runs to its end.  The demonstration ends with
`f1 = {msg2}`, `f2 = {msg2}` and `msg1` in no folder. -/
theorem consistency_invariant (w : MsgWorld) (h : w.Consistent) :
    (∀ s, w.Ready s → ∃ w1, w.exec s = some w1 ∧ w1.Consistent) ∧
    (∀ s w1, w.exec s = some w1 → w1.Consistent) ∧
    (∀ prog w1, w.run prog = some w1 → w1.Consistent) ∧
    (∀ str, (w.newMessage str).Consistent ∧
      (w.newMessage str).get w.msgs.length = some ⟨str, []⟩) ∧
    (∀ a t, w.get a = some t →
      ∃ w1, w.copy_assign a a = some w1 ∧ w1.Consistent ∧ w1.get a = some t) ∧
    MsgWorld.empty.Consistent ∧
    MsgWorld.empty.run messageDemo =
      some ⟨[some ⟨"Hello World!", []⟩, some ⟨"Hello World!", [0, 1]⟩], [⟨[1]⟩, ⟨[1]⟩]⟩ := by
  refine ⟨fun s hr => exec_consistent h s hr, ?_, fun prog w1 e => run_consistent prog w w1 h e,
    ?_, ?_, empty_consistent, by decide⟩
  · intro s w1 e
    obtain ⟨w2, e2, hc⟩ := exec_consistent h s (ready_of_exec e)
    rw [e] at e2
    cases e2
    exact hc
  · intro str
    refine ⟨newMessage_consistent h str, ?_⟩
    show (MsgWorld.mk (w.msgs ++ [some ⟨str, []⟩]) w.flds).get w.msgs.length = _
    rw [get_fresh, if_pos rfl]
  · intro a t ha
    exact copy_assign_consistent h ha ha

theorem consistency_invariant_witness :
    messageDemoEnd.Consistent ∧
    ∃ w1, messageDemoEnd.exec (MsgStmt.swap 0 1) = some w1 ∧ w1.Consistent :=
  ⟨messageDemoEnd_consistent,
    (consistency_invariant messageDemoEnd messageDemoEnd_consistent).1 (MsgStmt.swap 0 1)
      (show (messageDemoEnd.get 0).isSome ∧ (messageDemoEnd.get 1).isSome from
        ⟨by decide, by decide⟩)⟩

end MsgWorld

namespace PtrWorld

/-- C26, evaluated on the code.  After `HasPtr a("A"), a2(a), b("B");` the reference-count
invariant holds, and the constructor, the copy constructor, the copy assignment (also of an
object to itself) and the destructor keep it on this state.  `swap(a, b)` exchanges `ps` and
`i` but not `use`: afterwards `a` and `a2` share a counter and point to different strings, and
the invariant is false.  Destroying `b` then deletes the string `"A"`, to which the live
object `a2` still points. -/
theorem swap_breaks_count :
    (PtrWorld.empty.run hasPtrSetup).map counted = some true ∧
    (PtrWorld.empty.run (hasPtrSetup ++ [PtrStmt.copy_assign 0 2])).map counted = some true ∧
    (PtrWorld.empty.run (hasPtrSetup ++ [PtrStmt.copy_assign 0 0])).map counted = some true ∧
    (PtrWorld.empty.run (hasPtrSetup ++ [PtrStmt.destroy 0, PtrStmt.destroy 1])).map counted
      = some true ∧
    PtrWorld.empty.run (hasPtrSetup ++ [PtrStmt.swap 0 2]) =
      some ⟨[some "A", some "B"], [some 2, some 1],
        [some ⟨1, 0, 0⟩, some ⟨0, 0, 0⟩, some ⟨0, 0, 1⟩]⟩ ∧
    (PtrWorld.empty.run (hasPtrSetup ++ [PtrStmt.swap 0 2])).map counted = some false ∧
    PtrWorld.empty.run (hasPtrSetup ++ [PtrStmt.swap 0 2, PtrStmt.destroy 2]) =
      some ⟨[none, some "B"], [some 2, none], [some ⟨1, 0, 0⟩, some ⟨0, 0, 0⟩, none]⟩ := by
  refine ⟨by decide, by decide, by decide, by decide, by decide, by decide, by decide⟩

end PtrWorld

namespace Basket

theorem compare_iff {α : Type} (a b : Quote α) : compare a b = true ↔ a.isbn < b.isbn :=
  strLess_iff a.isbn b.isbn

theorem compare_false_iff {α : Type} (a b : Quote α) : compare a b = false ↔ b.isbn ≤ a.isbn := by
  rw [← not_lt, ← compare_iff]
  simp

theorem equiv_iff {α : Type} (e x : Quote α) :
    (!compare e x && !compare x e) = true ↔ e.isbn = x.isbn := by
  simp only [Bool.and_eq_true, Bool.not_eq_true', compare_false_iff]
  constructor
  · rintro ⟨h1, h2⟩
    exact le_antisymm h2 h1
  · intro h
    rw [h]
    exact ⟨le_refl _, le_refl _⟩

theorem mem_insert_sale {α : Type} (sale q : Quote α) (l : List (Quote α)) :
    q ∈ insert sale l ↔ q = sale ∨ q ∈ l := by
  induction l with
  | nil => simp [insert]
  | cons x rest ih =>
    unfold insert
    by_cases c : compare sale x = true
    · simp [c]
    · simp only [c, Bool.false_eq_true, if_false, List.mem_cons, ih]
      tauto

theorem insert_sorted {α : Type} (sale : Quote α) (l : List (Quote α))
    (h : l.Sorted (fun a b => a.isbn ≤ b.isbn)) :
    (insert sale l).Sorted (fun a b => a.isbn ≤ b.isbn) := by
  induction l with
  | nil => simp [insert]
  | cons x rest ih =>
    have hr : rest.Sorted (fun a b => a.isbn ≤ b.isbn) := List.Sorted.of_cons h
    have hx : ∀ b ∈ rest, x.isbn ≤ b.isbn := fun b hb => List.rel_of_sorted_cons h b hb
    unfold insert
    by_cases c : compare sale x = true
    · simp only [c, if_true]
      have c1 : sale.isbn < x.isbn := (compare_iff sale x).1 c
      refine List.sorted_cons.2 ⟨?_, h⟩
      intro b hb
      rcases List.mem_cons.1 hb with e | e
      · rw [e]; exact le_of_lt c1
      · exact le_trans (le_of_lt c1) (hx b e)
    · simp only [c, Bool.false_eq_true, if_false]
      have c1 : x.isbn ≤ sale.isbn :=
        (compare_false_iff sale x).1 (by simpa using c)
      refine List.sorted_cons.2 ⟨?_, ih hr⟩
      intro b hb
      rcases (mem_insert_sale sale b rest).1 hb with e | e
      · rw [e]; exact c1
      · exact hx b e

theorem withIsbn_cons {α : Type} (x : Quote α) (l : List (Quote α)) (k : String) :
    withIsbn (x :: l) k = withIsbn [x] k ++ withIsbn l k := by
  by_cases e : x.isbn = k
  · simp [withIsbn, e]
  · simp [withIsbn, e]

theorem withIsbn_insert {α : Type} (sale : Quote α) (l : List (Quote α)) (k : String)
    (h : l.Sorted (fun a b => a.isbn ≤ b.isbn)) :
    withIsbn (insert sale l) k = withIsbn l k ++ withIsbn [sale] k := by
  induction l with
  | nil => simp [insert, withIsbn]
  | cons x rest ih =>
    have hr : rest.Sorted (fun a b => a.isbn ≤ b.isbn) := List.Sorted.of_cons h
    have hx : ∀ b ∈ rest, x.isbn ≤ b.isbn := fun b hb => List.rel_of_sorted_cons h b hb
    unfold insert
    by_cases c : compare sale x = true
    · simp only [c, if_true]
      have c1 : sale.isbn < x.isbn := (compare_iff sale x).1 c
      by_cases e : sale.isbn = k
      · have e0 : withIsbn (x :: rest) k = [] := by
          unfold withIsbn
          rw [List.filter_eq_nil_iff]
          intro b hb
          have hb1 : x.isbn ≤ b.isbn := by
            rcases List.mem_cons.1 hb with e1 | e1
            · rw [e1]
            · exact hx b e1
          have : sale.isbn < b.isbn := lt_of_lt_of_le c1 hb1
          rw [e] at this
          simp [ne_of_gt this]
        have e1 : withIsbn (sale :: x :: rest) k = sale :: withIsbn (x :: rest) k := by
          simp [withIsbn, e]
        rw [e1, e0]
        simp [withIsbn, e]
      · simp [withIsbn, e]
    · simp only [c, Bool.false_eq_true, if_false]
      rw [withIsbn_cons x (insert sale rest), withIsbn_cons x rest, ih hr, List.append_assoc]

theorem ofSales_spec {α : Type} (sales : List (Quote α)) :
    ∀ b : Basket α, b.items.Sorted (fun a b => a.isbn ≤ b.isbn) →
      (sales.foldl add_item b).items.Sorted (fun a b => a.isbn ≤ b.isbn) ∧
      (∀ k, withIsbn (sales.foldl add_item b).items k = withIsbn b.items k ++ withIsbn sales k) ∧
      (sales.foldl add_item b).items.length = b.items.length + sales.length := by
  induction sales with
  | nil =>
    intro b hb
    refine ⟨hb, ?_, rfl⟩
    intro k
    simp [withIsbn]
  | cons s rest ih =>
    intro b hb
    obtain ⟨h1, h2, h3⟩ := ih (b.add_item s) (insert_sorted s b.items hb)
    refine ⟨h1, ?_, ?_⟩
    · intro k
      show withIsbn (rest.foldl add_item (b.add_item s)).items k = _
      rw [h2 k]
      show withIsbn (insert s b.items) k ++ _ = _
      rw [withIsbn_insert s b.items k hb, List.append_assoc, ← withIsbn_cons]
    · show (rest.foldl add_item (b.add_item s)).items.length = _
      rw [h3]
      have : (insert s b.items).length = b.items.length + 1 := by
        clear h1 h2 h3 ih hb
        induction b.items with
        | nil => simp [insert]
        | cons x t iht =>
          unfold insert
          by_cases c : compare s x = true
          · simp [c]
          · simp [c, iht]
      show (insert s b.items).length + rest.length = _
      rw [this, List.length_cons]
      omega

end Basket

namespace Basket

theorem groups_flatten {α : Type} (l : List (Quote α)) : (groups l).flatten = l := by
  induction l with
  | nil => rfl
  | cons x rest ih =>
    unfold groups
    cases hg : groups rest with
    | nil =>
      rw [hg] at ih
      simp only [List.flatten_nil] at ih
      simp [← ih]
    | cons g gs =>
      rw [hg] at ih
      cases g with
      | nil =>
        simp only [List.flatten_cons, List.nil_append] at ih
        simp [ih]
      | cons y g1 =>
        by_cases e : x.isbn = y.isbn
        · simp only [e, if_true, List.flatten_cons, List.cons_append]
          rw [← ih]
          simp
        · simp only [e, if_false, List.flatten_cons, List.cons_append, List.nil_append]
          rw [← ih]
          simp

theorem groups_grouped {α : Type} (l : List (Quote α)) (h : l.Sorted (fun a b => a.isbn ≤ b.isbn)) :
    Grouped (groups l) := by
  induction l with
  | nil => exact ⟨by simp [groups], by simp [groups]⟩
  | cons x rest ih =>
    have hr : rest.Sorted (fun a b => a.isbn ≤ b.isbn) := List.Sorted.of_cons h
    have hx : ∀ b ∈ rest, x.isbn ≤ b.isbn := fun b hb => List.rel_of_sorted_cons h b hb
    have hg := ih hr
    have hf := groups_flatten rest
    unfold groups
    cases hgs : groups rest with
    | nil => exact ⟨by simp, by simp⟩
    | cons g gs =>
      rw [hgs] at hg hf
      obtain ⟨hg1, hg2⟩ := hg
      have hp := List.pairwise_cons.1 hg2
      cases g with
      | nil => exact absurd rfl (hg1 [] (List.mem_cons_self _ _)).1
      | cons y g1 =>
        have hy : ∀ q ∈ y :: g1, q.isbn = y.isbn := fun q hq =>
          (hg1 (y :: g1) (List.mem_cons_self _ _)).2 q hq y (List.mem_cons_self _ _)
        have hyr : y ∈ rest := by
          rw [← hf]
          simp
        by_cases e : x.isbn = y.isbn
        · simp only [e, if_true]
          refine ⟨?_, ?_⟩
          · intro g hg
            rcases List.mem_cons.1 hg with e1 | e1
            · subst e1
              refine ⟨by simp, ?_⟩
              have hall : ∀ q ∈ x :: y :: g1, q.isbn = y.isbn := by
                intro q hq
                rcases List.mem_cons.1 hq with e2 | e2
                · rw [e2]; exact e
                · exact hy q e2
              intro q hq r hr
              rw [hall q hq, hall r hr]
            · exact hg1 g (List.mem_cons_of_mem _ e1)
          · refine List.pairwise_cons.2 ⟨?_, hp.2⟩
            intro g2 hg2m q hq r hr
            rcases List.mem_cons.1 hq with e2 | e2
            · rw [e2, e]
              exact hp.1 g2 hg2m y (List.mem_cons_self _ _) r hr
            · exact hp.1 g2 hg2m q e2 r hr
        · simp only [e, if_false]
          have hlt : x.isbn < y.isbn := lt_of_le_of_ne (hx y hyr) e
          refine ⟨?_, ?_⟩
          · intro g hg
            rcases List.mem_cons.1 hg with e1 | e1
            · subst e1
              refine ⟨by simp, ?_⟩
              intro q hq r hr
              rw [List.mem_singleton.1 hq, List.mem_singleton.1 hr]
            · exact hg1 g e1
          · refine List.pairwise_cons.2 ⟨?_, hg2⟩
            intro g2 hg2m q hq r hr
            rw [List.mem_singleton.1 hq]
            rcases List.mem_cons.1 hg2m with e2 | e2
            · subst e2
              rw [hy r hr]
              exact hlt
            · exact lt_trans hlt (hp.1 g2 e2 y (List.mem_cons_self _ _) r hr)

theorem findIdx_append_false {β : Type} (p : β → Bool) (l1 l2 : List β)
    (h : ∀ a ∈ l1, p a = false) : (l1 ++ l2).findIdx p = l1.length + l2.findIdx p := by
  induction l1 with
  | nil => simp
  | cons x t ih =>
    have hx : p x = false := h x (List.mem_cons_self _ _)
    have ht : ∀ a ∈ t, p a = false := fun a ha => h a (List.mem_cons_of_mem _ ha)
    rw [List.cons_append, List.findIdx_cons, hx, ih ht, List.length_cons]
    simp only [cond_false]
    omega

theorem upper_bound_group {α : Type} (pre g : List (Quote α)) (gs : List (List (Quote α))) (x : Quote α)
    (hpre : ∀ e ∈ pre, e.isbn < x.isbn) (hg : ∀ q ∈ g, q.isbn = x.isbn)
    (hgs : ∀ g2 ∈ gs, g2 ≠ [] ∧ ∀ r ∈ g2, x.isbn < r.isbn) :
    upper_bound ((pre ++ g) ++ gs.flatten) x = (pre ++ g).length := by
  unfold upper_bound
  rw [findIdx_append_false]
  · have : gs.flatten.findIdx (fun e => compare x e) = 0 := by
      cases gs with
      | nil => rfl
      | cons g2 gs2 =>
        obtain ⟨hne, hlt⟩ := hgs g2 (List.mem_cons_self _ _)
        cases g2 with
        | nil => exact absurd rfl hne
        | cons y g3 =>
          have c : compare x y = true := (compare_iff x y).2 (hlt y (List.mem_cons_self _ _))
          simp [List.findIdx_cons, c]
    rw [this]
    rfl
  · intro a ha
    rw [compare_false_iff]
    rcases List.mem_append.1 ha with h1 | h1
    · exact le_of_lt (hpre a h1)
    · exact le_of_eq (hg a h1)

theorem count_group {α : Type} (pre g : List (Quote α)) (gs : List (List (Quote α))) (x : Quote α)
    (hpre : ∀ e ∈ pre, e.isbn < x.isbn) (hg : ∀ q ∈ g, q.isbn = x.isbn)
    (hgs : ∀ g2 ∈ gs, ∀ r ∈ g2, x.isbn < r.isbn) :
    count ((pre ++ g) ++ gs.flatten) x = g.length := by
  unfold count
  rw [List.countP_append, List.countP_append]
  have h1 : pre.countP (fun e => !compare e x && !compare x e) = 0 := by
    rw [List.countP_eq_zero]
    intro a ha
    rw [equiv_iff]
    exact ne_of_lt (hpre a ha)
  have h2 : g.countP (fun e => !compare e x && !compare x e) = g.length := by
    rw [List.countP_eq_length]
    intro a ha
    rw [equiv_iff]
    exact hg a ha
  have h3 : gs.flatten.countP (fun e => !compare e x && !compare x e) = 0 := by
    rw [List.countP_eq_zero]
    intro a ha
    rw [equiv_iff]
    obtain ⟨g2, hg2, ha2⟩ := List.mem_flatten.1 ha
    exact ne_of_gt (hgs g2 hg2 a ha2)
  rw [h1, h2, h3]
  omega

theorem receiptLoop_groups {α : Type} [Add α] [Mul α] [Sub α] [One α] [NatCast α]
    (gs : List (List (Quote α))) (hg : Grouped gs) :
    ∀ (pre : List (Quote α)) (sum : α) (fuel : Nat), gs.length < fuel →
      (∀ e ∈ pre, ∀ g ∈ gs, ∀ q ∈ g, e.isbn < q.isbn) →
      receiptLoop (pre ++ gs.flatten) fuel pre.length sum = some (gs.foldl addGroup sum) := by
  induction gs with
  | nil =>
    intro pre sum fuel hf _
    cases fuel with
    | zero => omega
    | succ f =>
      have e : (pre ++ ([] : List (List (Quote α))).flatten)[pre.length]? = none :=
        List.getElem?_eq_none (by simp)
      simp only [receiptLoop, e, List.foldl_nil]
  | cons g gs ih =>
    intro pre sum fuel hf hpre
    obtain ⟨hg1, hg2⟩ := hg
    have hp := List.pairwise_cons.1 hg2
    have hgr : Grouped gs := ⟨fun g2 h2 => hg1 g2 (List.mem_cons_of_mem _ h2), hp.2⟩
    cases fuel with
    | zero => omega
    | succ f =>
      cases g with
      | nil => exact absurd rfl (hg1 [] (List.mem_cons_self _ _)).1
      | cons x g1 =>
        have hx : ∀ q ∈ x :: g1, q.isbn = x.isbn := fun q hq =>
          (hg1 (x :: g1) (List.mem_cons_self _ _)).2 q hq x (List.mem_cons_self _ _)
        have hpx : ∀ e ∈ pre, e.isbn < x.isbn := fun e he =>
          hpre e he (x :: g1) (List.mem_cons_self _ _) x (List.mem_cons_self _ _)
        have hlater : ∀ g2 ∈ gs, ∀ r ∈ g2, x.isbn < r.isbn := fun g2 h2 r hr =>
          hp.1 g2 h2 x (List.mem_cons_self _ _) r hr
        have eL : pre ++ ((x :: g1) :: gs).flatten = (pre ++ (x :: g1)) ++ gs.flatten := by
          rw [List.flatten_cons, List.append_assoc]
        have e : (pre ++ ((x :: g1) :: gs).flatten)[pre.length]? = some x := by
          rw [List.flatten_cons, List.getElem?_append_right (le_refl _)]
          simp
        have eu := upper_bound_group pre (x :: g1) gs x hpx hx
          (fun g2 h2 => ⟨(hg1 g2 (List.mem_cons_of_mem _ h2)).1, hlater g2 h2⟩)
        have ec := count_group pre (x :: g1) gs x hpx hx hlater
        simp only [receiptLoop, e]
        rw [eL, eu, ec]
        rw [ih hgr (pre ++ (x :: g1)) _ f (by simp only [List.length_cons] at hf; omega)]
        · rfl
        · intro e he g2 h2 q hq
          rcases List.mem_append.1 he with h1 | h1
          · exact hpre e h1 g2 (List.mem_cons_of_mem _ h2) q hq
          · rw [hx e h1]
            exact hlater g2 h2 q hq

end Basket

theorem elimDups_spec (words : List String) :
    List.Sorted (· < ·) (elimDups words) ∧ ∀ s, s ∈ elimDups words ↔ s ∈ words := by
  obtain ⟨h1, h2⟩ := unique_spec (sort strLess words) (sort_strLess_sorted words)
  refine ⟨h1, ?_⟩
  intro s
  have e : elimDups words = unique (sort strLess words) := rfl
  rw [e, h2 s]
  exact (sort_perm strLess words).mem_iff

theorem sorted_lt_ext (l1 l2 : List String) (h1 : List.Sorted (· < ·) l1)
    (h2 : List.Sorted (· < ·) l2) (h : ∀ s, s ∈ l1 ↔ s ∈ l2) : l1 = l2 := by
  have p : l1.Perm l2 := (List.perm_ext_iff_of_nodup h1.nodup h2.nodup).2 h
  exact List.eq_of_perm_of_sorted p (List.Pairwise.imp (fun hab => le_of_lt hab) h1)
    (List.Pairwise.imp (fun hab => le_of_lt hab) h2)

namespace Basket

theorem mem_withIsbn {α : Type} (l : List (Quote α)) (q : Quote α) (k : String) :
    q ∈ withIsbn l k ↔ q ∈ l ∧ q.isbn = k := by
  simp [withIsbn]

theorem withIsbn_append {α : Type} (l1 l2 : List (Quote α)) (k : String) :
    withIsbn (l1 ++ l2) k = withIsbn l1 k ++ withIsbn l2 k := by
  simp [withIsbn]

theorem withIsbn_self {α : Type} (g : List (Quote α)) (k : String) (h : ∀ q ∈ g, q.isbn = k) :
    withIsbn g k = g := by
  unfold withIsbn
  rw [List.filter_eq_self]
  intro q hq
  simp [h q hq]

theorem withIsbn_none {α : Type} (g : List (Quote α)) (k : String) (h : ∀ q ∈ g, q.isbn ≠ k) :
    withIsbn g k = [] := by
  unfold withIsbn
  rw [List.filter_eq_nil_iff]
  intro q hq
  simp [h q hq]

theorem groupKey_mem {α : Type} {g : List (Quote α)} {q : Quote α}
    (h : ∀ q ∈ g, ∀ r ∈ g, q.isbn = r.isbn) (hq : q ∈ g) : groupKey g = q.isbn := by
  cases g with
  | nil => cases hq
  | cons x t => exact h x (List.mem_cons_self _ _) q hq

theorem withIsbn_group {α : Type} (gs : List (List (Quote α))) (hg : Grouped gs) :
    ∀ g ∈ gs, withIsbn gs.flatten (groupKey g) = g := by
  induction gs with
  | nil =>
    intro g hgm
    cases hgm
  | cons g0 gs ih =>
    intro g hgm
    obtain ⟨hg1, hg2⟩ := hg
    have hp := List.pairwise_cons.1 hg2
    have hgr : Grouped gs := ⟨fun g2 h2 => hg1 g2 (List.mem_cons_of_mem _ h2), hp.2⟩
    obtain ⟨hne, hall⟩ := hg1 g hgm
    rw [List.flatten_cons, withIsbn_append]
    rcases List.mem_cons.1 hgm with e | e
    · subst e
      rw [withIsbn_self g (groupKey g) (fun q hq => (groupKey_mem hall hq).symm),
        withIsbn_none, List.append_nil]
      intro q hq
      obtain ⟨g2, h2, hq2⟩ := List.mem_flatten.1 hq
      cases g with
      | nil => exact absurd rfl hne
      | cons x t => exact ne_of_gt (hp.1 g2 h2 x (List.mem_cons_self _ _) q hq2)
    · rw [ih hgr g e, withIsbn_none, List.nil_append]
      intro q hq
      cases g with
      | nil => exact absurd rfl hne
      | cons x t => exact ne_of_lt (hp.1 (x :: t) e q hq x (List.mem_cons_self _ _))

theorem grouped_length {α : Type} (gs : List (List (Quote α))) (hg : ∀ g ∈ gs, g ≠ []) :
    gs.length ≤ gs.flatten.length := by
  induction gs with
  | nil => simp
  | cons g gs ih =>
    have h1 := ih (fun g2 h2 => hg g2 (List.mem_cons_of_mem _ h2))
    have h2 : 0 < g.length := List.length_pos.2 (hg g (List.mem_cons_self _ _))
    rw [List.flatten_cons, List.length_append, List.length_cons]
    omega

theorem groupKeys_sorted {α : Type} (gs : List (List (Quote α))) (hg : Grouped gs) :
    List.Sorted (· < ·) (gs.map groupKey) := by
  obtain ⟨hg1, hg2⟩ := hg
  refine List.pairwise_map.2 (List.Pairwise.imp_of_mem ?_ hg2)
  intro g1 g2 h1 h2 h
  obtain ⟨hne1, _⟩ := hg1 g1 h1
  obtain ⟨hne2, _⟩ := hg1 g2 h2
  cases g1 with
  | nil => exact absurd rfl hne1
  | cons x t =>
    cases g2 with
    | nil => exact absurd rfl hne2
    | cons y u => exact h x (List.mem_cons_self _ _) y (List.mem_cons_self _ _)

theorem mem_groupKeys {α : Type} (gs : List (List (Quote α))) (hg : Grouped gs) (k : String) :
    k ∈ gs.map groupKey ↔ ∃ q ∈ gs.flatten, q.isbn = k := by
  obtain ⟨hg1, _⟩ := hg
  constructor
  · intro h
    obtain ⟨g, hgm, e⟩ := List.mem_map.1 h
    obtain ⟨hne, _⟩ := hg1 g hgm
    cases g with
    | nil => exact absurd rfl hne
    | cons x t => exact ⟨x, List.mem_flatten.2 ⟨x :: t, hgm, List.mem_cons_self _ _⟩, e⟩
  · rintro ⟨q, hq, e⟩
    obtain ⟨g, hgm, hqg⟩ := List.mem_flatten.1 hq
    refine List.mem_map.2 ⟨g, hgm, ?_⟩
    rw [groupKey_mem (hg1 g hgm).2 hqg, e]

theorem total_receipt_spec {α : Type} [Add α] [Mul α] [Sub α] [One α] [Zero α] [NatCast α]
    (sales : List (Quote α)) (fuel : Nat) (hf : sales.length < fuel) :
    (ofSales sales).total_receipt fuel = some (receiptSpec sales) := by
  obtain ⟨hs, hw, hl⟩ := ofSales_spec sales (empty : Basket α) List.sorted_nil
  have hw1 : ∀ k, withIsbn (ofSales sales).items k = withIsbn sales k := by
    intro k
    have := hw k
    simpa [withIsbn, empty] using this
  have hl1 : (ofSales sales).items.length = sales.length := by
    have := hl
    simpa [empty] using this
  have hg := groups_grouped (ofSales sales).items hs
  have hfl := groups_flatten (ofSales sales).items
  have hlen : (groups (ofSales sales).items).length < fuel := by
    have := grouped_length (groups (ofSales sales).items) (fun g h => (hg.1 g h).1)
    rw [hfl, hl1] at this
    omega
  have hloop := receiptLoop_groups (groups (ofSales sales).items) hg [] (0 : α) fuel hlen
    (by intro e he; cases he)
  rw [List.nil_append, hfl] at hloop
  have e1 : (ofSales sales).total_receipt fuel
      = some ((groups (ofSales sales).items).foldl addGroup 0) := hloop
  rw [e1]
  congr 1
  have hkeys : (groups (ofSales sales).items).map groupKey = elimDups (sales.map Quote.isbn) := by
    obtain ⟨s1, s2⟩ := elimDups_spec (sales.map Quote.isbn)
    refine sorted_lt_ext _ _ (groupKeys_sorted _ hg) s1 ?_
    intro k
    rw [mem_groupKeys _ hg, s2 k, hfl, List.mem_map]
    constructor
    · rintro ⟨q, hq, e⟩
      have : q ∈ withIsbn (ofSales sales).items k := (mem_withIsbn _ q k).2 ⟨hq, e⟩
      rw [hw1 k] at this
      exact ⟨q, ((mem_withIsbn _ q k).1 this).1, e⟩
    · rintro ⟨q, hq, e⟩
      have : q ∈ withIsbn sales k := (mem_withIsbn _ q k).2 ⟨hq, e⟩
      rw [← hw1 k] at this
      exact ⟨q, ((mem_withIsbn _ q k).1 this).1, e⟩
  unfold receiptSpec
  rw [← hkeys, List.foldl_map]
  apply List.foldl_ext
  intro s g hgm
  have e2 : withIsbn sales (groupKey g) = g := by
    have e3 := withIsbn_group _ hg g hgm
    rw [hfl] at e3
    rw [← hw1]
    exact e3
  show addGroup s g = _
  rw [e2]
  cases g <;> rfl

end Basket

namespace Quote

/-- C11, counterexample to the claim as stated.  For `Bulk_quote("0-201-82470-1", 50, 5,
0.19)` the call `net_price(10)` does not return `405`.  The literal `0.19` is the binary64
number `3422735716801577 * 2 ^ -54`; `1 - discount`, the product with `10` and the product
with `50` are each rounded to binary64, and the result is `405 + 2 ^ -44`, which is
`405.00000000000006`. -/
theorem net_price_demo_rounds :
    Double.literal 19 100 = ⟨some ⟨3422735716801577, -54⟩⟩ ∧
    (1 : Double) - Double.literal 19 100 = ⟨some ⟨1823957849085051, -51⟩⟩ ∧
    ((1 : Double) - Double.literal 19 100) * ((10 : Nat) : Double)
      = ⟨some ⟨1139973655678157, -47⟩⟩ ∧
    (bulk "0-201-82470-1" (Double.ofInt 50) 5 (Double.literal 19 100)).net_price 10
      = ⟨some ⟨405 * 2 ^ 44 + 1, -44⟩⟩ ∧
    Double.ofInt 405 = ⟨some ⟨405, 0⟩⟩ ∧
    (bulk "0-201-82470-1" (Double.ofInt 50) 5 (Double.literal 19 100)).net_price 10
      ≠ Double.ofInt 405 := by
  decide

/-- C11, as the code has it.  For every `Bulk_quote` with unit price `p`, threshold quantity
`q` and discount `d`, and every count `n`, over any arithmetic: `net_price(n)` is the result
of `(1 - d) * n * p`, computed from left to right, when `n >= q`, and the result of `n * p`,
which is `Quote::net_price`, when `n < q`.  In binary64, where every result is rounded, the
demonstration values are `405 + 2 ^ -44` for `Bulk_quote(50, 5, 0.19).net_price(10)` and
`562.5` for `Bulk_quote(50, 10, 0.25).net_price(15)`; `print_total` returns these values. -/
theorem bulk_quote_net_price {α : Type} [Mul α] [Sub α] [One α] [NatCast α]
    (book : String) (p d : α) (q n : Nat) :
    (q ≤ n → (bulk book p q d).net_price n = (1 - d) * (n : α) * p) ∧
    (n < q → (bulk book p q d).net_price n = (n : α) * p ∧
      (bulk book p q d).net_price n = (quote book p).net_price n) ∧
    (bulk book p q d).print_total n = (bulk book p q d).net_price n ∧
    (bulk "0-201-82470-1" (Double.ofInt 50) 5 (Double.literal 19 100)).net_price 10
      = ⟨some ⟨405 * 2 ^ 44 + 1, -44⟩⟩ ∧
    Double.literal 25 100 = Double.quarter ∧
    (bulk "0-201-54848-8" (Double.ofInt 50) 10 Double.quarter).net_price 15
      = ⟨some ⟨1125, -1⟩⟩ := by
  refine ⟨?_, ?_, rfl, by decide, by decide, by decide⟩
  · intro h
    simp only [net_price, ge_iff_le, h, if_true]
  · intro h
    have hn : ¬ q ≤ n := Nat.not_le.2 h
    simp only [net_price, ge_iff_le, hn, if_false, and_self]

end Quote

namespace Basket

/-- C22. For the basket made by `add_item` from any sequence of sales, `total_receipt` ends
(fuel above the number of items is enough) and returns the sum, over the distinct ISBNs in
ascending order, of `net_price(c)` of the first-added item with that ISBN, where `c` is the
number of items with that ISBN; this holds for any arithmetic on the prices.  For the basket
of the demonstration the two groups cost `150` each and the total is `300`, all results being
exact binary64 numbers. -/
theorem total_receipt_sums_groups {α : Type} [Add α] [Mul α] [Sub α] [One α] [Zero α]
    [NatCast α] (sales : List (Quote α)) (fuel : Nat) (hf : sales.length < fuel) :
    (ofSales sales).total_receipt fuel = some (receiptSpec sales) ∧
    (ofSales basketDemo).total_receipt 3 = some (Double.ofInt 300) ∧
    (ofSales basketDemo).items.map Quote.isbn =
      ["0-201-54848-8", "0-201-54848-8", "0-201-54848-8", "0-201-54848-8",
       "0-201-82470-1", "0-201-82470-1", "0-201-82470-1"] ∧
    (Quote.bulk "0-201-54848-8" (Double.ofInt 50) 3 Double.quarter).net_price 4
      = Double.ofInt 150 ∧
    (Quote.quote "0-201-82470-1" (Double.ofInt 50)).net_price 3 = Double.ofInt 150 ∧
    receiptSpec basketDemo = Double.ofInt 300 :=
  ⟨total_receipt_spec sales fuel hf, by decide, by decide, by decide, by decide, by decide⟩

theorem total_receipt_sums_groups_witness :
    basketDemo.length < 8 ∧
    (ofSales basketDemo).total_receipt 8 = some (receiptSpec basketDemo) :=
  ⟨by decide, (total_receipt_sums_groups basketDemo 8 (by decide)).1⟩

end Basket

end LearnCxx
